import Mathlib

/-!
# Expression evaluator (`src/main.cpp`): lexer, recursive-descent parser, evaluation

A shallow embedding of the `Lexer` and `Parser` classes of `src/main.cpp`.

* The input `std::string` is a `List Char`; the cursor `pos` is a `Nat`. The program
  reads bytes; every character the lexer recognises is ASCII, and any other character
  is, byte or `Char`, an unknown character.
* `double` and its operations are not defined in the repository: they are taken as a
  parameter `Arith α` (the type, `+ - * /`, unary minus, `==`, the literal `0.0` and
  `std::stod`). Every general theorem holds for every such interpretation. A concrete
  interpretation, `F64.arith` (IEEE-754 binary64, round to nearest even), is used where
  a statement has to be evaluated on a concrete input, and where a claim is about the
  numbers that the `double`s stand for (C10, C15).
* `throw runtime_error(...)` becomes an error result `Err`.
* The mutually recursive parser functions take a fuel argument bounding the depth of the
  call chain; `evalLine` supplies `3 * input.length + 3`, which is enough on every input
  (`evalLine_ne_outOfFuel`), and more fuel never changes a result (`fuel_succ`).
* The proofs go through the token stream of a text (`Lexes`): the parser sees its lexer
  only through the tokens (`parser_sim`), so evaluating a text is evaluating its token
  stream (`evalLine_eq_sEval`).
* Of `main` (main.cpp:130-152) the evaluation of a line is embedded (`evalLine`) and,
  on the binary64 interpretation, the decision how its result is printed
  (`printResult`, main.cpp:143-145: the cast to `long long`, the comparison with
  `1e-12`). The prompt loop and the characters that `operator<<` writes are not.
-/

namespace ExprEval

/-! ## Tokens and errors -/

/-- `enum class TokenType` (main.cpp:4). -/
inductive TokenType where
  | END | NUMBER | PLUS | MINUS | MUL | DIV | LPAREN | RPAREN
deriving DecidableEq, Repr

/-- `struct Token` (main.cpp:6-10): `value` is only used when `type == NUMBER`. -/
structure Token (α : Type) where
  type : TokenType
  value : α
deriving DecidableEq, Repr

/-- The `runtime_error`s thrown by the lexer and the parser, under the names the
specification gives them. The messages of the source are
`"Invalid number: " + numStr` (main.cpp:47), `"Unknown character: '" + c + "'"`
(main.cpp:51), `"Division by zero"` (main.cpp:86), `"Expected ')'"` (main.cpp:102),
`"Unexpected token in factor"` (main.cpp:115) and
`"Unexpected input after expression"` (main.cpp:125). -/
inductive Err where
  | InvalidNumber (numStr : List Char)
  | UnknownCharacter (c : Char)
  | DivisionByZero
  | ExpectedCloseParen
  | UnexpectedToken
  | TrailingInput
deriving DecidableEq, Repr

/-- The interpretation of `double`: what the program uses of it. `stod` returns `none`
where `std::stod` throws (main.cpp:44, caught at main.cpp:46). -/
structure Arith (α : Type) where
  zero : α
  add : α → α → α
  sub : α → α → α
  mul : α → α → α
  div : α → α → α
  neg : α → α
  eq : α → α → Bool
  stod : List Char → Option α

/-- `Token(TokenType t = TokenType::END, double v = 0.0)` with the default value. -/
def Token.simple {α : Type} (A : Arith α) (t : TokenType) : Token α := ⟨t, A.zero⟩

/-! ## Lexer -/

/-- `isspace((unsigned char)c)` in the "C" locale: space, `\t`, `\n`, `\v`, `\f`, `\r`. -/
def isspace (c : Char) : Bool :=
  c = ' ' || c = '\t' || c = '\n' || c = '\x0b' || c = '\x0c' || c = '\r'

/-- `isdigit((unsigned char)c)`. -/
def isdigit (c : Char) : Bool := '0' ≤ c && c ≤ '9'

/-- `class Lexer` (main.cpp:12-16): the input and the cursor. -/
structure Lexer where
  s : List Char
  pos : Nat
deriving DecidableEq, Repr

/-- The loop of main.cpp:19, `while (pos < s.size() && isspace(s[pos])) ++pos;`.
The first argument is the unread part `s[pos..]`; the result is the new `pos`. -/
def skipSpaces : List Char → Nat → Nat
  | [], pos => pos
  | c :: rest, pos => if isspace c then skipSpaces rest (pos + 1) else pos

/-- The loop of main.cpp:36-41 that extends a number. The first argument is the unread
part `s[pos..]`; the result is the new `pos`. -/
def scanNumber : List Char → Nat → Bool → Nat
  | [], pos, _ => pos
  | nc :: rest, pos, dotSeen =>
    if isdigit nc then scanNumber rest (pos + 1) dotSeen
    else if nc = '.' && !dotSeen then scanNumber rest (pos + 1) true
    else pos

/-- `s.substr(start, len)`. -/
def substr (s : List Char) (start len : Nat) : List Char := (s.drop start).take len

/-- `Lexer::nextToken` (main.cpp:18-52). Returns the lexer after the call (the cursor
moves also when the call throws) and the token or the error. -/
def Lexer.nextToken {α : Type} (A : Arith α) (lx : Lexer) : Lexer × Except Err (Token α) :=
  let pos := skipSpaces (lx.s.drop lx.pos) lx.pos
  match lx.s[pos]? with
  | none => (⟨lx.s, pos⟩, .ok (Token.simple A .END))
  | some c =>
    if c = '+' then (⟨lx.s, pos + 1⟩, .ok (Token.simple A .PLUS))
    else if c = '-' then (⟨lx.s, pos + 1⟩, .ok (Token.simple A .MINUS))
    else if c = '*' then (⟨lx.s, pos + 1⟩, .ok (Token.simple A .MUL))
    else if c = '/' then (⟨lx.s, pos + 1⟩, .ok (Token.simple A .DIV))
    else if c = '(' then (⟨lx.s, pos + 1⟩, .ok (Token.simple A .LPAREN))
    else if c = ')' then (⟨lx.s, pos + 1⟩, .ok (Token.simple A .RPAREN))
    else if isdigit c || c = '.' then
      let start := pos
      let pos := scanNumber (lx.s.drop (pos + 1)) (pos + 1) (c = '.')
      let numStr := substr lx.s start (pos - start)
      match A.stod numStr with
      | some val => (⟨lx.s, pos⟩, .ok ⟨.NUMBER, val⟩)
      | none => (⟨lx.s, pos⟩, .error (.InvalidNumber numStr))
    else (⟨lx.s, pos⟩, .error (.UnknownCharacter c))

/-! ## Parser -/

/-- Outcome of a parser function run with a fuel bound: a result, an error thrown, or
`outOfFuel` when the bound on the depth of the call chain was too small. -/
inductive Res (β : Type) where
  | ok (v : β)
  | err (e : Err)
  | outOfFuel
deriving DecidableEq, Repr

/-- Sequencing: an error or `outOfFuel` propagates, as an exception does. -/
def Res.bind {β γ : Type} : Res β → (β → Res γ) → Res γ
  | .ok v, f => f v
  | .err e, _ => .err e
  | .outOfFuel, _ => .outOfFuel

/-- `class Parser` (main.cpp:55-57): the lexer and the current token. The parser uses
its lexer only through `nextToken()`, so the embedding is parametric in the lexer's
state `σ` and that function (`next`); `Parser.create`, `Parser.parse` and `evalLine`
below fix them to `Lexer` and `Lexer.nextToken`. -/
structure Parser (σ α : Type) where
  lexer : σ
  cur : Token α

section Generic
variable {σ α : Type} (A : Arith α) (next : σ → σ × Except Err (Token α))

/-- `Parser::advance` (main.cpp:59): `cur = lexer.nextToken();`. -/
def advance (p : Parser σ α) : Res (Parser σ α) :=
  match next p.lexer with
  | (lx, .ok t) => .ok ⟨lx, t⟩
  | (_, .error e) => .err e

mutual
/-- `Parser::parseExpression` (main.cpp:66-76). -/
def parseExpression : Nat → Parser σ α → Res (α × Parser σ α)
  | 0, _ => .outOfFuel
  | n + 1, p => (parseTerm n p).bind fun r => exprLoop n r.1 r.2
/-- The `while` loop of `parseExpression` (main.cpp:68-74), entered with `value`. -/
def exprLoop : Nat → α → Parser σ α → Res (α × Parser σ α)
  | 0, _, _ => .outOfFuel
  | n + 1, value, p =>
    if p.cur.type = .PLUS ∨ p.cur.type = .MINUS then
      (advance next p).bind fun p1 =>
        (parseTerm n p1).bind fun r =>
          exprLoop n (if p.cur.type = .PLUS then A.add value r.1 else A.sub value r.1) r.2
    else .ok (value, p)
/-- `Parser::parseTerm` (main.cpp:78-91). -/
def parseTerm : Nat → Parser σ α → Res (α × Parser σ α)
  | 0, _ => .outOfFuel
  | n + 1, p => (parseFactor n p).bind fun r => termLoop n r.1 r.2
/-- The `while` loop of `parseTerm` (main.cpp:80-89), entered with `value`. -/
def termLoop : Nat → α → Parser σ α → Res (α × Parser σ α)
  | 0, _, _ => .outOfFuel
  | n + 1, value, p =>
    if p.cur.type = .MUL ∨ p.cur.type = .DIV then
      (advance next p).bind fun p1 =>
        (parseFactor n p1).bind fun r =>
          if p.cur.type = .MUL then termLoop n (A.mul value r.1) r.2
          else if A.eq r.1 A.zero then .err .DivisionByZero
          else termLoop n (A.div value r.1) r.2
    else .ok (value, p)
/-- `Parser::parseFactor` (main.cpp:93-116). -/
def parseFactor : Nat → Parser σ α → Res (α × Parser σ α)
  | 0, _ => .outOfFuel
  | n + 1, p =>
    if p.cur.type = .NUMBER then
      (advance next p).bind fun p1 => .ok (p.cur.value, p1)
    else if p.cur.type = .LPAREN then
      (advance next p).bind fun p1 =>
        (parseExpression n p1).bind fun r =>
          if r.2.cur.type ≠ .RPAREN then .err .ExpectedCloseParen
          else (advance next r.2).bind fun p2 => .ok (r.1, p2)
    else if p.cur.type = .PLUS then
      (advance next p).bind fun p1 => parseFactor n p1
    else if p.cur.type = .MINUS then
      (advance next p).bind fun p1 =>
        (parseFactor n p1).bind fun r => .ok (A.neg r.1, r.2)
    else .err .UnexpectedToken
end

/-- The constructor `Parser::Parser` (main.cpp:119-121) over a lexer state: `cur` is
default-constructed, then `advance()` loads the first token. -/
def Parser.init (lx : σ) : Res (Parser σ α) :=
  advance next ⟨lx, Token.simple A .END⟩

/-- `Parser::parse` (main.cpp:123-127) over a lexer state. -/
def Parser.parseWith (fuel : Nat) (p : Parser σ α) : Res α :=
  (parseExpression A next fuel p).bind fun r =>
    if r.2.cur.type ≠ .END then .err .TrailingInput else .ok r.1

/-- Construct, then parse, over a lexer state. -/
def runWith (fuel : Nat) (lx : σ) : Res α :=
  (Parser.init A next lx).bind (Parser.parseWith A next fuel)

end Generic

/-- `Parser::Parser(const string& input)` (main.cpp:119-121). -/
def Parser.create {α : Type} (A : Arith α) (input : List Char) : Res (Parser Lexer α) :=
  Parser.init A (Lexer.nextToken A) ⟨input, 0⟩

/-- `Parser::parse` (main.cpp:123-127). -/
def Parser.parse {α : Type} (A : Arith α) (fuel : Nat) (p : Parser Lexer α) : Res α :=
  Parser.parseWith A (Lexer.nextToken A) fuel p

/-- The `try` block of `main` (main.cpp:140-141): `Parser p(line); p.parse()`. This is
what the specification calls evaluating, or parsing, an input text. (`main` itself does
not evaluate an empty line, nor the lines `quit` and `exit`.) The fuel is enough on every
input: `evalLine_ne_outOfFuel`. -/
def evalLine {α : Type} (A : Arith α) (input : List Char) : Res α :=
  (Parser.create A input).bind (Parser.parse A (3 * input.length + 3))

/-! ## A concrete interpretation of `double`: IEEE-754 binary64

Used to evaluate the program on concrete inputs and to state what is claimed of the
values of `double`s. Arithmetic is correctly rounded (round to nearest, ties to even).
`stod` is defined on what the scanner of `nextToken` can hand it (decimal digits with at
most one `.`): it fails when there is no digit
(`std::invalid_argument`) and when `strtod` reports `ERANGE` (`std::out_of_range`), which
is on overflow and, with glibc, on underflow: an inexact result that is tiny, tininess
being detected after rounding (to 53 bits, with an unbounded exponent). -/

/-- A binary64 value: `fin neg m e` is `±m·2^e` (normal: `2^52 ≤ m < 2^53` and
`-1074 ≤ e ≤ 971`; subnormal or zero: `m < 2^52` and `e = -1074`). -/
inductive F64 where
  | fin (neg : Bool) (m : Nat) (e : Int)
  | inf (neg : Bool)
  | nan
deriving DecidableEq, Repr

namespace F64

/-- Number of binary digits of `n`, by halving; `fuel ≥` that number. -/
def bitLen : Nat → Nat → Nat
  | 0, _ => 0
  | fuel + 1, n => if n = 0 then 0 else bitLen fuel (n / 2) + 1

/-- `p / q` (with `0 < q`) rounded to nearest, ties to even; the flag says whether the
result is inexact. An overflow gives the infinity. -/
def round (neg : Bool) (p q : Nat) : F64 × Bool :=
  if p = 0 then (fin neg 0 (-1074), false) else
  let d : Int := (bitLen p p : Int) - (bitLen q q : Int)
  let ge : Bool := if 0 ≤ d then q * 2 ^ d.toNat ≤ p else q ≤ p * 2 ^ (-d).toNat
  let l : Int := if ge then d else d - 1
  let e : Int := max (l - 52) (-1074)
  let num : Nat := if 0 ≤ e then p else p * 2 ^ (-e).toNat
  let den : Nat := if 0 ≤ e then q * 2 ^ e.toNat else q
  let m0 := num / den
  let r := num % den
  let m := if den < 2 * r ∨ (2 * r = den ∧ m0 % 2 = 1) then m0 + 1 else m0
  let m1 := if m = 2 ^ 53 then 2 ^ 52 else m
  let e1 := if m = 2 ^ 53 then e + 1 else e
  if 971 < e1 then (inf neg, true) else (fin neg m1 e1, decide (r ≠ 0))

/-- The literal `0.0`. -/
def zero : F64 := fin false 0 (-1074)

/-- The value of a natural number (rounded). -/
def ofNat (n : Nat) : F64 := (round false n 1).1

/-- Unary minus. -/
def neg : F64 → F64
  | fin s m e => fin (!s) m e
  | inf s => inf (!s)
  | nan => nan

/-- Addition. -/
def add : F64 → F64 → F64
  | nan, _ => nan
  | _, nan => nan
  | inf s, inf t => if s = t then inf s else nan
  | inf s, fin _ _ _ => inf s
  | fin _ _ _, inf t => inf t
  | fin s m e, fin t k f =>
    let g := min e f
    let a : Int := (if s then -1 else 1) * (m * 2 ^ (e - g).toNat : Nat)
    let b : Int := (if t then -1 else 1) * (k * 2 ^ (f - g).toNat : Nat)
    let c := a + b
    if c = 0 then fin (s && t) 0 (-1074)
    else if 0 ≤ g then (round (decide (c < 0)) (c.natAbs * 2 ^ g.toNat) 1).1
    else (round (decide (c < 0)) c.natAbs (2 ^ (-g).toNat)).1

/-- Subtraction. -/
def sub (x y : F64) : F64 := add x (neg y)

/-- Multiplication. -/
def mul : F64 → F64 → F64
  | nan, _ => nan
  | _, nan => nan
  | inf s, inf t => inf (xor s t)
  | inf s, fin t k _ => if k = 0 then nan else inf (xor s t)
  | fin s m _, inf t => if m = 0 then nan else inf (xor s t)
  | fin s m e, fin t k f =>
    let g := e + f
    if 0 ≤ g then (round (xor s t) (m * k * 2 ^ g.toNat) 1).1
    else (round (xor s t) (m * k) (2 ^ (-g).toNat)).1

/-- Division. -/
def div : F64 → F64 → F64
  | nan, _ => nan
  | _, nan => nan
  | inf _, inf _ => nan
  | inf s, fin t _ _ => inf (xor s t)
  | fin s _ _, inf t => fin (xor s t) 0 (-1074)
  | fin s m e, fin t k f =>
    if k = 0 then (if m = 0 then nan else inf (xor s t))
    else (round (xor s t) (m * 2 ^ (e - f).toNat) (k * 2 ^ (f - e).toNat)).1

/-- The comparison `==`: NaN equals nothing, `-0.0 == 0.0`. -/
def eq : F64 → F64 → Bool
  | fin s m e, fin t k f => (m = 0 && k = 0) || (s = t && m = k && e = f)
  | inf s, inf t => s = t
  | _, _ => false

/-- The value of a string of decimal digits. -/
def digitsVal (ds : List Char) : Nat := ds.foldl (fun acc c => 10 * acc + (c.toNat - 48)) 0

/-- `std::stod` on a string of decimal digits with at most one `.`: the digits before
and after the `.` give the value `p / q` with `q` a power of ten. The conversion fails
without a digit, on overflow, and on underflow: an inexact result that is tiny, that is,
whose value rounded to 53 bits with an unbounded exponent is below `2^-1022`, which is
`p / q < 2^-1022 - 2^-1076`. -/
def stod (numStr : List Char) : Option F64 :=
  let ip := numStr.takeWhile (fun c => c ≠ '.')
  let fp := (numStr.dropWhile (fun c => c ≠ '.')).drop 1
  if (ip ++ fp).all isdigit && !(ip ++ fp).isEmpty then
    match round false (digitsVal (ip ++ fp)) (10 ^ fp.length) with
    | (inf _, _) => none
    | (fin s m e, inexact) =>
      if digitsVal (ip ++ fp) * 2 ^ 1076 < 10 ^ fp.length * (2 ^ 54 - 1) ∧ inexact then none
      else some (fin s m e)
    | (nan, _) => none
  else none

/-- The binary64 interpretation of `double`. -/
def arith : Arith F64 := ⟨zero, add, sub, mul, div, neg, eq, stod⟩

end F64

/-! ## Definitions used by the proofs -/

/-- The result `y` extends `x`: `x` ran out of fuel, or they are equal. -/
def Res.le {β : Type} (x y : Res β) : Prop := x = .outOfFuel ∨ y = x

/-- Two results agree up to a relation on their values. -/
def Res.Rel {β γ : Type} (Q : β → γ → Prop) : Res β → Res γ → Prop
  | .ok a, .ok b => Q a b
  | .err e, .err e1 => e = e1
  | .outOfFuel, .outOfFuel => True
  | _, _ => False

/-- Two parser states agree: the same current token, related lexers. -/
def Parser.Rel {σ τ α : Type} (R : σ → τ → Prop) (p : Parser σ α) (q : Parser τ α) : Prop :=
  p.cur = q.cur ∧ R p.lexer q.lexer

/-- Two values-with-state agree. -/
def ValRel {σ τ α : Type} (R : σ → τ → Prop) (a : α × Parser σ α) (b : α × Parser τ α) : Prop :=
  a.1 = b.1 ∧ Parser.Rel R a.2 b.2

/-- The relation `R` between the states of two lexers is kept by a call that returns a
token, and related states give the same token or error. -/
def Simulates {σ τ α : Type} (R : σ → τ → Prop)
    (next1 : σ → σ × Except Err (Token α)) (next2 : τ → τ × Except Err (Token α)) : Prop :=
  ∀ l1 l2, R l1 l2 →
    (next1 l1).2 = (next2 l2).2 ∧ (∀ t, (next1 l1).2 = .ok t → R (next1 l1).1 (next2 l2).1)

/-- A token stream: the results of the successive `nextToken()` calls that come before
the first `END`. -/
abbrev Stream (α : Type) := List (Except Err (Token α))

/-- A lexer that reads from a token stream; it returns `END` once the stream is used up. -/
def Stream.next {α : Type} (A : Arith α) : Stream α → Stream α × Except Err (Token α)
  | [] => ([], .ok (Token.simple A .END))
  | r :: rs => (rs, r)

/-- The token stream of a lexer state: what the successive calls of `nextToken` return,
up to the first `END` or the first error. -/
inductive Lexes {α : Type} (A : Arith α) : Lexer → Stream α → Prop where
  | done {lx : Lexer} (h : (lx.nextToken A).2 = .ok (Token.simple A .END)) : Lexes A lx []
  | fail {lx : Lexer} {e : Err} (h : (lx.nextToken A).2 = .error e) : Lexes A lx [.error e]
  | tok {lx : Lexer} {t : Token α} {ts : Stream α} (h : (lx.nextToken A).2 = .ok t)
      (ht : t.type ≠ .END) (hs : Lexes A (lx.nextToken A).1 ts) : Lexes A lx (.ok t :: ts)

/-- `Lexer::nextToken` read off the unread text `s[pos..]`: the number of characters the
call moves the cursor by, and what it returns (`nextToken_eq_lexText`). -/
def lexText {α : Type} (A : Arith α) : List Char → Nat × Except Err (Token α)
  | [] => (0, .ok (Token.simple A .END))
  | c :: rest =>
    if isspace c then ((lexText A rest).1 + 1, (lexText A rest).2)
    else if c = '+' then (1, .ok (Token.simple A .PLUS))
    else if c = '-' then (1, .ok (Token.simple A .MINUS))
    else if c = '*' then (1, .ok (Token.simple A .MUL))
    else if c = '/' then (1, .ok (Token.simple A .DIV))
    else if c = '(' then (1, .ok (Token.simple A .LPAREN))
    else if c = ')' then (1, .ok (Token.simple A .RPAREN))
    else if isdigit c || c = '.' then
      let len := scanNumber rest 0 (c = '.') + 1
      match A.stod ((c :: rest).take len) with
      | some val => (len, .ok ⟨.NUMBER, val⟩)
      | none => (len, .error (.InvalidNumber ((c :: rest).take len)))
    else (0, .error (.UnknownCharacter c))

/-- The number of tokens a parser over a token stream has not consumed yet, the current
one included; `0` when the current token is `END`. -/
def Parser.mu {α : Type} (p : Parser (Stream α) α) : Nat :=
  if p.cur.type = .END then 0 else p.lexer.length + 1

/-- The result `r` of a parser function entered in state `p` is not `outOfFuel`, and a
state it returns has no more unconsumed tokens than `p`. -/
def Bounded {α : Type} (p : Parser (Stream α) α) : Res (α × Parser (Stream α) α) → Prop
  | .ok a => a.2.mu ≤ p.mu
  | .err _ => True
  | .outOfFuel => False

/-! The parser over a token stream with the fuel that `fuel_bound` shows to be enough:
these functions satisfy the equations of the source without a fuel argument
(`sFactor_eq`, `sTermLoop_eq`, `sTerm_eq`, `sExprLoop_eq`, `sExpr_eq`). -/

/-- `parseFactor` over a token stream. -/
def sFactor {α : Type} (A : Arith α) (p : Parser (Stream α) α) : Res (α × Parser (Stream α) α) :=
  parseFactor A (Stream.next A) (3 * p.mu + 1) p

/-- The loop of `parseTerm` over a token stream. -/
def sTermLoop {α : Type} (A : Arith α) (v : α) (p : Parser (Stream α) α) :
    Res (α × Parser (Stream α) α) :=
  termLoop A (Stream.next A) (3 * p.mu + 1) v p

/-- `parseTerm` over a token stream. -/
def sTerm {α : Type} (A : Arith α) (p : Parser (Stream α) α) : Res (α × Parser (Stream α) α) :=
  parseTerm A (Stream.next A) (3 * p.mu + 2) p

/-- The loop of `parseExpression` over a token stream. -/
def sExprLoop {α : Type} (A : Arith α) (v : α) (p : Parser (Stream α) α) :
    Res (α × Parser (Stream α) α) :=
  exprLoop A (Stream.next A) (3 * p.mu + 2) v p

/-- `parseExpression` over a token stream. -/
def sExpr {α : Type} (A : Arith α) (p : Parser (Stream α) α) : Res (α × Parser (Stream α) α) :=
  parseExpression A (Stream.next A) (3 * p.mu + 3) p

/-- `advance` over a token stream. -/
def sAdvance {α : Type} (A : Arith α) (p : Parser (Stream α) α) : Res (Parser (Stream α) α) :=
  advance (Stream.next A) p

/-- The parser state after the constructor, over a token stream. -/
def enter {α : Type} (A : Arith α) (ts : Stream α) : Res (Parser (Stream α) α) :=
  Parser.init A (Stream.next A) ts

/-- Constructing the parser and calling `parse`, over a token stream. -/
def sEval {α : Type} (A : Arith α) (ts : Stream α) : Res α :=
  (enter A ts).bind fun p => (sExpr A p).bind fun r =>
    if r.2.cur.type ≠ .END then .err .TrailingInput else .ok r.1

/-- The text `rest` ends a number that is scanned right before it: it is empty, or its
first character is neither a digit nor `.`. -/
def Stops (rest : List Char) : Prop :=
  ∀ c, rest.head? = some c → isdigit c = false ∧ c ≠ '.'

/-- A token stream without errors (and, as every stream of a text, without `END`). -/
def Clean {α : Type} (ts : Stream α) : Prop :=
  ∀ x ∈ ts, ∃ t : Token α, x = .ok t ∧ t.type ≠ .END

/-- No token of the stream is `END`. -/
def NoEnd {α : Type} (ts : Stream α) : Prop :=
  ∀ t : Token α, .ok t ∈ ts → t.type ≠ .END

/-- The token type of the six one-character tokens (main.cpp:24-29). -/
def opType (c : Char) : Option TokenType :=
  if c = '+' then some .PLUS
  else if c = '-' then some .MINUS
  else if c = '*' then some .MUL
  else if c = '/' then some .DIV
  else if c = '(' then some .LPAREN
  else if c = ')' then some .RPAREN
  else none

/-- A number literal: decimal digits with at most one `.`, not empty. -/
def NumberLiteral (ds : List Char) : Prop :=
  ds ≠ [] ∧ (∀ c ∈ ds, isdigit c = true ∨ c = '.') ∧ ds.count '.' ≤ 1

/-- A parser state over a token stream as the parser can reach it on the stream of a
text: no `END` among the tokens to come, and nothing to come once the current token is
`END`. -/
def WF {α : Type} (p : Parser (Stream α) α) : Prop :=
  NoEnd p.lexer ∧ (p.cur.type = .END → p.lexer = [])

/-- From state `p` the parser reached state `q` by consuming tokens (none of them an
error). -/
def Consumed {α : Type} (p q : Parser (Stream α) α) : Prop :=
  WF q ∧ ∃ pre : Stream α, Clean pre ∧ p.lexer = pre ++ q.lexer

/-- The state that corresponds to `p` when the token `t` and then the stream `r` follow
the stream `p` reads from: where `p` has reached `END`, the current token is `t`. -/
def extend {α : Type} (t : Token α) (r : Stream α) (p : Parser (Stream α) α) :
    Parser (Stream α) α :=
  if p.cur.type = .END then ⟨r, t⟩ else ⟨p.lexer ++ .ok t :: r, p.cur⟩

/-! ### Infix trees over integer literals (for C1) -/

/-- The four binary operators. -/
inductive BinOp where
  | add | sub | mul | div
deriving DecidableEq, Repr

/-- The character of an operator. -/
def BinOp.char : BinOp → Char
  | .add => '+' | .sub => '-' | .mul => '*' | .div => '/'

/-- The token type of an operator. -/
def BinOp.type : BinOp → TokenType
  | .add => .PLUS | .sub => .MINUS | .mul => .MUL | .div => .DIV

/-- Precedence: `+ -` bind loosest (0), `* /` tighter (1). -/
def BinOp.prec : BinOp → Nat
  | .add => 0 | .sub => 0 | .mul => 1 | .div => 1

/-- An infix tree: an integer literal (its digits), a parenthesised tree, or a binary
operator applied to two trees. -/
inductive Expr where
  | num (ds : List Char)
  | paren (e : Expr)
  | bin (op : BinOp) (l r : Expr)
deriving Repr

/-- Precedence of a tree: literals and parenthesised trees bind tightest (2). -/
def Expr.prec : Expr → Nat
  | .num _ => 2
  | .paren _ => 2
  | .bin op _ _ => op.prec

/-- The tree is the standard infix tree of its text: a literal is a non-empty string of
decimal digits; the left operand of an operator binds at least as tightly as the operator
(operators of one precedence group to the left), the right operand strictly tighter. -/
def Expr.Standard : Expr → Prop
  | .num ds => ds ≠ [] ∧ ∀ c ∈ ds, isdigit c = true
  | .paren e => e.Standard
  | .bin op l r => l.Standard ∧ r.Standard ∧ op.prec ≤ l.prec ∧ op.prec < r.prec

/-- The text spells the tree: the tokens in order, with optional white space before and
after every subexpression (so between any two tokens, before the first and after the
last). -/
inductive Spells : Expr → List Char → Prop where
  | num (ds : List Char) : Spells (.num ds) ds
  | paren {e : Expr} {t : List Char} (h : Spells e t) : Spells (.paren e) ('(' :: t ++ [')'])
  | bin {op : BinOp} {l r : Expr} {tl tr : List Char} (hl : Spells l tl) (hr : Spells r tr) :
      Spells (.bin op l r) (tl ++ op.char :: tr)
  | wsl {e : Expr} {t : List Char} {c : Char} (hc : isspace c = true) (h : Spells e t) :
      Spells e (c :: t)
  | wsr {e : Expr} {t : List Char} {c : Char} (hc : isspace c = true) (h : Spells e t) :
      Spells e (t ++ [c])

/-- The value of a tree, computed with the operations of the program; `none` when `stod`
does not convert a literal or when a divisor compares equal to `0.0`. -/
def Expr.eval {α : Type} (A : Arith α) : Expr → Option α
  | .num ds => A.stod ds
  | .paren e => e.eval A
  | .bin op l r =>
    match l.eval A, r.eval A with
    | some a, some b =>
      match op with
      | .add => some (A.add a b)
      | .sub => some (A.sub a b)
      | .mul => some (A.mul a b)
      | .div => if A.eq b A.zero then none else some (A.div a b)
    | _, _ => none

/-- The tokens of a tree. -/
def Expr.toks {α : Type} (A : Arith α) : Expr → Stream α
  | .num ds => [.ok ⟨.NUMBER, (A.stod ds).getD A.zero⟩]
  | .paren e => .ok (Token.simple A .LPAREN) :: (e.toks A ++ [.ok (Token.simple A .RPAREN)])
  | .bin op l r => l.toks A ++ .ok (Token.simple A op.type) :: r.toks A

/-- The stream does not start with `*` or `/`. -/
def NoMulHead {α : Type} (rest : Stream α) : Prop :=
  ∀ t : Token α, rest.head? = some (.ok t) → t.type ≠ .MUL ∧ t.type ≠ .DIV

/-! ### A text read as a Term or as a Factor (for C3) -/

/-- The text `input` read in full as a Term of the grammar: the constructor, then
`parseTerm`, then the check that the current token is `END`. The text is a
product/quotient of factors that evaluates successfully when this returns a value. -/
def evalTerm {α : Type} (A : Arith α) (fuel : Nat) (input : List Char) : Res α :=
  (Parser.create A input).bind fun p =>
    (parseTerm A (Lexer.nextToken A) fuel p).bind fun r =>
      if r.2.cur.type ≠ .END then .err .TrailingInput else .ok r.1

/-- The text `input` read in full as a Factor of the grammar (a number, a parenthesised
expression or a signed factor): the constructor, then `parseFactor`, then the check that
the current token is `END`. -/
def evalFactor {α : Type} (A : Arith α) (fuel : Nat) (input : List Char) : Res α :=
  (Parser.create A input).bind fun p =>
    (parseFactor A (Lexer.nextToken A) fuel p).bind fun r =>
      if r.2.cur.type ≠ .END then .err .TrailingInput else .ok r.1

/-! ### Token boundaries (for C9) -/

/-- `Steps A s p q`: started with the cursor at `p`, the lexer on `s` has its cursor at
`q` after some number (possibly zero) of calls of `nextToken` that each returned a token
other than `END`. -/
inductive Steps {α : Type} (A : Arith α) (s : List Char) : Nat → Nat → Prop where
  | refl (p : Nat) : Steps A s p p
  | head {p q : Nat} {t : Token α} (ht : (Lexer.nextToken A ⟨s, p⟩).2 = .ok t)
      (hne : t.type ≠ .END) (h : Steps A s (Lexer.nextToken A ⟨s, p⟩).1.pos q) : Steps A s p q

/-! ### Successive calls of the lexer (for C13, C14) -/

/-- The lexer after `n` calls of `nextToken`, whatever they returned (a caller may catch
an error and call again). -/
def Lexer.after {α : Type} (A : Arith α) : Nat → Lexer → Lexer
  | 0, lx => lx
  | n + 1, lx => (Lexer.nextToken A (Lexer.after A n lx)).1

/-! ### Runs of digits (for C11, C12) -/

/-- A run of decimal digits with at most one `.` (possibly empty). -/
def IsRun (ds : List Char) : Prop :=
  (∀ c ∈ ds, isdigit c = true ∨ c = '.') ∧ ds.count '.' ≤ 1

/-! ### The parser on an input (for C18, C20) -/

/-- The number of input characters the parser has not consumed: the unread ones, and one
more for the current token unless it is `END`. -/
def Parser.unread {α : Type} (p : Parser Lexer α) : Nat :=
  (p.lexer.s.length - p.lexer.pos) + (if p.cur.type = .END then 0 else 1)

/-- A parser state on the input `input`: the lexer reads `input`, its cursor is within
the input, and it is at the end of the input when the current token is `END`. -/
def Parser.AtInput {α : Type} (input : List Char) (p : Parser Lexer α) : Prop :=
  p.lexer.s = input ∧ p.lexer.pos ≤ input.length ∧
    (p.cur.type = .END → p.lexer.pos = input.length)

/-- The characters the lexer recognises: white space, decimal digits, `.` and the six
one-character tokens. -/
def recognised (c : Char) : Bool :=
  isspace c || isdigit c || c = '.' || c = '+' || c = '-' || c = '*' || c = '/' ||
    c = '(' || c = ')'

/-! ### A token stream that ends in a lexical error (for C19) -/

/-- The state that corresponds to `p` when the stream `p` reads from is followed by a
failing call of the lexer (error `e`), and then by `r`. -/
def extendErr {α : Type} (e : Err) (r : Stream α) (p : Parser (Stream α) α) :
    Parser (Stream α) α :=
  ⟨p.lexer ++ .error e :: r, p.cur⟩

/-- The result on the stream followed by the error `e`, for a call with result `a` on the
stream: where the call had read up to the end of the stream (its lookahead was `END`),
it now meets the error. -/
def errAfter {α : Type} (e : Err) (r : Stream α) (a : α × Parser (Stream α) α) :
    Res (α × Parser (Stream α) α) :=
  if a.2.cur.type = .END then .err e else .ok (a.1, extendErr e r a.2)

/-! ### Derivation trees of the grammar (for C16)

`Expression := Term {('+'|'-') Term}`, `Term := Factor {('*'|'/') Factor}`,
`Factor := NUMBER | '(' Expression ')' | ('+'|'-') Factor`. A repetition `X {op X}` is
kept grouped to the left, the way it is folded: the first `X`, or what comes before the
last `op X` followed by that `op X`. -/

mutual
/-- Derivation trees of an Expression. -/
inductive DExpr (α : Type) where
  | term (t : DTerm α)
  | add (e : DExpr α) (t : DTerm α)
  | sub (e : DExpr α) (t : DTerm α)
/-- Derivation trees of a Term. -/
inductive DTerm (α : Type) where
  | factor (f : DFactor α)
  | mul (t : DTerm α) (f : DFactor α)
  | div (t : DTerm α) (f : DFactor α)
/-- Derivation trees of a Factor; a `NUMBER` token carries its value. -/
inductive DFactor (α : Type) where
  | num (v : α)
  | paren (e : DExpr α)
  | pos (f : DFactor α)
  | neg (f : DFactor α)
end

mutual
/-- The yield of a derivation tree: its tokens, left to right. -/
def DExpr.yield {α : Type} (A : Arith α) : DExpr α → List (Token α)
  | .term t => t.yield A
  | .add e t => e.yield A ++ Token.simple A .PLUS :: t.yield A
  | .sub e t => e.yield A ++ Token.simple A .MINUS :: t.yield A
/-- The yield of a Term. -/
def DTerm.yield {α : Type} (A : Arith α) : DTerm α → List (Token α)
  | .factor f => f.yield A
  | .mul t f => t.yield A ++ Token.simple A .MUL :: f.yield A
  | .div t f => t.yield A ++ Token.simple A .DIV :: f.yield A
/-- The yield of a Factor. -/
def DFactor.yield {α : Type} (A : Arith α) : DFactor α → List (Token α)
  | .num v => [⟨.NUMBER, v⟩]
  | .paren e => Token.simple A .LPAREN :: (e.yield A ++ [Token.simple A .RPAREN])
  | .pos f => Token.simple A .PLUS :: f.yield A
  | .neg f => Token.simple A .MINUS :: f.yield A
end

mutual
/-- The value of a derivation tree: an Expression and a Term are folded from the left,
a unary `-` negates, a unary `+` does nothing. -/
def DExpr.value {α : Type} (A : Arith α) : DExpr α → α
  | .term t => t.value A
  | .add e t => A.add (e.value A) (t.value A)
  | .sub e t => A.sub (e.value A) (t.value A)
/-- The value of a Term. -/
def DTerm.value {α : Type} (A : Arith α) : DTerm α → α
  | .factor f => f.value A
  | .mul t f => A.mul (t.value A) (f.value A)
  | .div t f => A.div (t.value A) (f.value A)
/-- The value of a Factor. -/
def DFactor.value {α : Type} (A : Arith α) : DFactor α → α
  | .num v => v
  | .paren e => e.value A
  | .pos f => f.value A
  | .neg f => A.neg (f.value A)
end

mutual
/-- No `/` of the tree has a right-hand factor whose value compares equal to `0.0`. -/
def DExpr.divOk {α : Type} (A : Arith α) : DExpr α → Bool
  | .term t => t.divOk A
  | .add e t => e.divOk A && t.divOk A
  | .sub e t => e.divOk A && t.divOk A
/-- No `/` of the Term has a right-hand factor whose value compares equal to `0.0`. -/
def DTerm.divOk {α : Type} (A : Arith α) : DTerm α → Bool
  | .factor f => f.divOk A
  | .mul t f => t.divOk A && f.divOk A
  | .div t f => t.divOk A && f.divOk A && !A.eq (f.value A) A.zero
/-- No `/` of the Factor has a right-hand factor whose value compares equal to `0.0`. -/
def DFactor.divOk {α : Type} (A : Arith α) : DFactor α → Bool
  | .num _ => true
  | .paren e => e.divOk A
  | .pos f => f.divOk A
  | .neg f => f.divOk A
end

/-- The parser state over the token list `l`: the first token is the current one; at
the end of the list the current token is `END`. -/
def stateAt {α : Type} (A : Arith α) : List (Token α) → Parser (Stream α) α
  | [] => ⟨[], Token.simple A .END⟩
  | t :: l => ⟨l.map .ok, t⟩

/-- The tokens a parser state over a token stream has still to consume: the current one
and the ones to come; none when the current token is `END`. -/
def pending {α : Type} (p : Parser (Stream α) α) : Stream α :=
  if p.cur.type = .END then [] else .ok p.cur :: p.lexer

/-- The tokens of a parser state that are not a `NUMBER` carry the default value, as the
tokens of the lexer do (main.cpp:24-29). -/
def Plain {α : Type} (A : Arith α) (p : Parser (Stream α) α) : Prop :=
  ∀ t : Token α, .ok t ∈ pending p → t.type ≠ .NUMBER → t = Token.simple A t.type

/-- The token list does not start with `*` or `/`. -/
def NoMulFirst {α : Type} (rest : List (Token α)) : Prop :=
  ∀ t : Token α, rest.head? = some t → t.type ≠ .MUL ∧ t.type ≠ .DIV

/-! ### Binary64 values as numbers (for C10, C15) -/

/-- A well-formed binary64 value: a finite one is normal (`2^52 ≤ m < 2^53`,
`-1074 ≤ e ≤ 971`) or subnormal or zero (`m < 2^52`, `e = -1074`). -/
def F64.Valid : F64 → Prop
  | .fin _ m e => m < 2 ^ 53 ∧ -1074 ≤ e ∧ e ≤ 971 ∧ (2 ^ 52 ≤ m ∨ e = -1074)
  | .inf _ => True
  | .nan => True

/-- The value is finite (not an infinity, not a NaN). -/
def F64.isFinite : F64 → Bool
  | .fin _ _ _ => true
  | _ => false

/-- The number a finite binary64 value stands for (`0` for an infinity and for NaN). -/
def F64.toRat : F64 → ℚ
  | .fin s m e => (if s then -1 else 1) * ((m : ℚ) * (2 : ℚ) ^ e)
  | _ => 0

/-- The binary64 value `v` is the double nearest to the number `x`: finite, and no
finite double is closer to `x`; where another double is as close, the significand of `v`
is even. -/
def F64.IsNearest (x : ℚ) (v : F64) : Prop :=
  v.Valid ∧ v.isFinite = true ∧
  ∀ w : F64, w.Valid → w.isFinite = true →
    |v.toRat - x| ≤ |w.toRat - x| ∧
    (|w.toRat - x| = |v.toRat - x| → w.toRat ≠ v.toRat →
      ∃ s m e, v = .fin s m e ∧ m % 2 = 0)

/-- The integer part of the binary logarithm of `p / q`, as `round` computes it. -/
def F64.ilog (p q : Nat) : Int :=
  let d : Int := (F64.bitLen p p : Int) - (F64.bitLen q q : Int)
  let ge : Bool := if 0 ≤ d then q * 2 ^ d.toNat ≤ p else q ≤ p * 2 ^ (-d).toNat
  if ge then d else d - 1

/-- The rounding of `p / q` to a multiple of `2^e`, as `round` does it. -/
def F64.roundAt (neg : Bool) (p q : Nat) (e : Int) : F64 × Bool :=
  let num : Nat := if 0 ≤ e then p else p * 2 ^ (-e).toNat
  let den : Nat := if 0 ≤ e then q * 2 ^ e.toNat else q
  let m0 := num / den
  let r := num % den
  let m := if den < 2 * r ∨ (2 * r = den ∧ m0 % 2 = 1) then m0 + 1 else m0
  let m1 := if m = 2 ^ 53 then 2 ^ 52 else m
  let e1 := if m = 2 ^ 53 then e + 1 else e
  if 971 < e1 then (.inf neg, true) else (.fin neg m1 e1, decide (r ≠ 0))

/-! ### The decimal value of a literal (for C10) -/

/-- The value of a decimal digit. -/
def digit (c : Char) : ℕ := c.toNat - '0'.toNat

/-- The value of the digits before the decimal point: `d_k ... d_0` is
`d_k * 10^k + ... + d_0`. -/
def intValue (ds : List Char) : ℚ := ds.foldl (fun acc c => 10 * acc + (digit c : ℚ)) 0

/-- The value of the digits after the decimal point: `f_1 f_2 ...` is
`f_1 / 10 + f_2 / 100 + ...`. -/
def fracValue : List Char → ℚ
  | [] => 0
  | c :: cs => ((digit c : ℚ) + fracValue cs) / 10

/-- The decimal value of a literal: its digits before the `.` (all of them when there is
none) and its digits after the `.`. -/
def decimalValue (ds : List Char) : ℚ :=
  intValue (ds.takeWhile (fun c => c ≠ '.')) +
    fracValue ((ds.dropWhile (fun c => c ≠ '.')).drop 1)

/-- The numbers that the conversion to binary64 accepts: below the overflow threshold
`2^1024 - 2^970` (from where on the nearest double would be the infinity), and not an
underflow, that is, at least `2^-1022 - 2^-1076` (from where on the value rounds to a
normal double) or a multiple of `2^-1074` (a subnormal double, or zero, exactly). -/
def Converts (x : ℚ) : Prop :=
  x < (2 : ℚ) ^ (1024 : ℤ) - (2 : ℚ) ^ (970 : ℤ) ∧
    ((2 : ℚ) ^ (-1022 : ℤ) - (2 : ℚ) ^ (-1076 : ℤ) ≤ x ∨ ∃ k : ℕ, x = k * (2 : ℚ) ^ (-1074 : ℤ))

/-! ## The formatting of the result in `main` (main.cpp:143-145)

On the binary64 interpretation: the formatting compares and converts `double`s, which
`Arith` does not provide. -/

end ExprEval

/-! # Theorems -/

namespace ExprEval

/-! ## Fuel: more fuel never changes a result -/

@[simp] theorem Res.bind_ok {β γ : Type} (v : β) (f : β → Res γ) : (Res.ok v).bind f = f v := rfl
@[simp] theorem Res.bind_err {β γ : Type} (e : Err) (f : β → Res γ) :
    (Res.err e : Res β).bind f = .err e := rfl
@[simp] theorem Res.bind_outOfFuel {β γ : Type} (f : β → Res γ) :
    (Res.outOfFuel : Res β).bind f = .outOfFuel := rfl

theorem Res.le_refl {β : Type} (x : Res β) : x.le x := Or.inr rfl

theorem Res.le_bind {β γ : Type} {x y : Res β} {f g : β → Res γ}
    (h : x.le y) (hf : ∀ v, (f v).le (g v)) : (x.bind f).le (y.bind g) := by
  rcases h with h | h
  · left; rw [h]; rfl
  · subst h
    cases y with
    | ok v => exact hf v
    | err e => exact Or.inr rfl
    | outOfFuel => exact Or.inl rfl

section Mono
variable {σ α : Type} (A : Arith α) (next : σ → σ × Except Err (Token α))

theorem fuel_succ (n : Nat) :
    (∀ p, (parseExpression A next n p).le (parseExpression A next (n + 1) p)) ∧
    (∀ v p, (exprLoop A next n v p).le (exprLoop A next (n + 1) v p)) ∧
    (∀ p, (parseTerm A next n p).le (parseTerm A next (n + 1) p)) ∧
    (∀ v p, (termLoop A next n v p).le (termLoop A next (n + 1) v p)) ∧
    (∀ p, (parseFactor A next n p).le (parseFactor A next (n + 1) p)) := by
  induction n with
  | zero =>
    refine ⟨?_, ?_, ?_, ?_, ?_⟩ <;> intros <;> left <;> rfl
  | succ n ih =>
    obtain ⟨hE, hEL, hT, hTL, hF⟩ := ih
    refine ⟨?_, ?_, ?_, ?_, ?_⟩
    · intro p
      rw [parseExpression, parseExpression]
      exact Res.le_bind (hT p) fun r => hEL _ _
    · intro v p
      rw [exprLoop, exprLoop]
      split
      · exact Res.le_bind (Res.le_refl _) fun p1 => Res.le_bind (hT p1) fun r => hEL _ _
      · exact Res.le_refl _
    · intro p
      rw [parseTerm, parseTerm]
      exact Res.le_bind (hF p) fun r => hTL _ _
    · intro v p
      rw [termLoop, termLoop]
      split
      · refine Res.le_bind (Res.le_refl _) fun p1 => Res.le_bind (hF p1) fun r => ?_
        split
        · exact hTL _ _
        · split
          · exact Res.le_refl _
          · exact hTL _ _
      · exact Res.le_refl _
    · intro p
      rw [parseFactor, parseFactor]
      split
      · exact Res.le_refl _
      · split
        · exact Res.le_bind (Res.le_refl _) fun p1 => Res.le_bind (hE p1) fun r => Res.le_refl _
        · split
          · exact Res.le_bind (Res.le_refl _) fun p1 => hF p1
          · split
            · exact Res.le_bind (Res.le_refl _) fun p1 => Res.le_bind (hF p1) fun r => Res.le_refl _
            · exact Res.le_refl _

end Mono

section Mono
variable {σ α : Type} (A : Arith α) (next : σ → σ × Except Err (Token α))

theorem Res.le_of_le {β : Type} {f : Nat → Res β} (h : ∀ n, (f n).le (f (n + 1)))
    {n m : Nat} (hnm : n ≤ m) : (f n).le (f m) := by
  induction hnm with
  | refl => exact Res.le_refl _
  | step _ ih =>
    rcases ih with ih | ih
    · exact Or.inl ih
    · rcases h _ with h1 | h1
      · left; rw [← ih]; exact h1
      · right; rw [h1]; exact ih

theorem parseExpression_mono {n m : Nat} (h : n ≤ m) (p : Parser σ α) :
    (parseExpression A next n p).le (parseExpression A next m p) :=
  Res.le_of_le (f := fun k => parseExpression A next k p) (fun k => (fuel_succ A next k).1 p) h

theorem exprLoop_mono {n m : Nat} (h : n ≤ m) (v : α) (p : Parser σ α) :
    (exprLoop A next n v p).le (exprLoop A next m v p) :=
  Res.le_of_le (f := fun k => exprLoop A next k v p) (fun k => (fuel_succ A next k).2.1 v p) h

theorem parseTerm_mono {n m : Nat} (h : n ≤ m) (p : Parser σ α) :
    (parseTerm A next n p).le (parseTerm A next m p) :=
  Res.le_of_le (f := fun k => parseTerm A next k p) (fun k => (fuel_succ A next k).2.2.1 p) h

theorem termLoop_mono {n m : Nat} (h : n ≤ m) (v : α) (p : Parser σ α) :
    (termLoop A next n v p).le (termLoop A next m v p) :=
  Res.le_of_le (f := fun k => termLoop A next k v p) (fun k => (fuel_succ A next k).2.2.2.1 v p) h

theorem parseFactor_mono {n m : Nat} (h : n ≤ m) (p : Parser σ α) :
    (parseFactor A next n p).le (parseFactor A next m p) :=
  Res.le_of_le (f := fun k => parseFactor A next k p) (fun k => (fuel_succ A next k).2.2.2.2 p) h

end Mono

/-! ## Simulation: the parser sees its lexer only through the tokens -/

theorem Res.Rel_bind {β γ β1 γ1 : Type} {Q : β → γ → Prop} {Q1 : β1 → γ1 → Prop}
    {x : Res β} {y : Res γ} {f : β → Res β1} {g : γ → Res γ1}
    (h : Res.Rel Q x y) (hf : ∀ a b, Q a b → Res.Rel Q1 (f a) (g b)) :
    Res.Rel Q1 (x.bind f) (y.bind g) := by
  cases x <;> cases y <;> simp_all [Res.Rel]

section Sim
variable {σ τ α : Type} (A : Arith α) {R : σ → τ → Prop}
  {next1 : σ → σ × Except Err (Token α)} {next2 : τ → τ × Except Err (Token α)}

theorem advance_sim (hS : Simulates R next1 next2) {p : Parser σ α} {q : Parser τ α}
    (h : Parser.Rel R p q) : Res.Rel (Parser.Rel R) (advance next1 p) (advance next2 q) := by
  obtain ⟨h1, h2⟩ := hS p.lexer q.lexer h.2
  unfold advance
  rcases hn1 : next1 p.lexer with ⟨l1, r1⟩
  rcases hn2 : next2 q.lexer with ⟨l2, r2⟩
  rw [hn1, hn2] at h1 h2
  simp only at h1 h2
  subst h1
  cases r1 with
  | error e => simp [Res.Rel]
  | ok t => exact ⟨rfl, h2 t rfl⟩

theorem parser_sim (hS : Simulates R next1 next2) (n : Nat) :
    (∀ p q, Parser.Rel R p q →
      Res.Rel (ValRel R) (parseExpression A next1 n p) (parseExpression A next2 n q)) ∧
    (∀ v p q, Parser.Rel R p q →
      Res.Rel (ValRel R) (exprLoop A next1 n v p) (exprLoop A next2 n v q)) ∧
    (∀ p q, Parser.Rel R p q →
      Res.Rel (ValRel R) (parseTerm A next1 n p) (parseTerm A next2 n q)) ∧
    (∀ v p q, Parser.Rel R p q →
      Res.Rel (ValRel R) (termLoop A next1 n v p) (termLoop A next2 n v q)) ∧
    (∀ p q, Parser.Rel R p q →
      Res.Rel (ValRel R) (parseFactor A next1 n p) (parseFactor A next2 n q)) := by
  induction n with
  | zero =>
    refine ⟨?_, ?_, ?_, ?_, ?_⟩ <;> intros <;> trivial
  | succ n ih =>
    obtain ⟨hE, hEL, hT, hTL, hF⟩ := ih
    refine ⟨?_, ?_, ?_, ?_, ?_⟩
    · intro p q h
      rw [parseExpression, parseExpression]
      refine Res.Rel_bind (hT p q h) fun a b hab => ?_
      rw [hab.1]; exact hEL _ _ _ hab.2
    · intro v p q h
      rw [exprLoop, exprLoop, h.1]
      split
      · refine Res.Rel_bind (advance_sim hS h) fun p1 q1 h1 => ?_
        refine Res.Rel_bind (hT p1 q1 h1) fun a b hab => ?_
        rw [hab.1]; exact hEL _ _ _ hab.2
      · exact ⟨rfl, h⟩
    · intro p q h
      rw [parseTerm, parseTerm]
      refine Res.Rel_bind (hF p q h) fun a b hab => ?_
      rw [hab.1]; exact hTL _ _ _ hab.2
    · intro v p q h
      rw [termLoop, termLoop, h.1]
      split
      · refine Res.Rel_bind (advance_sim hS h) fun p1 q1 h1 => ?_
        refine Res.Rel_bind (hF p1 q1 h1) fun a b hab => ?_
        rw [hab.1]
        split
        · exact hTL _ _ _ hab.2
        · split
          · rfl
          · exact hTL _ _ _ hab.2
      · exact ⟨rfl, h⟩
    · intro p q h
      rw [parseFactor, parseFactor, h.1]
      split
      · exact Res.Rel_bind (advance_sim hS h) fun p1 q1 h1 => ⟨rfl, h1⟩
      · split
        · refine Res.Rel_bind (advance_sim hS h) fun p1 q1 h1 => ?_
          refine Res.Rel_bind (hE p1 q1 h1) fun a b hab => ?_
          rw [hab.2.1]
          split
          · rfl
          · exact Res.Rel_bind (advance_sim hS hab.2) fun p2 q2 h2 => ⟨hab.1, h2⟩
        · split
          · exact Res.Rel_bind (advance_sim hS h) fun p1 q1 h1 => hF p1 q1 h1
          · split
            · refine Res.Rel_bind (advance_sim hS h) fun p1 q1 h1 => ?_
              refine Res.Rel_bind (hF p1 q1 h1) fun a b hab => ?_
              exact ⟨by rw [hab.1], hab.2⟩
            · rfl

end Sim

/-! ## The lexer in terms of the unread text -/

theorem skipSpaces_add (r : List Char) (pos : Nat) : skipSpaces r pos = pos + skipSpaces r 0 := by
  induction r generalizing pos with
  | nil => simp [skipSpaces]
  | cons c rest ih =>
    simp only [skipSpaces]
    split
    · rw [ih (pos + 1), ih (0 + 1)]; omega
    · rfl

theorem scanNumber_add (r : List Char) (pos : Nat) (b : Bool) :
    scanNumber r pos b = pos + scanNumber r 0 b := by
  induction r generalizing pos b with
  | nil => simp [scanNumber]
  | cons c rest ih =>
    simp only [scanNumber]
    split
    · rw [ih (pos + 1), ih (0 + 1)]; omega
    · split
      · rw [ih (pos + 1), ih (0 + 1)]; omega
      · rfl

theorem scanNumber_le (r : List Char) (b : Bool) : scanNumber r 0 b ≤ r.length := by
  induction r generalizing b with
  | nil => simp [scanNumber]
  | cons c rest ih =>
    simp only [scanNumber]
    split
    · rw [scanNumber_add]; have := ih b; simp only [List.length_cons]; omega
    · split
      · rw [scanNumber_add]; have := ih true; simp only [List.length_cons]; omega
      · simp

theorem isspace_cases {c : Char} (h : isspace c = true) :
    c ≠ '+' ∧ c ≠ '-' ∧ c ≠ '*' ∧ c ≠ '/' ∧ c ≠ '(' ∧ c ≠ ')' ∧ c ≠ '.' ∧ isdigit c = false := by
  simp only [isspace, Bool.or_eq_true, decide_eq_true_eq] at h
  rcases h with ((((h | h) | h) | h) | h) | h <;> subst h <;> decide

theorem nextToken_eq_lexText {α : Type} (A : Arith α) (s : List Char) (pos : Nat) :
    Lexer.nextToken A ⟨s, pos⟩ =
      (⟨s, pos + (lexText A (s.drop pos)).1⟩, (lexText A (s.drop pos)).2) := by
  generalize hr : s.drop pos = r
  induction r generalizing pos with
  | nil =>
    have hlen : s.length ≤ pos := List.drop_eq_nil_iff.mp hr
    simp [Lexer.nextToken, hr, skipSpaces, lexText, List.getElem?_eq_none hlen]
  | cons c rest ih =>
    have hget : s[pos]? = some c := by
      rw [← List.head?_drop, hr]; rfl
    have hdrop : s.drop (pos + 1) = rest := by
      rw [← List.drop_drop, hr]; rfl
    by_cases hsp : isspace c = true
    · have h1 := ih (pos + 1) hdrop
      have : Lexer.nextToken A ⟨s, pos⟩ = Lexer.nextToken A ⟨s, pos + 1⟩ := by
        simp only [Lexer.nextToken, hr, hdrop, skipSpaces, hsp, if_true]
      rw [this, h1]
      simp only [lexText, hsp, if_true]
      congr 2
      omega
    · have hskip : skipSpaces (s.drop pos) pos = pos := by
        rw [hr]; simp only [skipSpaces, hsp]; rfl
      have hscan : scanNumber rest (pos + 1) (decide (c = '.')) - pos
          = scanNumber rest 0 (decide (c = '.')) + 1 := by
        rw [scanNumber_add]; omega
      have hscan2 : scanNumber rest (pos + 1) (decide (c = '.'))
          = pos + (scanNumber rest 0 (decide (c = '.')) + 1) := by
        rw [scanNumber_add]; omega
      unfold Lexer.nextToken
      simp only [hskip, hget]
      rw [lexText]
      simp only [hsp, Bool.false_eq_true, if_false]
      by_cases h1 : c = '+'
      · simp only [h1, if_true]
      simp only [h1, if_false]
      by_cases h2 : c = '-'
      · simp only [h2, if_true]
      simp only [h2, if_false]
      by_cases h3 : c = '*'
      · simp only [h3, if_true]
      simp only [h3, if_false]
      by_cases h4 : c = '/'
      · simp only [h4, if_true]
      simp only [h4, if_false]
      by_cases h5 : c = '('
      · simp only [h5, if_true]
      simp only [h5, if_false]
      by_cases h6 : c = ')'
      · simp only [h6, if_true]
      simp only [h6, if_false]
      by_cases h7 : (isdigit c || decide (c = '.')) = true
      · simp only [h7, if_true, hdrop, substr, hr, hscan]
        cases A.stod ((c :: rest).take (scanNumber rest 0 (decide (c = '.')) + 1)) with
        | none => simp only [hscan2]
        | some v => simp only [hscan2]
      · simp only [h7, Bool.false_eq_true, if_false, Nat.add_zero]

theorem lexText_le {α : Type} (A : Arith α) (r : List Char) : (lexText A r).1 ≤ r.length := by
  induction r with
  | nil => simp [lexText]
  | cons c rest ih =>
    rw [lexText]
    have hs := scanNumber_le rest (decide (c = '.'))
    simp only [List.length_cons]
    repeat' split
    all_goals (simp only []; omega)

/-- What a call returns decides how far the cursor moves: an error needs a character to
be there, a token other than `END` moves the cursor, `END` moves it to the end. -/
theorem lexText_spec {α : Type} (A : Arith α) (r : List Char) :
    (∀ e, (lexText A r).2 = .error e → 1 ≤ r.length) ∧
    (∀ t, (lexText A r).2 = .ok t → t.type ≠ .END → 1 ≤ (lexText A r).1) ∧
    (∀ t, (lexText A r).2 = .ok t → t.type = .END →
      t = Token.simple A .END ∧ (lexText A r).1 = r.length) := by
  induction r with
  | nil => simp [lexText, Token.simple]
  | cons c rest ih =>
    rw [lexText]
    by_cases hsp : isspace c = true
    · simp only [hsp, if_true, List.length_cons]
      refine ⟨fun e _ => by omega, fun t h ht => by omega, fun t h ht => ?_⟩
      have := ih.2.2 t h ht
      exact ⟨this.1, by omega⟩
    · simp only [hsp, Bool.false_eq_true, if_false, List.length_cons]
      refine ⟨fun e _ => by omega, ?_, ?_⟩
      · intro t
        repeat' split
        all_goals (simp only [Token.simple]; intro h; try omega)
        all_goals cases h
      · intro t
        repeat' split
        all_goals (simp only [Token.simple]; intro h ht)
        all_goals first
          | (cases h; done)
          | (injection h with h; subst h; simp at ht)

theorem Lexes.congr {α : Type} {A : Arith α} {lx : Lexer} {ts : Stream α} (h : Lexes A lx ts) :
    ∀ lx1 : Lexer, lx1.s.drop lx1.pos = lx.s.drop lx.pos → Lexes A lx1 ts := by
  induction h with
  | @done lx h =>
    intro lx1 heq
    refine Lexes.done ?_
    rw [nextToken_eq_lexText] at h ⊢
    simpa [heq] using h
  | @fail lx e h =>
    intro lx1 heq
    refine Lexes.fail ?_
    rw [nextToken_eq_lexText] at h ⊢
    simpa [heq] using h
  | @tok lx t ts h ht _ ih =>
    intro lx1 heq
    refine Lexes.tok ?_ ht (ih _ ?_)
    · rw [nextToken_eq_lexText] at h ⊢
      simpa [heq] using h
    · rw [nextToken_eq_lexText, nextToken_eq_lexText]
      simp only [heq, ← List.drop_drop]

theorem Lexes.of_drop {α : Type} {A : Arith α} {s : List Char} {pos : Nat} {ts : Stream α}
    (h : Lexes A ⟨s.drop pos, 0⟩ ts) : Lexes A ⟨s, pos⟩ ts :=
  h.congr ⟨s, pos⟩ (by simp)

theorem Lexes.to_drop {α : Type} {A : Arith α} {s : List Char} {pos : Nat} {ts : Stream α}
    (h : Lexes A ⟨s, pos⟩ ts) : Lexes A ⟨s.drop pos, 0⟩ ts :=
  h.congr ⟨s.drop pos, 0⟩ (by simp)

theorem Lexes.nil_of {α : Type} {A : Arith α} {r : List Char}
    (h : (lexText A r).2 = .ok (Token.simple A .END)) : Lexes A ⟨r, 0⟩ [] :=
  Lexes.done (by rw [nextToken_eq_lexText]; simpa using h)

theorem Lexes.fail_of {α : Type} {A : Arith α} {r : List Char} {e : Err}
    (h : (lexText A r).2 = .error e) : Lexes A ⟨r, 0⟩ [.error e] :=
  Lexes.fail (by rw [nextToken_eq_lexText]; simpa using h)

theorem Lexes.cons_of {α : Type} {A : Arith α} {r : List Char} {t : Token α} {ts : Stream α}
    (h : (lexText A r).2 = .ok t) (ht : t.type ≠ .END)
    (hs : Lexes A ⟨r.drop (lexText A r).1, 0⟩ ts) : Lexes A ⟨r, 0⟩ (.ok t :: ts) := by
  refine Lexes.tok (by rw [nextToken_eq_lexText]; simpa using h) ht ?_
  rw [nextToken_eq_lexText]
  simp only [List.drop_zero, Nat.zero_add]
  exact hs.of_drop

/-- Every text has a token stream, no longer than the text. -/
theorem Lexes.exists {α : Type} (A : Arith α) (r : List Char) :
    ∃ ts : Stream α, Lexes A ⟨r, 0⟩ ts ∧ ts.length ≤ r.length := by
  generalize hn : r.length = n
  induction n using Nat.strong_induction_on generalizing r with
  | _ n ih =>
    subst hn
    obtain ⟨h1, h2, h3⟩ := lexText_spec A r
    have hle := lexText_le A r
    cases hres : (lexText A r).2 with
    | error e =>
      exact ⟨[.error e], Lexes.fail_of hres, by simpa using h1 e hres⟩
    | ok t =>
      by_cases ht : t.type = .END
      · have := (h3 t hres ht).1
        subst this
        exact ⟨[], Lexes.nil_of hres, by simp⟩
      · have hk := h2 t hres ht
        have hlt : (r.drop (lexText A r).1).length < r.length := by
          simp only [List.length_drop]; omega
        obtain ⟨ts, hts, hlen⟩ := ih _ hlt _ rfl
        refine ⟨.ok t :: ts, Lexes.cons_of hres ht hts, ?_⟩
        simp only [List.length_drop] at hlen
        simp only [List.length_cons]
        omega

/-! ## The lexer simulated by its token stream -/

theorem lexes_simulates {α : Type} (A : Arith α) :
    Simulates (Lexes A) (Lexer.nextToken A) (Stream.next A) := by
  intro lx ts h
  cases h with
  | done h =>
    refine ⟨by rw [h]; rfl, fun t _ => ?_⟩
    refine Lexes.done ?_
    have e1 := nextToken_eq_lexText A lx.s lx.pos
    change Lexer.nextToken A lx = _ at e1
    rw [e1] at h ⊢
    rw [nextToken_eq_lexText]
    obtain ⟨_, hk⟩ := (lexText_spec A _).2.2 _ h rfl
    have : List.drop (lx.pos + (lexText A (List.drop lx.pos lx.s)).1) lx.s = [] := by
      rw [hk]; apply List.drop_eq_nil_iff.mpr; simp only [List.length_drop]; omega
    simp only [this, lexText]
  | fail h => exact ⟨by rw [h]; rfl, fun t ht => by rw [h] at ht; cases ht⟩
  | tok h ht hs => exact ⟨by rw [h]; rfl, fun _ _ => hs⟩

theorem runWith_sim {σ τ α : Type} (A : Arith α) {R : σ → τ → Prop}
    {next1 : σ → σ × Except Err (Token α)} {next2 : τ → τ × Except Err (Token α)}
    (hS : Simulates R next1 next2) {l1 : σ} {l2 : τ} (h : R l1 l2) (n : Nat) :
    runWith A next1 n l1 = runWith A next2 n l2 := by
  unfold runWith Parser.init Parser.parseWith
  have h0 : Parser.Rel R (⟨l1, Token.simple A .END⟩ : Parser σ α) ⟨l2, Token.simple A .END⟩ :=
    ⟨rfl, h⟩
  have h1 := advance_sim hS h0
  cases ha : advance next1 ⟨l1, Token.simple A .END⟩ <;>
    cases hb : advance next2 ⟨l2, Token.simple A .END⟩ <;>
    rw [ha, hb] at h1 <;> simp only [Res.Rel] at h1
  · rename_i p q
    have h2 := (parser_sim A hS n).1 p q h1
    simp only [Res.bind_ok]
    cases hc : parseExpression A next1 n p <;> cases hd : parseExpression A next2 n q <;>
      rw [hc, hd] at h2 <;> simp only [Res.Rel] at h2
    · simp only [Res.bind_ok, h2.1, h2.2.1]
    · simp [h2]
    · rfl
  · simp [h1]
  · rfl

/-- Evaluating a text is running the parser over the text's token stream. -/
theorem evalLine_eq_runWith {α : Type} (A : Arith α) {s : List Char} {ts : Stream α}
    (h : Lexes A ⟨s, 0⟩ ts) :
    evalLine A s = runWith A (Stream.next A) (3 * s.length + 3) ts :=
  runWith_sim A (lexes_simulates A) h _

/-! ## Fuel: `3 * tokens + 3` is enough -/

section Bound
variable {α : Type} (A : Arith α)

theorem Bounded.mono {p q : Parser (Stream α) α} {r : Res (α × Parser (Stream α) α)}
    (h : Bounded q r) (hpq : q.mu ≤ p.mu) : Bounded p r := by
  cases r with
  | ok a => exact Nat.le_trans h hpq
  | err e => trivial
  | outOfFuel => exact h

theorem Bounded.bind {p q : Parser (Stream α) α} {x : Res (α × Parser (Stream α) α)}
    {f : α × Parser (Stream α) α → Res (α × Parser (Stream α) α)}
    (hx : Bounded q x) (hf : ∀ a, a.2.mu ≤ q.mu → Bounded p (f a)) : Bounded p (x.bind f) := by
  cases x with
  | ok a => exact hf a hx
  | err e => trivial
  | outOfFuel => exact hx

theorem advance_stream (p : Parser (Stream α) α) :
    advance (Stream.next A) p =
      match p.lexer with
      | [] => .ok ⟨[], Token.simple A .END⟩
      | .ok t :: ts => .ok ⟨ts, t⟩
      | .error e :: _ => .err e := by
  unfold advance
  rcases p with ⟨ts, cur⟩
  cases ts with
  | nil => rfl
  | cons r rs => cases r <;> rfl

theorem bounded_advance {p : Parser (Stream α) α} (hc : p.cur.type ≠ .END)
    {f : Parser (Stream α) α → Res (α × Parser (Stream α) α)}
    (hf : ∀ p1 : Parser (Stream α) α, p1.mu < p.mu → Bounded p (f p1)) :
    Bounded p ((advance (Stream.next A) p).bind f) := by
  rw [advance_stream]
  rcases p with ⟨ts, cur⟩
  cases ts with
  | nil =>
    refine hf _ ?_
    simp only [Parser.mu, Token.simple] at hc ⊢
    simp [hc]
  | cons r rs =>
    cases r with
    | error e => trivial
    | ok t =>
      refine hf _ ?_
      simp only [Parser.mu] at hc ⊢
      simp only [hc, if_false, List.length_cons]
      split <;> omega

theorem fuel_bound (n : Nat) :
    (∀ p : Parser (Stream α) α, 3 * p.mu + 3 ≤ n →
      Bounded p (parseExpression A (Stream.next A) n p)) ∧
    (∀ v (p : Parser (Stream α) α), 3 * p.mu + 2 ≤ n →
      Bounded p (exprLoop A (Stream.next A) n v p)) ∧
    (∀ p : Parser (Stream α) α, 3 * p.mu + 2 ≤ n →
      Bounded p (parseTerm A (Stream.next A) n p)) ∧
    (∀ v (p : Parser (Stream α) α), 3 * p.mu + 1 ≤ n →
      Bounded p (termLoop A (Stream.next A) n v p)) ∧
    (∀ p : Parser (Stream α) α, 3 * p.mu + 1 ≤ n →
      Bounded p (parseFactor A (Stream.next A) n p)) := by
  induction n with
  | zero =>
    refine ⟨?_, ?_, ?_, ?_, ?_⟩ <;> intros <;> omega
  | succ n ih =>
    obtain ⟨hE, hEL, hT, hTL, hF⟩ := ih
    refine ⟨?_, ?_, ?_, ?_, ?_⟩
    · intro p hp
      rw [parseExpression]
      exact (hT p (by omega)).bind fun a ha => (hEL _ a.2 (by omega)).mono ha
    · intro v p hp
      rw [exprLoop]
      split
      · rename_i hc
        refine bounded_advance A (by rcases hc with hc | hc <;> rw [hc] <;> decide) fun p1 h1 => ?_
        refine ((hT p1 (by omega)).bind fun a ha => ?_).mono (Nat.le_of_lt h1)
        exact (hEL _ a.2 (by omega)).mono ha
      · exact Nat.le_refl _
    · intro p hp
      rw [parseTerm]
      exact (hF p (by omega)).bind fun a ha => (hTL _ a.2 (by omega)).mono ha
    · intro v p hp
      rw [termLoop]
      split
      · rename_i hc
        refine bounded_advance A (by rcases hc with hc | hc <;> rw [hc] <;> decide) fun p1 h1 => ?_
        refine ((hF p1 (by omega)).bind fun a ha => ?_).mono (Nat.le_of_lt h1)
        split
        · exact (hTL _ a.2 (by omega)).mono ha
        · split
          · trivial
          · exact (hTL _ a.2 (by omega)).mono ha
      · exact Nat.le_refl _
    · intro p hp
      rw [parseFactor]
      split
      · rename_i hc
        exact bounded_advance A (by rw [hc]; decide) fun p1 h1 => Nat.le_of_lt h1
      · split
        · rename_i hc
          refine bounded_advance A (by rw [hc]; decide) fun p1 h1 => ?_
          refine ((hE p1 (by omega)).bind fun a ha => ?_).mono (Nat.le_of_lt h1)
          split
          · trivial
          · rename_i hr
            have hr1 : a.2.cur.type ≠ .END := by
              simp only [ne_eq, Decidable.not_not] at hr; rw [hr]; decide
            exact (bounded_advance A hr1 (f := fun p2 => .ok (a.1, p2))
              fun p2 h2 => Nat.le_of_lt h2).mono ha
        · split
          · rename_i hc
            refine bounded_advance A (by rw [hc]; decide) fun p1 h1 => ?_
            exact (hF p1 (by omega)).mono (Nat.le_of_lt h1)
          · split
            · rename_i hc
              refine bounded_advance A (by rw [hc]; decide) fun p1 h1 => ?_
              refine ((hF p1 (by omega)).bind fun a ha => ?_).mono (Nat.le_of_lt h1)
              exact ha
            · trivial

end Bound

/-! ## The parser over a token stream, without fuel -/

theorem Res.bind_congr {β γ : Type} {x : Res β} {f g : β → Res γ}
    (h : ∀ a, x = .ok a → f a = g a) : x.bind f = x.bind g := by
  cases x with
  | ok a => exact h a rfl
  | err e => rfl
  | outOfFuel => rfl

theorem Res.bind_eq_ok {β γ : Type} {x : Res β} {f : β → Res γ} {b : γ} :
    x.bind f = .ok b ↔ ∃ a, x = .ok a ∧ f a = .ok b := by
  cases x <;> simp [Res.bind]

theorem Res.eq_of_le {β : Type} {x y : Res β} (h : x.le y) (hx : x ≠ .outOfFuel) : y = x := by
  rcases h with h | h
  · exact absurd h hx
  · exact h

theorem Bounded.ne {α : Type} {p : Parser (Stream α) α} {r : Res (α × Parser (Stream α) α)}
    (h : Bounded p r) : r ≠ .outOfFuel := by
  intro hr; rw [hr] at h; exact h

theorem Bounded.le_of_ok {α : Type} {p : Parser (Stream α) α} {r : Res (α × Parser (Stream α) α)}
    (h : Bounded p r) {a : α × Parser (Stream α) α} (ha : r = .ok a) : a.2.mu ≤ p.mu := by
  rw [ha] at h; exact h

section Stable
variable {α : Type} (A : Arith α)

theorem sFactor_stable {n : Nat} {p : Parser (Stream α) α} (h : 3 * p.mu + 1 ≤ n) :
    parseFactor A (Stream.next A) n p = sFactor A p :=
  Res.eq_of_le (parseFactor_mono A _ h p) ((fuel_bound A _).2.2.2.2 p (Nat.le_refl _)).ne

theorem sTermLoop_stable {n : Nat} {v : α} {p : Parser (Stream α) α} (h : 3 * p.mu + 1 ≤ n) :
    termLoop A (Stream.next A) n v p = sTermLoop A v p :=
  Res.eq_of_le (termLoop_mono A _ h v p) ((fuel_bound A _).2.2.2.1 v p (Nat.le_refl _)).ne

theorem sTerm_stable {n : Nat} {p : Parser (Stream α) α} (h : 3 * p.mu + 2 ≤ n) :
    parseTerm A (Stream.next A) n p = sTerm A p :=
  Res.eq_of_le (parseTerm_mono A _ h p) ((fuel_bound A _).2.2.1 p (Nat.le_refl _)).ne

theorem sExprLoop_stable {n : Nat} {v : α} {p : Parser (Stream α) α} (h : 3 * p.mu + 2 ≤ n) :
    exprLoop A (Stream.next A) n v p = sExprLoop A v p :=
  Res.eq_of_le (exprLoop_mono A _ h v p) ((fuel_bound A _).2.1 v p (Nat.le_refl _)).ne

theorem sExpr_stable {n : Nat} {p : Parser (Stream α) α} (h : 3 * p.mu + 3 ≤ n) :
    parseExpression A (Stream.next A) n p = sExpr A p :=
  Res.eq_of_le (parseExpression_mono A _ h p) ((fuel_bound A _).1 p (Nat.le_refl _)).ne

theorem sFactor_bounded (p : Parser (Stream α) α) : Bounded p (sFactor A p) :=
  (fuel_bound A _).2.2.2.2 p (Nat.le_refl _)

theorem sTermLoop_bounded (v : α) (p : Parser (Stream α) α) : Bounded p (sTermLoop A v p) :=
  (fuel_bound A _).2.2.2.1 v p (Nat.le_refl _)

theorem sTerm_bounded (p : Parser (Stream α) α) : Bounded p (sTerm A p) :=
  (fuel_bound A _).2.2.1 p (Nat.le_refl _)

theorem sExprLoop_bounded (v : α) (p : Parser (Stream α) α) : Bounded p (sExprLoop A v p) :=
  (fuel_bound A _).2.1 v p (Nat.le_refl _)

theorem sExpr_bounded (p : Parser (Stream α) α) : Bounded p (sExpr A p) :=
  (fuel_bound A _).1 p (Nat.le_refl _)

theorem sAdvance_eq (p : Parser (Stream α) α) :
    sAdvance A p =
      match p.lexer with
      | [] => .ok ⟨[], Token.simple A .END⟩
      | .ok t :: ts => .ok ⟨ts, t⟩
      | .error e :: _ => .err e := advance_stream A p

theorem sAdvance_mu {p p1 : Parser (Stream α) α} (hc : p.cur.type ≠ .END)
    (h : sAdvance A p = .ok p1) : p1.mu < p.mu := by
  rw [sAdvance_eq] at h
  rcases p with ⟨ts, cur⟩
  simp only [Parser.mu] at hc ⊢
  simp only [hc, if_false]
  cases ts with
  | nil =>
    simp only [Res.ok.injEq] at h
    subst h
    simp [Token.simple]
  | cons r rs =>
    cases r with
    | error e => simp at h
    | ok t =>
      simp only [Res.ok.injEq] at h
      subst h
      simp only [List.length_cons]
      split <;> omega

theorem sExpr_eq (p : Parser (Stream α) α) :
    sExpr A p = (sTerm A p).bind fun r => sExprLoop A r.1 r.2 := by
  rw [sExpr, parseExpression, sTerm_stable A (by omega)]
  refine Res.bind_congr fun a ha => ?_
  have := (sTerm_bounded A p).le_of_ok ha
  exact sExprLoop_stable A (by omega)

theorem sTerm_eq (p : Parser (Stream α) α) :
    sTerm A p = (sFactor A p).bind fun r => sTermLoop A r.1 r.2 := by
  rw [sTerm, parseTerm, sFactor_stable A (by omega)]
  refine Res.bind_congr fun a ha => ?_
  have := (sFactor_bounded A p).le_of_ok ha
  exact sTermLoop_stable A (by omega)

theorem sExprLoop_eq (v : α) (p : Parser (Stream α) α) :
    sExprLoop A v p =
      if p.cur.type = .PLUS ∨ p.cur.type = .MINUS then
        (sAdvance A p).bind fun p1 =>
          (sTerm A p1).bind fun r =>
            sExprLoop A (if p.cur.type = .PLUS then A.add v r.1 else A.sub v r.1) r.2
      else .ok (v, p) := by
  rw [sExprLoop, exprLoop]
  split
  · rename_i hc
    have hc1 : p.cur.type ≠ .END := by rcases hc with hc | hc <;> rw [hc] <;> decide
    refine Res.bind_congr fun p1 h1 => ?_
    have hlt := sAdvance_mu A hc1 h1
    rw [sTerm_stable A (by omega)]
    refine Res.bind_congr fun a ha => ?_
    have := (sTerm_bounded A p1).le_of_ok ha
    exact sExprLoop_stable A (by omega)
  · rfl

theorem sTermLoop_eq (v : α) (p : Parser (Stream α) α) :
    sTermLoop A v p =
      if p.cur.type = .MUL ∨ p.cur.type = .DIV then
        (sAdvance A p).bind fun p1 =>
          (sFactor A p1).bind fun r =>
            if p.cur.type = .MUL then sTermLoop A (A.mul v r.1) r.2
            else if A.eq r.1 A.zero then .err .DivisionByZero
            else sTermLoop A (A.div v r.1) r.2
      else .ok (v, p) := by
  rw [sTermLoop, termLoop]
  split
  · rename_i hc
    have hc1 : p.cur.type ≠ .END := by rcases hc with hc | hc <;> rw [hc] <;> decide
    refine Res.bind_congr fun p1 h1 => ?_
    have hlt := sAdvance_mu A hc1 h1
    rw [sFactor_stable A (by omega)]
    refine Res.bind_congr fun a ha => ?_
    have := (sFactor_bounded A p1).le_of_ok ha
    rw [sTermLoop_stable A (by omega), sTermLoop_stable A (by omega)]
  · rfl

theorem sFactor_eq (p : Parser (Stream α) α) :
    sFactor A p =
      if p.cur.type = .NUMBER then
        (sAdvance A p).bind fun p1 => .ok (p.cur.value, p1)
      else if p.cur.type = .LPAREN then
        (sAdvance A p).bind fun p1 =>
          (sExpr A p1).bind fun r =>
            if r.2.cur.type ≠ .RPAREN then .err .ExpectedCloseParen
            else (sAdvance A r.2).bind fun p2 => .ok (r.1, p2)
      else if p.cur.type = .PLUS then
        (sAdvance A p).bind fun p1 => sFactor A p1
      else if p.cur.type = .MINUS then
        (sAdvance A p).bind fun p1 =>
          (sFactor A p1).bind fun r => .ok (A.neg r.1, r.2)
      else .err .UnexpectedToken := by
  rw [sFactor, parseFactor]
  split
  · rfl
  · split
    · rename_i hc
      refine Res.bind_congr fun p1 h1 => ?_
      have hlt := sAdvance_mu A (by rw [hc]; decide) h1
      rw [sExpr_stable A (by omega)]
      rfl
    · split
      · rename_i hc
        refine Res.bind_congr fun p1 h1 => ?_
        have hlt := sAdvance_mu A (by rw [hc]; decide) h1
        exact sFactor_stable A (by omega)
      · split
        · rename_i hc
          refine Res.bind_congr fun p1 h1 => ?_
          have hlt := sAdvance_mu A (by rw [hc]; decide) h1
          rw [sFactor_stable A (by omega)]
        · rfl

end Stable

/-! ## Evaluating a text is evaluating its token stream -/

theorem Lexes.length_le {α : Type} {A : Arith α} {lx : Lexer} {ts : Stream α}
    (h : Lexes A lx ts) : ts.length ≤ (lx.s.drop lx.pos).length := by
  induction h with
  | @done lx h => simp
  | @fail lx e h =>
    have e1 := nextToken_eq_lexText A lx.s lx.pos
    change Lexer.nextToken A lx = _ at e1
    rw [e1] at h
    simpa using (lexText_spec A _).1 e h
  | @tok lx t ts h ht _ ih =>
    have e1 := nextToken_eq_lexText A lx.s lx.pos
    change Lexer.nextToken A lx = _ at e1
    rw [e1] at h ih
    have h1 := (lexText_spec A _).2.1 t h ht
    have h2 := lexText_le A (lx.s.drop lx.pos)
    simp only [List.length_drop, List.length_cons] at ih h2 ⊢
    omega

theorem enter_eq {α : Type} (A : Arith α) (ts : Stream α) :
    enter A ts =
      match ts with
      | [] => .ok ⟨[], Token.simple A .END⟩
      | .ok t :: r => .ok ⟨r, t⟩
      | .error e :: _ => .err e := by
  unfold enter Parser.init
  rw [advance_stream]

theorem enter_mu {α : Type} (A : Arith α) {ts : Stream α} {p : Parser (Stream α) α}
    (h : enter A ts = .ok p) : p.mu ≤ ts.length := by
  rw [enter_eq] at h
  cases ts with
  | nil => simp only [Res.ok.injEq] at h; subst h; simp [Parser.mu, Token.simple]
  | cons r rs =>
    cases r with
    | error e => simp at h
    | ok t =>
      simp only [Res.ok.injEq] at h; subst h
      simp only [Parser.mu, List.length_cons]
      split <;> omega

theorem runWith_eq_sEval {α : Type} (A : Arith α) {ts : Stream α} {n : Nat}
    (h : 3 * ts.length + 3 ≤ n) : runWith A (Stream.next A) n ts = sEval A ts := by
  unfold runWith sEval
  refine Res.bind_congr fun p hp => ?_
  have := enter_mu A hp
  unfold Parser.parseWith
  rw [sExpr_stable A (by omega)]

/-- Evaluating a text is evaluating its token stream. -/
theorem evalLine_eq_sEval {α : Type} (A : Arith α) {s : List Char} {ts : Stream α}
    (h : Lexes A ⟨s, 0⟩ ts) : evalLine A s = sEval A ts := by
  rw [evalLine_eq_runWith A h]
  have := h.length_le
  simp only [List.drop_zero] at this
  exact runWith_eq_sEval A (by omega)

theorem sEval_ne_outOfFuel {α : Type} (A : Arith α) (ts : Stream α) : sEval A ts ≠ .outOfFuel := by
  unfold sEval
  cases he : enter A ts with
  | ok p =>
    simp only [Res.bind_ok]
    have := (sExpr_bounded A p).ne
    cases h : sExpr A p with
    | ok a => simp only [Res.bind_ok]; split <;> simp
    | err e => simp
    | outOfFuel => exact absurd h this
  | err e => simp
  | outOfFuel =>
    rw [enter_eq] at he
    cases ts with
    | nil => simp at he
    | cons r rs => cases r <;> simp at he

/-- The fuel that `evalLine` supplies is enough on every input. -/
theorem evalLine_ne_outOfFuel {α : Type} (A : Arith α) (s : List Char) :
    evalLine A s ≠ .outOfFuel := by
  obtain ⟨ts, hts, _⟩ := Lexes.exists A s
  rw [evalLine_eq_sEval A hts]
  exact sEval_ne_outOfFuel A ts

/-! ## Token streams of concatenated texts -/

theorem scanNumber_append {rest : List Char} (h : Stops rest) (a : List Char) (b : Bool) :
    scanNumber (a ++ rest) 0 b = scanNumber a 0 b := by
  induction a generalizing b with
  | nil =>
    cases rest with
    | nil => rfl
    | cons c r =>
      obtain ⟨h1, h2⟩ := h c rfl
      simp [scanNumber, h1, h2]
  | cons c a ih =>
    simp only [List.cons_append, scanNumber, List.append_eq]
    split
    · rw [scanNumber_add, scanNumber_add a, ih]
    · split
      · rw [scanNumber_add, scanNumber_add a, ih]
      · rfl

/-- A call that returns a token other than `END`, or throws, does not depend on the text
after the token, provided that text would end a number. -/
theorem lexText_append {α : Type} (A : Arith α) {rest : List Char} (h : Stops rest)
    (a : List Char) (hne : ∀ t, (lexText A a).2 = .ok t → t.type ≠ .END) :
    lexText A (a ++ rest) = lexText A a := by
  induction a with
  | nil => exact absurd rfl (hne _ rfl)
  | cons c a ih =>
    rw [List.cons_append, lexText, lexText]
    by_cases hsp : isspace c = true
    · simp only [hsp, if_true]
      rw [lexText] at hne
      simp only [hsp, if_true] at hne
      rw [ih hne]
    · simp only [hsp, Bool.false_eq_true, if_false]
      have hlen : scanNumber a 0 (decide (c = '.')) + 1 ≤ (c :: a).length := by
        have := scanNumber_le a (decide (c = '.'))
        simp only [List.length_cons]; omega
      rw [scanNumber_append h, ← List.cons_append, List.take_append_of_le_length hlen]

theorem lexText_ws {α : Type} (A : Arith α) {c : Char} (hc : isspace c = true) (r : List Char) :
    lexText A (c :: r) = ((lexText A r).1 + 1, (lexText A r).2) := by
  rw [lexText]; simp only [hc, if_true]

theorem Lexes.text_cases {α : Type} {A : Arith α} {r : List Char} {ts : Stream α}
    (h : Lexes A ⟨r, 0⟩ ts) :
    (ts = [] ∧ (lexText A r).2 = .ok (Token.simple A .END)) ∨
    (∃ e, ts = [.error e] ∧ (lexText A r).2 = .error e) ∨
    (∃ t ts1, ts = .ok t :: ts1 ∧ (lexText A r).2 = .ok t ∧ t.type ≠ .END ∧
      Lexes A ⟨r.drop (lexText A r).1, 0⟩ ts1) := by
  cases h with
  | done h =>
    rw [nextToken_eq_lexText] at h
    exact Or.inl ⟨rfl, by simpa using h⟩
  | fail h =>
    rw [nextToken_eq_lexText] at h
    exact Or.inr (Or.inl ⟨_, rfl, by simpa using h⟩)
  | tok h ht hs =>
    rw [nextToken_eq_lexText] at h hs
    refine Or.inr (Or.inr ⟨_, _, rfl, by simpa using h, ht, ?_⟩)
    have := hs.to_drop
    simpa using this

theorem Lexes.ws {α : Type} {A : Arith α} {c : Char} (hc : isspace c = true) {r : List Char}
    {ts : Stream α} (h : Lexes A ⟨r, 0⟩ ts) : Lexes A ⟨c :: r, 0⟩ ts := by
  rcases h.text_cases with ⟨rfl, h1⟩ | ⟨e, rfl, h1⟩ | ⟨t, ts1, rfl, h1, h2, h3⟩
  · exact Lexes.nil_of (by rw [lexText_ws A hc]; exact h1)
  · exact Lexes.fail_of (by rw [lexText_ws A hc]; exact h1)
  · refine Lexes.cons_of (by rw [lexText_ws A hc]; exact h1) h2 ?_
    rw [lexText_ws A hc]
    exact h3

theorem Lexes.wss {α : Type} {A : Arith α} {ws : List Char} (hws : ∀ c ∈ ws, isspace c = true)
    {r : List Char} {ts : Stream α} (h : Lexes A ⟨r, 0⟩ ts) : Lexes A ⟨ws ++ r, 0⟩ ts := by
  induction ws with
  | nil => exact h
  | cons c ws ih =>
    exact Lexes.ws (hws c (List.mem_cons_self _ _)) (ih fun d hd => hws d (List.mem_cons_of_mem _ hd))

theorem Lexes.noEnd {α : Type} {A : Arith α} {lx : Lexer} {ts : Stream α}
    (h : Lexes A lx ts) : NoEnd ts := by
  induction h with
  | done h => intro t ht; cases ht
  | fail h => intro t ht; simp at ht
  | tok h ht _ ih =>
    intro t1 ht1
    rcases List.mem_cons.mp ht1 with h1 | h1
    · injection h1 with h1; subst h1; exact ht
    · exact ih t1 h1

theorem opType_not_space {c : Char} {ty : TokenType} (h : opType c = some ty) :
    isspace c = false ∧ isdigit c = false ∧ c ≠ '.' := by
  unfold opType at h
  repeat' split at h
  all_goals first
    | (subst c; decide)
    | (cases h)

theorem lexText_single {α : Type} (A : Arith α) {c : Char} {ty : TokenType}
    (h : opType c = some ty) (r : List Char) :
    lexText A (c :: r) = (1, .ok (Token.simple A ty)) := by
  have hsp := (opType_not_space h).1
  rw [lexText]
  simp only [hsp, Bool.false_eq_true, if_false]
  unfold opType at h
  repeat' split at h
  all_goals first
    | (cases h; done)
    | (injection h with h; subst h; simp [*])

theorem opType_ne_end {c : Char} {ty : TokenType} (h : opType c = some ty) : ty ≠ .END := by
  unfold opType at h
  repeat' split at h
  all_goals first
    | (cases h; done)
    | (injection h with h; subst h; decide)

theorem Lexes.single {α : Type} {A : Arith α} {c : Char} {ty : TokenType}
    (h : opType c = some ty) {r : List Char} {ts : Stream α} (hs : Lexes A ⟨r, 0⟩ ts) :
    Lexes A ⟨c :: r, 0⟩ (.ok (Token.simple A ty) :: ts) := by
  refine Lexes.cons_of (by rw [lexText_single A h]) (opType_ne_end h) ?_
  rw [lexText_single A h]
  exact hs

theorem lexText_end_spaces {α : Type} (A : Arith α) (a : List Char) {t : Token α}
    (h : (lexText A a).2 = .ok t) (ht : t.type = .END) : ∀ c ∈ a, isspace c = true := by
  induction a with
  | nil => intro c hc; cases hc
  | cons d a ih =>
    by_cases hsp : isspace d = true
    · rw [lexText_ws A hsp] at h
      intro c hc
      rcases List.mem_cons.mp hc with h1 | h1
      · rw [h1]; exact hsp
      · exact ih h c h1
    · exfalso
      rw [lexText] at h
      simp only [hsp, Bool.false_eq_true, if_false] at h
      repeat' split at h
      all_goals first
        | (cases h; done)
        | (injection h with h; subst h; simp [Token.simple] at ht)

/-- The token stream of `a ++ rest` is the stream of `a` followed by the stream of
`rest`, when `a` has no lexical error and `rest` would end a number. -/
theorem Lexes.append {α : Type} {A : Arith α} {rest : List Char} {ts1 : Stream α}
    (hstop : Stops rest) (hrest : Lexes A ⟨rest, 0⟩ ts1) {ts : Stream α} :
    ∀ {a : List Char}, Lexes A ⟨a, 0⟩ ts → Clean ts → Lexes A ⟨a ++ rest, 0⟩ (ts ++ ts1) := by
  induction ts with
  | nil =>
    intro a h _
    rcases h.text_cases with ⟨_, h1⟩ | ⟨e, h0, _⟩ | ⟨t, ts2, h0, _⟩
    · exact Lexes.wss (lexText_end_spaces A a h1 rfl) hrest
    · cases h0
    · cases h0
  | cons x ts ih =>
    intro a h hc
    rcases h.text_cases with ⟨h0, _⟩ | ⟨e, h0, _⟩ | ⟨t, ts2, h0, h1, h2, h3⟩
    · cases h0
    · injection h0 with h0 _
      obtain ⟨t, ht, _⟩ := hc x (List.mem_cons_self _ _)
      rw [h0] at ht; cases ht
    · injection h0 with h0 h0'
      subst h0 h0'
      have hloc : lexText A (a ++ rest) = lexText A a :=
        lexText_append A hstop a (fun t1 ht1 => by rw [h1] at ht1; injection ht1 with e1; rw [← e1]; exact h2)
      refine Lexes.cons_of (by rw [hloc]; exact h1) h2 ?_
      rw [hloc, List.drop_append_of_le_length (lexText_le A a)]
      exact ih h3 (fun y hy => hc y (List.mem_cons_of_mem _ hy))

theorem scanNumber_literal (cs : List Char) (b : Bool)
    (h1 : ∀ c ∈ cs, isdigit c = true ∨ c = '.')
    (h2 : cs.count '.' + (if b then 1 else 0) ≤ 1) : scanNumber cs 0 b = cs.length := by
  induction cs generalizing b with
  | nil => rfl
  | cons c cs ih =>
    have hc := h1 c (List.mem_cons_self _ _)
    have hcs : ∀ d ∈ cs, isdigit d = true ∨ d = '.' := fun d hd => h1 d (List.mem_cons_of_mem _ hd)
    simp only [scanNumber, List.length_cons]
    by_cases hd : isdigit c = true
    · have hne : c ≠ '.' := by intro h; subst h; revert hd; decide
      simp only [hd, if_true]
      rw [scanNumber_add, ih b hcs]
      · omega
      · rw [List.count_cons_of_ne (Ne.symm hne)] at h2; exact h2
    · have hdot : c = '.' := by rcases hc with hc | hc; exact absurd hc hd; exact hc
      subst hdot
      rw [List.count_cons_self] at h2
      have hb : b = false := by cases b <;> simp at h2 ⊢
      subst hb
      simp only [hd, Bool.false_eq_true, if_false, decide_True, Bool.not_false, Bool.and_self,
        if_true]
      rw [scanNumber_add, ih true hcs]
      · omega
      · simp only [if_true]; simp only [Bool.false_eq_true, if_false] at h2; omega

theorem isdigit_not_other {c : Char} (h : isdigit c = true) :
    isspace c = false ∧ c ≠ '+' ∧ c ≠ '-' ∧ c ≠ '*' ∧ c ≠ '/' ∧ c ≠ '(' ∧ c ≠ ')' := by
  refine ⟨?_, ?_, ?_, ?_, ?_, ?_, ?_⟩
  · cases hs : isspace c with
    | false => rfl
    | true => rw [(isspace_cases hs).2.2.2.2.2.2.2] at h; cases h
  all_goals (intro hc; subst hc; revert h; decide)

theorem lexText_literal {α : Type} (A : Arith α) {ds : List Char} (h : NumberLiteral ds) :
    lexText A ds =
      (ds.length, match A.stod ds with
        | some v => .ok ⟨.NUMBER, v⟩
        | none => .error (.InvalidNumber ds)) := by
  obtain ⟨hne, hall, hcount⟩ := h
  cases ds with
  | nil => exact absurd rfl hne
  | cons c cs =>
    have hc := hall c (List.mem_cons_self _ _)
    have hlen : scanNumber cs 0 (decide (c = '.')) = cs.length := by
      refine scanNumber_literal cs _ (fun d hd => hall d (List.mem_cons_of_mem _ hd)) ?_
      by_cases hd : c = '.'
      · subst hd; rw [List.count_cons_self] at hcount; simp; omega
      · rw [List.count_cons_of_ne (Ne.symm hd)] at hcount; simp [hd]; omega
    have hfacts : isspace c = false ∧ c ≠ '+' ∧ c ≠ '-' ∧ c ≠ '*' ∧ c ≠ '/' ∧ c ≠ '(' ∧ c ≠ ')' := by
      rcases hc with hc | hc
      · exact isdigit_not_other hc
      · subst hc; decide
    obtain ⟨f0, f1, f2, f3, f4, f5, f6⟩ := hfacts
    have hnum : (isdigit c || decide (c = '.')) = true := by
      rcases hc with hc | hc
      · simp [hc]
      · simp [hc]
    rw [lexText]
    simp only [f0, f1, f2, f3, f4, f5, f6, hnum, Bool.false_eq_true, if_false, if_true, hlen]
    have htake : List.take (cs.length + 1) (c :: cs) = c :: cs := by
      rw [← List.length_cons c cs]; exact List.take_length _
    rw [htake]
    cases A.stod (c :: cs) <;> rfl

theorem Lexes.number {α : Type} {A : Arith α} {ds : List Char} (h : NumberLiteral ds) {v : α}
    (hv : A.stod ds = some v) {rest : List Char} (hstop : Stops rest) {ts : Stream α}
    (hrest : Lexes A ⟨rest, 0⟩ ts) : Lexes A ⟨ds ++ rest, 0⟩ (.ok ⟨.NUMBER, v⟩ :: ts) := by
  have h1 : Lexes A ⟨ds, 0⟩ [(.ok ⟨.NUMBER, v⟩ : Except Err (Token α))] := by
    have hl := lexText_literal A h
    rw [hv] at hl
    refine Lexes.cons_of (by rw [hl]) (by simp) ?_
    rw [hl]
    simp only [List.drop_length]
    exact Lexes.nil_of rfl
  have hclean : Clean [(.ok ⟨.NUMBER, v⟩ : Except Err (Token α))] := by
    intro x hx
    simp only [List.mem_singleton] at hx
    exact ⟨_, hx, by simp⟩
  exact Lexes.append hstop hrest h1 hclean

/-! ## C7: the unknown-character error of the lexer -/

/-- C7. A call of `nextToken` fails with `UnknownCharacter c` exactly when, after the
white space is skipped, the cursor is inside the input and the character `c` there is
none of `+ - * / ( )`, a decimal digit or `.`; and evaluating `2#3` fails with
`UnknownCharacter '#'` (under every interpretation of `double` whose `stod` converts the
literal `2`). -/
theorem C7_unknownCharacter {α : Type} (A : Arith α) :
    (∀ (lx : Lexer) (c : Char),
      (lx.nextToken A).2 = .error (.UnknownCharacter c) ↔
        (lx.s[skipSpaces (lx.s.drop lx.pos) lx.pos]? = some c ∧
          c ≠ '+' ∧ c ≠ '-' ∧ c ≠ '*' ∧ c ≠ '/' ∧ c ≠ '(' ∧ c ≠ ')' ∧
          isdigit c = false ∧ c ≠ '.')) ∧
    (∀ v, A.stod ['2'] = some v →
      evalLine A ['2', '#', '3'] = .err (.UnknownCharacter '#')) := by
  constructor
  · intro lx c
    unfold Lexer.nextToken
    simp only []
    cases hget : lx.s[skipSpaces (lx.s.drop lx.pos) lx.pos]? with
    | none => simp
    | some d =>
      simp only []
      by_cases h1 : d = '+'
      · simp [h1]; intro h; exact fun a => (a h.symm).elim
      by_cases h2 : d = '-'
      · simp [h2]; intro h _; exact fun a => (a h.symm).elim
      by_cases h3 : d = '*'
      · simp [h3]; intro h _ _; exact fun a => (a h.symm).elim
      by_cases h4 : d = '/'
      · simp [h4]; intro h _ _ _; exact fun a => (a h.symm).elim
      by_cases h5 : d = '('
      · simp [h5]; intro h _ _ _ _; exact fun a => (a h.symm).elim
      by_cases h6 : d = ')'
      · simp [h6]; intro h _ _ _ _ _; exact fun a => (a h.symm).elim
      simp only [h1, h2, h3, h4, h5, h6, if_false]
      by_cases h7 : (isdigit d || decide (d = '.')) = true
      · simp only [h7, if_true]
        have h7' := h7
        simp only [Bool.or_eq_true, decide_eq_true_eq] at h7'
        constructor
        · intro h; split at h <;> cases h
        · rintro ⟨hd, _, _, _, _, _, _, h8, h9⟩
          injection hd with hd; subst hd
          rcases h7' with h | h
          · rw [h] at h8; cases h8
          · exact absurd h h9
      · simp only [h7, Bool.false_eq_true, if_false]
        simp only [Bool.or_eq_true, decide_eq_true_eq, not_or, Bool.not_eq_true] at h7
        constructor
        · intro h
          injection h with h; injection h with h; subst h
          exact ⟨rfl, h1, h2, h3, h4, h5, h6, h7.1, h7.2⟩
        · rintro ⟨hd, _⟩
          injection hd with hd; subst hd; rfl
  · intro v hv
    simp [evalLine, Parser.create, Parser.init, advance, Lexer.nextToken, skipSpaces, scanNumber,
      substr, isspace, isdigit, hv, Parser.parse, Parser.parseWith, parseExpression, parseTerm,
      parseFactor]

set_option exponentiation.threshold 3000 in
set_option maxRecDepth 100000 in
/-- C7 at a concrete input, under the binary64 interpretation. -/
theorem C7_unknownCharacter_witness :
    F64.arith.stod ['2'] = some (F64.ofNat 2) ∧
      evalLine F64.arith ['2', '#', '3'] = .err (.UnknownCharacter '#') :=
  ⟨by decide!, (C7_unknownCharacter F64.arith).2 _ (show F64.arith.stod ['2'] = some (F64.ofNat 2) by decide!)⟩

/-! ## What a successful call consumes -/

section Inv
variable {α : Type} (A : Arith α)

theorem clean_nil : Clean ([] : Stream α) := fun _ hx => by cases hx

theorem noEnd_nil : NoEnd ([] : Stream α) := fun _ hx => by cases hx

theorem Consumed.refl {p : Parser (Stream α) α} (h : WF p) : Consumed p p :=
  ⟨h, [], clean_nil, rfl⟩

theorem Consumed.trans {p q s : Parser (Stream α) α} (h1 : Consumed p q) (h2 : Consumed q s) :
    Consumed p s := by
  obtain ⟨_, pre1, c1, e1⟩ := h1
  obtain ⟨w2, pre2, c2, e2⟩ := h2
  refine ⟨w2, pre1 ++ pre2, ?_, by rw [e1, e2, List.append_assoc]⟩
  intro x hx
  rcases List.mem_append.mp hx with h | h
  · exact c1 x h
  · exact c2 x h

theorem consumed_advance {p p1 : Parser (Stream α) α} (hw : WF p)
    (h : sAdvance A p = .ok p1) : Consumed p p1 := by
  rw [sAdvance_eq] at h
  rcases p with ⟨ts, cur⟩
  cases ts with
  | nil =>
    simp only [Res.ok.injEq] at h; subst h
    exact ⟨⟨noEnd_nil, fun _ => rfl⟩, [], clean_nil, rfl⟩
  | cons x rs =>
    cases x with
    | error e => simp at h
    | ok t =>
      simp only [Res.ok.injEq] at h; subst h
      have hne : t.type ≠ .END := hw.1 t (List.mem_cons_self _ _)
      refine ⟨⟨fun t1 ht1 => hw.1 t1 (List.mem_cons_of_mem _ ht1), fun h => absurd h hne⟩,
        [.ok t], ?_, rfl⟩
      intro x hx
      simp only [List.mem_singleton] at hx
      exact ⟨t, hx, hne⟩

theorem consumed_of_ok (n : Nat) :
    (∀ (p : Parser (Stream α) α) a, WF p →
      parseExpression A (Stream.next A) n p = .ok a → Consumed p a.2) ∧
    (∀ v (p : Parser (Stream α) α) a, WF p →
      exprLoop A (Stream.next A) n v p = .ok a → Consumed p a.2) ∧
    (∀ (p : Parser (Stream α) α) a, WF p →
      parseTerm A (Stream.next A) n p = .ok a → Consumed p a.2) ∧
    (∀ v (p : Parser (Stream α) α) a, WF p →
      termLoop A (Stream.next A) n v p = .ok a → Consumed p a.2) ∧
    (∀ (p : Parser (Stream α) α) a, WF p →
      parseFactor A (Stream.next A) n p = .ok a → Consumed p a.2) := by
  induction n with
  | zero =>
    refine ⟨?_, ?_, ?_, ?_, ?_⟩ <;> intros <;> rename_i h <;> cases h
  | succ n ih =>
    obtain ⟨hE, hEL, hT, hTL, hF⟩ := ih
    refine ⟨?_, ?_, ?_, ?_, ?_⟩
    · intro p a hw h
      rw [parseExpression] at h
      obtain ⟨b, hb, h⟩ := Res.bind_eq_ok.mp h
      have c1 := hT p b hw hb
      exact c1.trans (hEL _ _ a c1.1 h)
    · intro v p a hw h
      rw [exprLoop] at h
      split at h
      · obtain ⟨p1, h1, h⟩ := Res.bind_eq_ok.mp h
        obtain ⟨b, hb, h⟩ := Res.bind_eq_ok.mp h
        have c0 := consumed_advance A hw h1
        have c1 := hT p1 b c0.1 hb
        exact c0.trans (c1.trans (hEL _ _ a c1.1 h))
      · injection h with h; subst h; exact Consumed.refl hw
    · intro p a hw h
      rw [parseTerm] at h
      obtain ⟨b, hb, h⟩ := Res.bind_eq_ok.mp h
      have c1 := hF p b hw hb
      exact c1.trans (hTL _ _ a c1.1 h)
    · intro v p a hw h
      rw [termLoop] at h
      split at h
      · obtain ⟨p1, h1, h⟩ := Res.bind_eq_ok.mp h
        obtain ⟨b, hb, h⟩ := Res.bind_eq_ok.mp h
        have c0 := consumed_advance A hw h1
        have c1 := hF p1 b c0.1 hb
        split at h
        · exact c0.trans (c1.trans (hTL _ _ a c1.1 h))
        · split at h
          · cases h
          · exact c0.trans (c1.trans (hTL _ _ a c1.1 h))
      · injection h with h; subst h; exact Consumed.refl hw
    · intro p a hw h
      rw [parseFactor] at h
      split at h
      · obtain ⟨p1, h1, h⟩ := Res.bind_eq_ok.mp h
        injection h with h; subst h
        exact consumed_advance A hw h1
      · split at h
        · obtain ⟨p1, h1, h⟩ := Res.bind_eq_ok.mp h
          obtain ⟨b, hb, h⟩ := Res.bind_eq_ok.mp h
          have c0 := consumed_advance A hw h1
          have c1 := hE p1 b c0.1 hb
          split at h
          · cases h
          · obtain ⟨p2, h2, h⟩ := Res.bind_eq_ok.mp h
            injection h with h; subst h
            exact c0.trans (c1.trans (consumed_advance A c1.1 h2))
        · split at h
          · obtain ⟨p1, h1, h⟩ := Res.bind_eq_ok.mp h
            have c0 := consumed_advance A hw h1
            exact c0.trans (hF p1 a c0.1 h)
          · split at h
            · obtain ⟨p1, h1, h⟩ := Res.bind_eq_ok.mp h
              obtain ⟨b, hb, h⟩ := Res.bind_eq_ok.mp h
              injection h with h; subst h
              have c0 := consumed_advance A hw h1
              exact c0.trans (hF p1 b c0.1 hb)
            · cases h

end Inv

/-! ## Extending the token stream behind a successful call -/

section Ext
variable {α : Type} (A : Arith α) (t : Token α) (r : Stream α)

theorem extend_of_ne {p : Parser (Stream α) α} (h : p.cur.type ≠ .END) :
    extend t r p = ⟨p.lexer ++ .ok t :: r, p.cur⟩ := by
  unfold extend; rw [if_neg h]

theorem extend_of_end {p : Parser (Stream α) α} (h : p.cur.type = .END) :
    extend t r p = ⟨r, t⟩ := by
  unfold extend; rw [if_pos h]

theorem extend_cur {p : Parser (Stream α) α} (h : p.cur.type ≠ .END) :
    (extend t r p).cur = p.cur := by
  rw [extend_of_ne t r h]

theorem sAdvance_extend {p p1 : Parser (Stream α) α} (hw : WF p) (hc : p.cur.type ≠ .END)
    (h : sAdvance A p = .ok p1) : sAdvance A (extend t r p) = .ok (extend t r p1) := by
  rw [extend_of_ne t r hc, sAdvance_eq]
  rw [sAdvance_eq] at h
  rcases p with ⟨ts, cur⟩
  cases ts with
  | nil =>
    simp only [Res.ok.injEq] at h; subst h
    simp only [List.nil_append]
    rw [extend_of_end t r rfl]
  | cons x rs =>
    cases x with
    | error e => simp at h
    | ok t1 =>
      simp only [Res.ok.injEq] at h; subst h
      have hne : t1.type ≠ .END := hw.1 t1 (List.mem_cons_self _ _)
      rw [extend_of_ne t r hne]
      rfl

theorem exprLoop_at_end {σ : Type} (next : σ → σ × Except Err (Token α)) {n : Nat} {v : α}
    {p : Parser σ α} {a : α × Parser σ α} (h : exprLoop A next n v p = .ok a)
    (hc : p.cur.type = .END) : a = (v, p) := by
  cases n with
  | zero => cases h
  | succ n =>
    rw [exprLoop] at h
    simp only [hc, false_or, if_false] at h
    rw [if_neg (by decide)] at h
    injection h with h; exact h.symm

theorem termLoop_at_end {σ : Type} (next : σ → σ × Except Err (Token α)) {n : Nat} {v : α}
    {p : Parser σ α} {a : α × Parser σ α} (h : termLoop A next n v p = .ok a)
    (hc : p.cur.type = .END) : a = (v, p) := by
  cases n with
  | zero => cases h
  | succ n =>
    rw [termLoop] at h
    simp only [hc, false_or, if_false] at h
    rw [if_neg (by decide)] at h
    injection h with h; exact h.symm

/-- A successful call that did not stop at the end of the stream gives the same result on
the extended stream; `parseFactor`, which never inspects the token after the factor, does
so in every case. -/
theorem ext_gen (n : Nat) :
    (∀ (p : Parser (Stream α) α) a, WF p → parseExpression A (Stream.next A) n p = .ok a →
      a.2.cur.type ≠ .END → sExpr A (extend t r p) = .ok (a.1, extend t r a.2)) ∧
    (∀ v (p : Parser (Stream α) α) a, WF p → exprLoop A (Stream.next A) n v p = .ok a →
      a.2.cur.type ≠ .END → sExprLoop A v (extend t r p) = .ok (a.1, extend t r a.2)) ∧
    (∀ (p : Parser (Stream α) α) a, WF p → parseTerm A (Stream.next A) n p = .ok a →
      a.2.cur.type ≠ .END → sTerm A (extend t r p) = .ok (a.1, extend t r a.2)) ∧
    (∀ v (p : Parser (Stream α) α) a, WF p → termLoop A (Stream.next A) n v p = .ok a →
      a.2.cur.type ≠ .END → sTermLoop A v (extend t r p) = .ok (a.1, extend t r a.2)) ∧
    (∀ (p : Parser (Stream α) α) a, WF p → parseFactor A (Stream.next A) n p = .ok a →
      sFactor A (extend t r p) = .ok (a.1, extend t r a.2)) := by
  induction n with
  | zero =>
    refine ⟨fun _ _ _ h => ?_, fun _ _ _ _ h => ?_, fun _ _ _ h => ?_, fun _ _ _ _ h => ?_,
      fun _ _ _ h => ?_⟩ <;> cases h
  | succ n ih =>
    obtain ⟨hE, hEL, hT, hTL, hF⟩ := ih
    have inv := consumed_of_ok A n
    refine ⟨?_, ?_, ?_, ?_, ?_⟩
    · intro p a hw h hend
      rw [parseExpression] at h
      obtain ⟨b, hb, h⟩ := Res.bind_eq_ok.mp h
      have hbw := (inv.2.2.1 p b hw hb).1
      have hbe : b.2.cur.type ≠ .END := by
        intro hc; have := exprLoop_at_end A _ h hc; subst this; exact hend hc
      rw [sExpr_eq, hT p b hw hb hbe]
      exact hEL _ _ a hbw h hend
    · intro v p a hw h hend
      rw [exprLoop] at h
      split at h
      · rename_i hc
        have hc1 : p.cur.type ≠ .END := by rcases hc with hc | hc <;> rw [hc] <;> decide
        obtain ⟨p1, h1, h⟩ := Res.bind_eq_ok.mp h
        obtain ⟨b, hb, h⟩ := Res.bind_eq_ok.mp h
        have c0 := consumed_advance A hw h1
        have hbw := (inv.2.2.1 p1 b c0.1 hb).1
        have hbe : b.2.cur.type ≠ .END := by
          intro hc; have := exprLoop_at_end A _ h hc; subst this; exact hend hc
        rw [sExprLoop_eq, extend_cur t r hc1, if_pos hc, sAdvance_extend A t r hw hc1 h1]
        simp only [Res.bind_ok]
        rw [hT p1 b c0.1 hb hbe]
        exact hEL _ _ a hbw h hend
      · rename_i hc
        injection h with h; subst h
        rw [sExprLoop_eq, extend_cur t r hend, if_neg hc]
    · intro p a hw h hend
      rw [parseTerm] at h
      obtain ⟨b, hb, h⟩ := Res.bind_eq_ok.mp h
      have hbw := (inv.2.2.2.2 p b hw hb).1
      rw [sTerm_eq, hF p b hw hb]
      exact hTL _ _ a hbw h hend
    · intro v p a hw h hend
      rw [termLoop] at h
      split at h
      · rename_i hc
        have hc1 : p.cur.type ≠ .END := by rcases hc with hc | hc <;> rw [hc] <;> decide
        obtain ⟨p1, h1, h⟩ := Res.bind_eq_ok.mp h
        obtain ⟨b, hb, h⟩ := Res.bind_eq_ok.mp h
        have c0 := consumed_advance A hw h1
        have hbw := (inv.2.2.2.2 p1 b c0.1 hb).1
        rw [sTermLoop_eq, extend_cur t r hc1, if_pos hc, sAdvance_extend A t r hw hc1 h1]
        simp only [Res.bind_ok]
        rw [hF p1 b c0.1 hb]
        simp only [Res.bind_ok]
        split at h
        · rename_i hm
          rw [if_pos hm]
          exact hTL _ _ a hbw h hend
        · rename_i hm
          rw [if_neg hm]
          split at h
          · cases h
          · rename_i hz
            rw [if_neg hz]
            exact hTL _ _ a hbw h hend
      · rename_i hc
        injection h with h; subst h
        rw [sTermLoop_eq, extend_cur t r hend, if_neg hc]
    · intro p a hw h
      rw [parseFactor] at h
      split at h
      · rename_i hc
        have hc1 : p.cur.type ≠ .END := by rw [hc]; decide
        obtain ⟨p1, h1, h⟩ := Res.bind_eq_ok.mp h
        injection h with h; subst h
        rw [sFactor_eq, extend_cur t r hc1, if_pos hc, sAdvance_extend A t r hw hc1 h1]
        rfl
      · rename_i hn
        split at h
        · rename_i hc
          have hc1 : p.cur.type ≠ .END := by rw [hc]; decide
          obtain ⟨p1, h1, h⟩ := Res.bind_eq_ok.mp h
          obtain ⟨b, hb, h⟩ := Res.bind_eq_ok.mp h
          have c0 := consumed_advance A hw h1
          have hbw := (inv.1 p1 b c0.1 hb).1
          split at h
          · cases h
          · rename_i hr
            simp only [ne_eq, Decidable.not_not] at hr
            have hbe : b.2.cur.type ≠ .END := by rw [hr]; decide
            obtain ⟨p2, h2, h⟩ := Res.bind_eq_ok.mp h
            injection h with h; subst h
            rw [sFactor_eq, extend_cur t r hc1, if_neg hn, if_pos hc,
              sAdvance_extend A t r hw hc1 h1]
            simp only [Res.bind_ok]
            rw [hE p1 b c0.1 hb hbe]
            simp only [Res.bind_ok, extend_cur t r hbe, hr, ne_eq, not_true_eq_false, if_false]
            rw [sAdvance_extend A t r hbw hbe h2]
            rfl
        · rename_i hl
          split at h
          · rename_i hc
            have hc1 : p.cur.type ≠ .END := by rw [hc]; decide
            obtain ⟨p1, h1, h⟩ := Res.bind_eq_ok.mp h
            have c0 := consumed_advance A hw h1
            rw [sFactor_eq, extend_cur t r hc1, if_neg hn, if_neg hl, if_pos hc,
              sAdvance_extend A t r hw hc1 h1]
            exact hF p1 a c0.1 h
          · rename_i hp
            split at h
            · rename_i hc
              have hc1 : p.cur.type ≠ .END := by rw [hc]; decide
              obtain ⟨p1, h1, h⟩ := Res.bind_eq_ok.mp h
              obtain ⟨b, hb, h⟩ := Res.bind_eq_ok.mp h
              injection h with h; subst h
              have c0 := consumed_advance A hw h1
              rw [sFactor_eq, extend_cur t r hc1, if_neg hn, if_neg hl, if_neg hp, if_pos hc,
                sAdvance_extend A t r hw hc1 h1]
              simp only [Res.bind_ok]
              rw [hF p1 b c0.1 hb]
              rfl
            · cases h

end Ext

section ExtEnd
variable {α : Type} (A : Arith α) (t : Token α) (r : Stream α)

/-- A term loop that stopped at the end of the stream goes on, on the extended stream,
from the token that now follows. -/
theorem ext_termLoop_end (n : Nat) :
    ∀ v (p : Parser (Stream α) α) a, WF p → termLoop A (Stream.next A) n v p = .ok a →
      a.2.cur.type = .END → sTermLoop A v (extend t r p) = sTermLoop A a.1 ⟨r, t⟩ := by
  induction n with
  | zero => intro _ _ _ _ h; cases h
  | succ n ih =>
    intro v p a hw h hend
    have inv := consumed_of_ok A n
    rw [termLoop] at h
    split at h
    · rename_i hc
      have hc1 : p.cur.type ≠ .END := by rcases hc with hc | hc <;> rw [hc] <;> decide
      obtain ⟨p1, h1, h⟩ := Res.bind_eq_ok.mp h
      obtain ⟨b, hb, h⟩ := Res.bind_eq_ok.mp h
      have c0 := consumed_advance A hw h1
      have hbw := (inv.2.2.2.2 p1 b c0.1 hb).1
      rw [sTermLoop_eq, extend_cur t r hc1, if_pos hc, sAdvance_extend A t r hw hc1 h1]
      simp only [Res.bind_ok]
      rw [(ext_gen A t r n).2.2.2.2 p1 b c0.1 hb]
      simp only [Res.bind_ok]
      split at h
      · rename_i hm
        rw [if_pos hm]
        exact ih _ _ a hbw h hend
      · rename_i hm
        rw [if_neg hm]
        split at h
        · cases h
        · rename_i hz
          rw [if_neg hz]
          exact ih _ _ a hbw h hend
    · injection h with h; subst h
      rw [extend_of_end t r hend]

theorem ext_term_end (n : Nat) (p : Parser (Stream α) α) (a : α × Parser (Stream α) α)
    (hw : WF p) (h : parseTerm A (Stream.next A) n p = .ok a) (hend : a.2.cur.type = .END) :
    sTerm A (extend t r p) = sTermLoop A a.1 ⟨r, t⟩ := by
  cases n with
  | zero => cases h
  | succ n =>
    rw [parseTerm] at h
    obtain ⟨b, hb, h⟩ := Res.bind_eq_ok.mp h
    have hbw := ((consumed_of_ok A n).2.2.2.2 p b hw hb).1
    rw [sTerm_eq, (ext_gen A t r n).2.2.2.2 p b hw hb]
    exact ext_termLoop_end A t r n _ _ a hbw h hend

theorem sTermLoop_exit {v : α} {p : Parser (Stream α) α}
    (h : p.cur.type ≠ .MUL ∧ p.cur.type ≠ .DIV) : sTermLoop A v p = .ok (v, p) := by
  rw [sTermLoop_eq, if_neg (by rintro (h1 | h1); exact h.1 h1; exact h.2 h1)]

theorem sExprLoop_exit {v : α} {p : Parser (Stream α) α}
    (h : p.cur.type ≠ .PLUS ∧ p.cur.type ≠ .MINUS) : sExprLoop A v p = .ok (v, p) := by
  rw [sExprLoop_eq, if_neg (by rintro (h1 | h1); exact h.1 h1; exact h.2 h1)]

/-- When the token that follows is not `*` or `/`, a successful `parseTerm` gives the
same result on the extended stream. -/
theorem ext_term (ht : t.type ≠ .MUL ∧ t.type ≠ .DIV) (n : Nat) (p : Parser (Stream α) α)
    (a : α × Parser (Stream α) α) (hw : WF p) (h : parseTerm A (Stream.next A) n p = .ok a) :
    sTerm A (extend t r p) = .ok (a.1, extend t r a.2) := by
  by_cases hend : a.2.cur.type = .END
  · rw [ext_term_end A t r n p a hw h hend, extend_of_end t r hend]
    exact sTermLoop_exit A ht
  · exact (ext_gen A t r n).2.2.1 p a hw h hend

theorem ext_exprLoop_end (ht : t.type ≠ .MUL ∧ t.type ≠ .DIV) (n : Nat) :
    ∀ v (p : Parser (Stream α) α) a, WF p → exprLoop A (Stream.next A) n v p = .ok a →
      a.2.cur.type = .END → sExprLoop A v (extend t r p) = sExprLoop A a.1 ⟨r, t⟩ := by
  induction n with
  | zero => intro _ _ _ _ h; cases h
  | succ n ih =>
    intro v p a hw h hend
    have inv := consumed_of_ok A n
    rw [exprLoop] at h
    split at h
    · rename_i hc
      have hc1 : p.cur.type ≠ .END := by rcases hc with hc | hc <;> rw [hc] <;> decide
      obtain ⟨p1, h1, h⟩ := Res.bind_eq_ok.mp h
      obtain ⟨b, hb, h⟩ := Res.bind_eq_ok.mp h
      have c0 := consumed_advance A hw h1
      have hbw := (inv.2.2.1 p1 b c0.1 hb).1
      rw [sExprLoop_eq, extend_cur t r hc1, if_pos hc, sAdvance_extend A t r hw hc1 h1]
      simp only [Res.bind_ok]
      rw [ext_term A t r ht n p1 b c0.1 hb]
      exact ih _ _ a hbw h hend
    · injection h with h; subst h
      rw [extend_of_end t r hend]

theorem ext_expr_end (ht : t.type ≠ .MUL ∧ t.type ≠ .DIV) (n : Nat) (p : Parser (Stream α) α)
    (a : α × Parser (Stream α) α) (hw : WF p)
    (h : parseExpression A (Stream.next A) n p = .ok a) (hend : a.2.cur.type = .END) :
    sExpr A (extend t r p) = sExprLoop A a.1 ⟨r, t⟩ := by
  cases n with
  | zero => cases h
  | succ n =>
    rw [parseExpression] at h
    obtain ⟨b, hb, h⟩ := Res.bind_eq_ok.mp h
    have hbw := ((consumed_of_ok A n).2.2.1 p b hw hb).1
    rw [sExpr_eq, ext_term A t r ht n p b hw hb]
    exact ext_exprLoop_end A t r ht n _ _ a hbw h hend

/-- When the token that follows is no binary operator, a successful `parseExpression`
gives the same result on the extended stream. -/
theorem ext_expr (ht : t.type ≠ .MUL ∧ t.type ≠ .DIV ∧ t.type ≠ .PLUS ∧ t.type ≠ .MINUS)
    (n : Nat) (p : Parser (Stream α) α) (a : α × Parser (Stream α) α) (hw : WF p)
    (h : parseExpression A (Stream.next A) n p = .ok a) :
    sExpr A (extend t r p) = .ok (a.1, extend t r a.2) := by
  by_cases hend : a.2.cur.type = .END
  · rw [ext_expr_end A t r ⟨ht.1, ht.2.1⟩ n p a hw h hend, extend_of_end t r hend]
    exact sExprLoop_exit A ht.2.2
  · exact (ext_gen A t r n).1 p a hw h hend

end ExtEnd

/-! ## Evaluation of a token stream, unfolded -/

section Top
variable {α : Type} (A : Arith α)

theorem sEval_eq_ok {ts : Stream α} {v : α} (h : sEval A ts = .ok v) :
    ∃ p a, enter A ts = .ok p ∧ sExpr A p = .ok a ∧ a.2.cur.type = .END ∧ a.1 = v := by
  unfold sEval at h
  obtain ⟨p, hp, h⟩ := Res.bind_eq_ok.mp h
  obtain ⟨a, ha, h⟩ := Res.bind_eq_ok.mp h
  refine ⟨p, a, hp, ha, ?_⟩
  split at h
  · cases h
  · rename_i hc
    simp only [ne_eq, Decidable.not_not] at hc
    injection h with h
    exact ⟨hc, h⟩

theorem enter_wf {ts : Stream α} (hn : NoEnd ts) {p : Parser (Stream α) α}
    (h : enter A ts = .ok p) : WF p := by
  rw [enter_eq] at h
  cases ts with
  | nil => simp only [Res.ok.injEq] at h; subst h; exact ⟨noEnd_nil, fun _ => rfl⟩
  | cons x rs =>
    cases x with
    | error e => simp at h
    | ok t =>
      simp only [Res.ok.injEq] at h; subst h
      exact ⟨fun t1 h1 => hn t1 (List.mem_cons_of_mem _ h1),
        fun hc => absurd hc (hn t (List.mem_cons_self _ _))⟩

theorem enter_append {ts : Stream α} (hn : NoEnd ts) {p : Parser (Stream α) α}
    (h : enter A ts = .ok p) (t : Token α) (r : Stream α) :
    enter A (ts ++ .ok t :: r) = .ok (extend t r p) := by
  rw [enter_eq] at h ⊢
  cases ts with
  | nil => simp only [Res.ok.injEq] at h; subst h; rw [extend_of_end t r rfl]; rfl
  | cons x rs =>
    cases x with
    | error e => simp at h
    | ok t1 =>
      simp only [Res.ok.injEq] at h; subst h
      rw [extend_of_ne t r (hn t1 (List.mem_cons_self _ _))]
      rfl

theorem sExpr_consumed {p : Parser (Stream α) α} {a : α × Parser (Stream α) α} (hw : WF p)
    (h : sExpr A p = .ok a) : Consumed p a.2 :=
  (consumed_of_ok A _).1 p a hw h

/-- A token stream that evaluates successfully has no lexical error in it. -/
theorem sEval_clean {ts : Stream α} (hn : NoEnd ts) {v : α} (h : sEval A ts = .ok v) :
    Clean ts := by
  obtain ⟨p, a, hp, ha, hend, _⟩ := sEval_eq_ok A h
  have hw := enter_wf A hn hp
  obtain ⟨hw2, pre, hpre, hlex⟩ := sExpr_consumed A hw ha
  rw [hw2.2 hend, List.append_nil] at hlex
  rw [enter_eq] at hp
  cases ts with
  | nil => exact clean_nil
  | cons x rs =>
    cases x with
    | error e => simp at hp
    | ok t =>
      simp only [Res.ok.injEq] at hp; subst hp
      intro y hy
      rcases List.mem_cons.mp hy with h1 | h1
      · exact ⟨t, h1, hn t (List.mem_cons_self _ _)⟩
      · simp only at hlex; rw [hlex] at h1; exact hpre y h1

end Top

/-! ## Accepted texts -/

section Accepted
variable {α : Type} (A : Arith α)

/-- An accepted text has a token stream without errors, which evaluates to the value. -/
theorem accepted_stream {e : List Char} {v : α} (h : evalLine A e = .ok v) :
    ∃ ts : Stream α, Lexes A ⟨e, 0⟩ ts ∧ Clean ts ∧ NoEnd ts ∧ sEval A ts = .ok v := by
  obtain ⟨ts, hts, _⟩ := Lexes.exists A e
  have hs : sEval A ts = .ok v := by rw [← evalLine_eq_sEval A hts]; exact h
  exact ⟨ts, hts, sEval_clean A hts.noEnd hs, hts.noEnd, hs⟩

/-- After an accepted token stream, a token that is neither a binary operator nor `END`
is trailing input. -/
theorem sEval_trailing {ts : Stream α} (hn : NoEnd ts) {v : α} (h : sEval A ts = .ok v)
    {t : Token α} (r : Stream α)
    (ht : t.type ≠ .MUL ∧ t.type ≠ .DIV ∧ t.type ≠ .PLUS ∧ t.type ≠ .MINUS) (hte : t.type ≠ .END) :
    sEval A (ts ++ .ok t :: r) = .err .TrailingInput := by
  obtain ⟨p, a, hp, ha, hend, _⟩ := sEval_eq_ok A h
  have hw := enter_wf A hn hp
  unfold sEval
  rw [enter_append A hn hp t r]
  simp only [Res.bind_ok]
  rw [ext_expr A t r ht _ p a hw ha, extend_of_end t r hend]
  simp only [Res.bind_ok, ne_eq, hte, not_false_eq_true, if_true]

theorem stops_space (r : List Char) : Stops (' ' :: r) := by
  intro c hc
  simp only [List.head?_cons, Option.some.injEq] at hc
  subst hc; decide

theorem stops_of_opType {c : Char} {ty : TokenType} (h : opType c = some ty) (r : List Char) :
    Stops (c :: r) := by
  intro d hd
  simp only [List.head?_cons, Option.some.injEq] at hd
  subst hd
  exact (opType_not_space h).2

theorem stops_nil : Stops [] := by
  intro c hc; cases hc

/-- The first token of a text that starts with a digit, `.` or `(`. -/
theorem first_token {c : Char} {rest : List Char} {ts : Stream α}
    (h : Lexes A ⟨c :: rest, 0⟩ ts) (hc : Clean ts)
    (hstart : isdigit c = true ∨ c = '.' ∨ c = '(') :
    ∃ t r, ts = .ok t :: r ∧ (t.type = .NUMBER ∨ t.type = .LPAREN) := by
  have hsp : isspace c = false := by
    rcases hstart with h1 | h1 | h1
    · exact (isdigit_not_other h1).1
    · subst h1; decide
    · subst h1; decide
  rcases h.text_cases with ⟨_, h1⟩ | ⟨e, h0, _⟩ | ⟨t, ts1, h0, h1, _, _⟩
  · have := lexText_end_spaces A (c :: rest) h1 rfl c (List.mem_cons_self _ _)
    rw [hsp] at this; cases this
  · obtain ⟨t, ht, _⟩ := hc (.error e) (by rw [h0]; exact List.mem_cons_self _ _)
    cases ht
  · refine ⟨t, ts1, h0, ?_⟩
    by_cases hp : c = '('
    · subst hp
      rw [lexText_single A (show opType '(' = some .LPAREN by decide)] at h1
      injection h1 with h1; subst h1; right; rfl
    · have hd : isdigit c = true ∨ c = '.' := by
        rcases hstart with h2 | h2 | h2
        · exact Or.inl h2
        · exact Or.inr h2
        · exact absurd h2 hp
      have hfacts : c ≠ '+' ∧ c ≠ '-' ∧ c ≠ '*' ∧ c ≠ '/' ∧ c ≠ ')' := by
        rcases hd with h2 | h2
        · have := isdigit_not_other h2
          exact ⟨this.2.1, this.2.2.1, this.2.2.2.1, this.2.2.2.2.1, this.2.2.2.2.2.2⟩
        · subst h2; decide
      obtain ⟨f1, f2, f3, f4, f6⟩ := hfacts
      have hnum : (isdigit c || decide (c = '.')) = true := by
        rcases hd with h2 | h2 <;> simp [h2]
      rw [lexText] at h1
      simp only [hsp, f1, f2, f3, f4, hp, f6, hnum, Bool.false_eq_true, if_false, if_true] at h1
      split at h1
      · injection h1 with h1; subst h1; left; rfl
      · cases h1

end Accepted

/-! ## C4, C5, C6: trailing input and unbalanced parentheses -/

/-- C4. For accepted texts `e1` and `e2`, where `e2` begins with a digit, `.` or `(`,
evaluating `e1`, a space, `e2` fails with `TrailingInput`. -/
theorem C4_trailing_input {α : Type} (A : Arith α) (e1 e2 : List Char) (v1 v2 : α)
    (h1 : evalLine A e1 = .ok v1) (h2 : evalLine A e2 = .ok v2)
    (hstart : ∃ c, e2.head? = some c ∧ (isdigit c = true ∨ c = '.' ∨ c = '(')) :
    evalLine A (e1 ++ ' ' :: e2) = .err .TrailingInput := by
  obtain ⟨ts1, hl1, hc1, hn1, hs1⟩ := accepted_stream A h1
  obtain ⟨ts2, hl2, hc2, _, _⟩ := accepted_stream A h2
  obtain ⟨c, hhead, hc⟩ := hstart
  cases e2 with
  | nil => cases hhead
  | cons d rest =>
    simp only [List.head?_cons, Option.some.injEq] at hhead
    subst hhead
    obtain ⟨t, r, hts, ht⟩ := first_token A hl2 hc2 hc
    subst hts
    have hl : Lexes A ⟨e1 ++ ' ' :: d :: rest, 0⟩ (ts1 ++ .ok t :: r) :=
      Lexes.append (stops_space _) (Lexes.ws (by decide) hl2) hl1 hc1
    rw [evalLine_eq_sEval A hl]
    refine sEval_trailing A hn1 hs1 r ?_ ?_
    · rcases ht with ht | ht <;> rw [ht] <;> decide
    · rcases ht with ht | ht <;> rw [ht] <;> decide

set_option exponentiation.threshold 3000 in
set_option maxRecDepth 100000 in
/-- C4 at `2 3`, under the binary64 interpretation. -/
theorem C4_trailing_input_witness :
    evalLine F64.arith ['2'] = .ok (F64.ofNat 2) ∧ evalLine F64.arith ['3'] = .ok (F64.ofNat 3) ∧
      evalLine F64.arith ['2', ' ', '3'] = .err .TrailingInput :=
  ⟨by decide!, by decide!,
    C4_trailing_input F64.arith ['2'] ['3'] (F64.ofNat 2) (F64.ofNat 3) (by decide!) (by decide!)
      ⟨'3', rfl, Or.inl (by decide)⟩⟩

/-- C5. For an accepted text `e`, evaluating `(` followed by `e` fails with
`ExpectedCloseParen`. -/
theorem C5_unclosed_paren {α : Type} (A : Arith α) (e : List Char) (v : α)
    (h : evalLine A e = .ok v) : evalLine A ('(' :: e) = .err .ExpectedCloseParen := by
  obtain ⟨ts, hl, _, _, hs⟩ := accepted_stream A h
  obtain ⟨p, a, hp, ha, hend, _⟩ := sEval_eq_ok A hs
  have hl1 : Lexes A ⟨'(' :: e, 0⟩ (.ok (Token.simple A .LPAREN) :: ts) :=
    Lexes.single (by decide) hl
  rw [evalLine_eq_sEval A hl1]
  have hadv : sAdvance A ⟨ts, Token.simple A .LPAREN⟩ = .ok p := by
    rw [sAdvance_eq]; rw [enter_eq] at hp; exact hp
  unfold sEval
  rw [enter_eq]
  simp only [Res.bind_ok]
  rw [sExpr_eq, sTerm_eq, sFactor_eq]
  simp only [Token.simple] at hadv ⊢
  simp [hadv, ha, hend]

set_option exponentiation.threshold 3000 in
set_option maxRecDepth 100000 in
/-- C5 at `(2+3`, under the binary64 interpretation. -/
theorem C5_unclosed_paren_witness :
    evalLine F64.arith ['2', '+', '3'] = .ok (F64.ofNat 5) ∧
      evalLine F64.arith ['(', '2', '+', '3'] = .err .ExpectedCloseParen :=
  ⟨by decide!, C5_unclosed_paren F64.arith ['2', '+', '3'] (F64.ofNat 5) (by decide!)⟩

/-- C6. For an accepted text `e`, evaluating `e` followed by a stray `)` fails, and the
failure is `TrailingInput`. -/
theorem C6_stray_close_paren {α : Type} (A : Arith α) (e : List Char) (v : α)
    (h : evalLine A e = .ok v) : evalLine A (e ++ [')']) = .err .TrailingInput := by
  obtain ⟨ts, hl, hc, hn, hs⟩ := accepted_stream A h
  have hl1 : Lexes A ⟨e ++ [')'], 0⟩ (ts ++ [.ok (Token.simple A .RPAREN)]) :=
    Lexes.append (stops_of_opType (show opType ')' = some .RPAREN by decide) [])
      (Lexes.single (by decide) (Lexes.nil_of rfl)) hl hc
  rw [evalLine_eq_sEval A hl1]
  exact sEval_trailing A hn hs [] (by simp [Token.simple]) (by simp [Token.simple])

set_option exponentiation.threshold 3000 in
set_option maxRecDepth 100000 in
/-- C6 at `2+3)`, under the binary64 interpretation. -/
theorem C6_stray_close_paren_witness :
    evalLine F64.arith ['2', '+', '3'] = .ok (F64.ofNat 5) ∧
      evalLine F64.arith ['2', '+', '3', ')'] = .err .TrailingInput :=
  ⟨by decide!, C6_stray_close_paren F64.arith ['2', '+', '3'] (F64.ofNat 5) (by decide!)⟩

/-! ## C8: a token no factor can start with -/

section Dangling
variable {α : Type} (A : Arith α)

theorem parseFactor_unexpected {σ : Type} (next : σ → σ × Except Err (Token α)) (n : Nat)
    (p : Parser σ α)
    (h : p.cur.type = .END ∨ p.cur.type = .RPAREN ∨ p.cur.type = .MUL ∨ p.cur.type = .DIV) :
    parseFactor A next (n + 1) p = .err .UnexpectedToken := by
  rw [parseFactor]
  rcases h with h | h | h | h <;> rw [h] <;> simp

theorem sFactor_unexpected (p : Parser (Stream α) α)
    (h : p.cur.type = .END ∨ p.cur.type = .RPAREN ∨ p.cur.type = .MUL ∨ p.cur.type = .DIV) :
    sFactor A p = .err .UnexpectedToken :=
  parseFactor_unexpected A _ _ p h

theorem sTermLoop_dangling (v : α) (t : Token α) (ht : t.type = .MUL ∨ t.type = .DIV) :
    sTermLoop A v ⟨[], t⟩ = .err .UnexpectedToken := by
  rw [sTermLoop_eq, if_pos ht, sAdvance_eq]
  simp only [Res.bind_ok]
  rw [sFactor_unexpected A _ (Or.inl rfl)]
  rfl

theorem sExprLoop_dangling (v : α) (t : Token α) (ht : t.type = .PLUS ∨ t.type = .MINUS) :
    sExprLoop A v ⟨[], t⟩ = .err .UnexpectedToken := by
  rw [sExprLoop_eq, if_pos ht, sAdvance_eq]
  simp only [Res.bind_ok]
  rw [sTerm_eq, sFactor_unexpected A _ (Or.inl rfl)]
  rfl

theorem ext_exprLoop_dangling (t : Token α) (ht : t.type = .MUL ∨ t.type = .DIV) (n : Nat) :
    ∀ v (p : Parser (Stream α) α) a, WF p → exprLoop A (Stream.next A) n v p = .ok a →
      a.2.cur.type = .END → p.cur.type ≠ .END →
      sExprLoop A v (extend t [] p) = .err .UnexpectedToken := by
  induction n with
  | zero => intro _ _ _ _ h; cases h
  | succ n ih =>
    intro v p a hw h hend hne
    rw [exprLoop] at h
    split at h
    · rename_i hc
      obtain ⟨p1, h1, h⟩ := Res.bind_eq_ok.mp h
      obtain ⟨b, hb, h⟩ := Res.bind_eq_ok.mp h
      have c0 := consumed_advance A hw h1
      have hbw := ((consumed_of_ok A n).2.2.1 p1 b c0.1 hb).1
      rw [sExprLoop_eq, extend_cur t [] hne, if_pos hc, sAdvance_extend A t [] hw hne h1]
      simp only [Res.bind_ok]
      by_cases hbe : b.2.cur.type = .END
      · rw [ext_term_end A t [] n p1 b c0.1 hb hbe, sTermLoop_dangling A _ t ht]
        rfl
      · rw [(ext_gen A t [] n).2.2.1 p1 b c0.1 hb hbe]
        exact ih _ _ a hbw h hend hbe
    · injection h with h; subst h
      exact absurd hend hne

theorem ext_expr_dangling (t : Token α) (ht : t.type = .MUL ∨ t.type = .DIV) (n : Nat)
    (p : Parser (Stream α) α) (a : α × Parser (Stream α) α) (hw : WF p)
    (h : parseExpression A (Stream.next A) n p = .ok a) (hend : a.2.cur.type = .END) :
    sExpr A (extend t [] p) = .err .UnexpectedToken := by
  cases n with
  | zero => cases h
  | succ n =>
    rw [parseExpression] at h
    obtain ⟨b, hb, h⟩ := Res.bind_eq_ok.mp h
    have hbw := ((consumed_of_ok A n).2.2.1 p b hw hb).1
    rw [sExpr_eq]
    by_cases hbe : b.2.cur.type = .END
    · rw [ext_term_end A t [] n p b hw hb hbe, sTermLoop_dangling A _ t ht]
      rfl
    · rw [(ext_gen A t [] n).2.2.1 p b hw hb hbe]
      exact ext_exprLoop_dangling A t ht n _ _ a hbw h hend hbe

/-- After an accepted token stream, a binary operator with nothing behind it makes the
evaluation fail with `UnexpectedToken`. -/
theorem sEval_dangling {ts : Stream α} (hn : NoEnd ts) {v : α} (h : sEval A ts = .ok v)
    (t : Token α)
    (ht : t.type = .PLUS ∨ t.type = .MINUS ∨ t.type = .MUL ∨ t.type = .DIV) :
    sEval A (ts ++ [.ok t]) = .err .UnexpectedToken := by
  obtain ⟨p, a, hp, ha, hend, _⟩ := sEval_eq_ok A h
  have hw := enter_wf A hn hp
  unfold sEval
  rw [enter_append A hn hp t []]
  simp only [Res.bind_ok]
  by_cases hm : t.type = .MUL ∨ t.type = .DIV
  · rw [ext_expr_dangling A t hm _ p a hw ha hend]
    rfl
  · have hpm : t.type = .PLUS ∨ t.type = .MINUS := by
      rcases ht with h1 | h1 | h1 | h1
      · exact Or.inl h1
      · exact Or.inr h1
      · exact absurd (Or.inl h1) hm
      · exact absurd (Or.inr h1) hm
    have hnm : t.type ≠ .MUL ∧ t.type ≠ .DIV := ⟨fun h1 => hm (Or.inl h1), fun h1 => hm (Or.inr h1)⟩
    rw [ext_expr_end A t [] hnm _ p a hw ha hend, sExprLoop_dangling A _ t hpm]
    rfl

end Dangling

/-- C8. (1) `parseFactor`, entered with a current token that is `END`, `)`, `*` or `/`,
fails with `UnexpectedToken`; it does so over every lexer, also one whose next call would
throw, so nothing is consumed. (2) Every input whose first token is `END`, `)`, `*` or
`/` fails with `UnexpectedToken`, whatever follows. (3) An accepted text followed by a
dangling binary operator fails with `UnexpectedToken`. -/
theorem C8_unexpected_token {α : Type} (A : Arith α) :
    (∀ (σ : Type) (next : σ → σ × Except Err (Token α)) (n : Nat) (p : Parser σ α),
      (p.cur.type = .END ∨ p.cur.type = .RPAREN ∨ p.cur.type = .MUL ∨ p.cur.type = .DIV) →
      parseFactor A next (n + 1) p = .err .UnexpectedToken) ∧
    (∀ (s : List Char) (t : Token α), (Lexer.nextToken A ⟨s, 0⟩).2 = .ok t →
      (t.type = .END ∨ t.type = .RPAREN ∨ t.type = .MUL ∨ t.type = .DIV) →
      evalLine A s = .err .UnexpectedToken) ∧
    (∀ (e : List Char) (v : α) (op : Char), evalLine A e = .ok v →
      (op = '+' ∨ op = '-' ∨ op = '*' ∨ op = '/') →
      evalLine A (e ++ [op]) = .err .UnexpectedToken) := by
  refine ⟨fun σ next n p h => parseFactor_unexpected A next n p h, ?_, ?_⟩
  · intro s t h ht
    unfold evalLine Parser.create Parser.init advance Parser.parse Parser.parseWith
    rcases hn : Lexer.nextToken A ⟨s, 0⟩ with ⟨lx, res⟩
    rw [hn] at h
    simp only at h
    subst h
    simp only [Res.bind_ok]
    rw [show 3 * s.length + 3 = (3 * s.length + 2) + 1 from rfl, parseExpression,
      show 3 * s.length + 2 = (3 * s.length + 1) + 1 from rfl, parseTerm,
      show 3 * s.length + 1 = (3 * s.length) + 1 from rfl,
      parseFactor_unexpected A _ _ _ ht]
    rfl
  · intro e v op h hop
    obtain ⟨ts, hl, hc, hn, hs⟩ := accepted_stream A h
    have hex : ∃ ty, opType op = some ty ∧
        (ty = .PLUS ∨ ty = .MINUS ∨ ty = .MUL ∨ ty = .DIV) := by
      rcases hop with h1 | h1 | h1 | h1 <;> subst h1
      · exact ⟨.PLUS, by decide, by decide⟩
      · exact ⟨.MINUS, by decide, by decide⟩
      · exact ⟨.MUL, by decide, by decide⟩
      · exact ⟨.DIV, by decide, by decide⟩
    obtain ⟨ty, hty, hty2⟩ := hex
    have hl1 : Lexes A ⟨e ++ [op], 0⟩ (ts ++ [.ok (Token.simple A ty)]) :=
      Lexes.append (stops_of_opType hty []) (Lexes.single hty (Lexes.nil_of rfl)) hl hc
    rw [evalLine_eq_sEval A hl1]
    exact sEval_dangling A hn hs _ hty2

set_option exponentiation.threshold 3000 in
set_option maxRecDepth 100000 in
/-- C8 at the inputs of the claim (the empty text, blanks, `)`, `*2`, `()`, `2+`), under
the binary64 interpretation. -/
theorem C8_unexpected_token_witness :
    evalLine F64.arith [] = .err .UnexpectedToken ∧
    evalLine F64.arith [' ', ' ', ' '] = .err .UnexpectedToken ∧
    evalLine F64.arith [')'] = .err .UnexpectedToken ∧
    evalLine F64.arith ['*', '2'] = .err .UnexpectedToken ∧
    evalLine F64.arith ['(', ')'] = .err .UnexpectedToken ∧
    evalLine F64.arith ['2'] = .ok (F64.ofNat 2) ∧
    evalLine F64.arith ['2', '+'] = .err .UnexpectedToken :=
  ⟨(C8_unexpected_token F64.arith).2.1 [] (Token.simple F64.arith .END) rfl (Or.inl rfl),
    (C8_unexpected_token F64.arith).2.1 _ (Token.simple F64.arith .END) rfl (Or.inl rfl),
    (C8_unexpected_token F64.arith).2.1 _ (Token.simple F64.arith .RPAREN) rfl
      (Or.inr (Or.inl rfl)),
    (C8_unexpected_token F64.arith).2.1 _ (Token.simple F64.arith .MUL) rfl
      (Or.inr (Or.inr (Or.inl rfl))),
    by decide!, by decide!,
    (C8_unexpected_token F64.arith).2.2 ['2'] (F64.ofNat 2) '+' (by decide!) (Or.inl rfl)⟩

/-! ## C1: texts of standard infix trees -/

section Tree
variable {α : Type} (A : Arith α)

theorem Expr.eval_bin {op : BinOp} {l r : Expr} {v : α} (h : (Expr.bin op l r).eval A = some v) :
    ∃ a b, l.eval A = some a ∧ r.eval A = some b ∧
      (match op with
        | .add => v = A.add a b
        | .sub => v = A.sub a b
        | .mul => v = A.mul a b
        | .div => A.eq b A.zero = false ∧ v = A.div a b) := by
  simp only [Expr.eval] at h
  cases hl : l.eval A with
  | none => rw [hl] at h; cases h
  | some a =>
    cases hr : r.eval A with
    | none => rw [hl, hr] at h; cases h
    | some b =>
      rw [hl, hr] at h
      refine ⟨a, b, rfl, rfl, ?_⟩
      cases op with
      | add => simp only [Option.some.injEq] at h ⊢; exact h.symm
      | sub => simp only [Option.some.injEq] at h ⊢; exact h.symm
      | mul => simp only [Option.some.injEq] at h ⊢; exact h.symm
      | div =>
        simp only at h ⊢
        split at h
        · cases h
        · rename_i hz
          simp only [Bool.not_eq_true] at hz
          simp only [Option.some.injEq] at h
          exact ⟨hz, h.symm⟩

theorem stops_of_space {c : Char} (hc : isspace c = true) (r : List Char) : Stops (c :: r) := by
  intro d hd
  simp only [List.head?_cons, Option.some.injEq] at hd
  subst hd
  exact ⟨(isspace_cases hc).2.2.2.2.2.2.2, (isspace_cases hc).2.2.2.2.2.2.1⟩

theorem BinOp.opType_char (op : BinOp) : opType op.char = some op.type := by
  cases op <;> decide

/-- The token stream of a text that spells a standard tree is the tokens of the tree. -/
theorem Spells.lexes {e : Expr} {text : List Char} (h : Spells e text) :
    e.Standard → (∃ v, e.eval A = some v) →
    ∀ (rest : List Char) (ts : Stream α), Stops rest → Lexes A ⟨rest, 0⟩ ts →
      Lexes A ⟨text ++ rest, 0⟩ (e.toks A ++ ts) := by
  induction h with
  | num ds =>
    intro hs ⟨v, hv⟩ rest ts hstop hrest
    simp only [Expr.eval] at hv
    simp only [Expr.toks, hv, Option.getD_some, List.singleton_append]
    refine Lexes.number ⟨hs.1, fun c hc => Or.inl (hs.2 c hc), ?_⟩ hv hstop hrest
    rw [List.count_eq_zero_of_not_mem]
    · omega
    · intro hmem; have := hs.2 _ hmem; revert this; decide
  | @paren e t _ ih =>
    intro hs hv rest ts hstop hrest
    simp only [Expr.toks, List.cons_append, List.append_assoc, List.singleton_append]
    refine Lexes.single (by decide) ?_
    exact ih hs hv (')' :: rest) _ (stops_of_opType (show opType ')' = some .RPAREN by decide) _)
      (Lexes.single (by decide) hrest)
  | @bin op l r tl tr _ _ ihl ihr =>
    intro hs ⟨v, hv⟩ rest ts hstop hrest
    obtain ⟨a, b, ha, hb, _⟩ := Expr.eval_bin A hv
    simp only [Expr.toks, List.append_assoc, List.cons_append]
    exact ihl hs.1 ⟨a, ha⟩ _ _ (stops_of_opType op.opType_char _)
      (Lexes.single op.opType_char (ihr hs.2.1 ⟨b, hb⟩ rest ts hstop hrest))
  | @wsl e t c hc _ ih =>
    intro hs hv rest ts hstop hrest
    exact Lexes.ws hc (ih hs hv rest ts hstop hrest)
  | @wsr e t c hc _ ih =>
    intro hs hv rest ts hstop hrest
    rw [List.append_assoc, List.singleton_append]
    exact ih hs hv (c :: rest) ts (stops_of_space hc _) (Lexes.ws hc hrest)

theorem Res.bind_assoc {β γ δ : Type} (x : Res β) (f : β → Res γ) (g : γ → Res δ) :
    (x.bind f).bind g = x.bind fun a => (f a).bind g := by
  cases x <;> rfl

theorem sAdvance_mk (l : Stream α) (c : Token α) : sAdvance A ⟨l, c⟩ = enter A l := by
  rw [sAdvance_eq, enter_eq]

theorem enter_cons (t : Token α) (l : Stream α) : enter A (.ok t :: l) = .ok ⟨l, t⟩ := by
  rw [enter_eq]

theorem enter_noMul {rest : Stream α} (h : NoMulHead rest) {p : Parser (Stream α) α}
    (hp : enter A rest = .ok p) : p.cur.type ≠ .MUL ∧ p.cur.type ≠ .DIV := by
  rw [enter_eq] at hp
  cases rest with
  | nil => simp only [Res.ok.injEq] at hp; subst hp; simp [Token.simple]
  | cons x rs =>
    cases x with
    | error e => simp at hp
    | ok t => simp only [Res.ok.injEq] at hp; subst hp; exact h t rfl

/-- A factor-level call followed by the term loop. -/
theorem term_of_factor {ts rest : Stream α} {v : α}
    (h : (enter A (ts ++ rest)).bind (sFactor A) = (enter A rest).bind fun p => .ok (v, p)) :
    (enter A (ts ++ rest)).bind (sTerm A) = (enter A rest).bind (sTermLoop A v) := by
  have : (enter A (ts ++ rest)).bind (sTerm A)
      = ((enter A (ts ++ rest)).bind (sFactor A)).bind fun r => sTermLoop A r.1 r.2 := by
    rw [Res.bind_assoc]; exact Res.bind_congr fun p _ => sTerm_eq A p
  rw [this, h, Res.bind_assoc]
  rfl

/-- A term-level call followed by the expression loop, when no `*` or `/` follows. -/
theorem expr_of_term {ts rest : Stream α} {v : α} (hm : NoMulHead rest)
    (h : (enter A (ts ++ rest)).bind (sTerm A) = (enter A rest).bind (sTermLoop A v)) :
    (enter A (ts ++ rest)).bind (sExpr A) = (enter A rest).bind (sExprLoop A v) := by
  have : (enter A (ts ++ rest)).bind (sExpr A)
      = ((enter A (ts ++ rest)).bind (sTerm A)).bind fun r => sExprLoop A r.1 r.2 := by
    rw [Res.bind_assoc]; exact Res.bind_congr fun p _ => sExpr_eq A p
  rw [this, h, Res.bind_assoc]
  refine Res.bind_congr fun p hp => ?_
  rw [sTermLoop_exit A (enter_noMul A hm hp)]
  rfl

end Tree

section TreeParse
variable {α : Type} (A : Arith α)

theorem noMulHead_cons {t : Token α} (h : t.type ≠ .MUL ∧ t.type ≠ .DIV) (rest : Stream α) :
    NoMulHead (.ok t :: rest) := by
  intro t1 h1
  simp only [List.head?_cons, Option.some.injEq, Except.ok.injEq] at h1
  subst h1; exact h

theorem noMulHead_nil : NoMulHead ([] : Stream α) := by
  intro t h; cases h

/-- The parser on the tokens of a standard tree, followed by any stream `rest`:
`parseFactor` returns the value of a literal or parenthesised tree, `parseTerm` goes on
with its loop behind a tree without top-level `+ -`, `parseExpression` goes on with its
loop behind any tree, each from the first token of `rest`. -/
theorem tree_parse (e : Expr) : e.Standard → ∀ v, e.eval A = some v →
    (e.prec = 2 → ∀ rest : Stream α,
      (enter A (e.toks A ++ rest)).bind (sFactor A) = (enter A rest).bind fun p => .ok (v, p)) ∧
    (1 ≤ e.prec → ∀ rest : Stream α,
      (enter A (e.toks A ++ rest)).bind (sTerm A) = (enter A rest).bind (sTermLoop A v)) ∧
    (∀ rest : Stream α, NoMulHead rest →
      (enter A (e.toks A ++ rest)).bind (sExpr A) = (enter A rest).bind (sExprLoop A v)) := by
  induction e with
  | num ds =>
    intro _ v hv
    simp only [Expr.eval] at hv
    have hF : ∀ rest : Stream α, (enter A ((Expr.num ds).toks A ++ rest)).bind (sFactor A)
        = (enter A rest).bind fun p => .ok (v, p) := by
      intro rest
      simp only [Expr.toks, hv, Option.getD_some, List.singleton_append, enter_cons,
        Res.bind_ok]
      rw [sFactor_eq]
      simp only [if_true, sAdvance_mk]
    exact ⟨fun _ => hF, fun _ rest => term_of_factor A (hF rest),
      fun rest hm => expr_of_term A hm (term_of_factor A (hF rest))⟩
  | paren e ih =>
    intro hs v hv
    simp only [Expr.eval] at hv
    have hE := (ih hs v hv).2.2
    have hF : ∀ rest : Stream α, (enter A ((Expr.paren e).toks A ++ rest)).bind (sFactor A)
        = (enter A rest).bind fun p => .ok (v, p) := by
      intro rest
      simp only [Expr.toks, List.cons_append, List.append_assoc, List.singleton_append,
        List.nil_append, enter_cons, Res.bind_ok]
      rw [sFactor_eq]
      simp only [Token.simple, reduceCtorEq, if_false, if_true, sAdvance_mk]
      rw [← Res.bind_assoc]
      have := hE (.ok (Token.simple A .RPAREN) :: rest) (noMulHead_cons (by simp [Token.simple]) _)
      simp only [Token.simple] at this
      rw [this, enter_cons]
      simp only [Res.bind_ok]
      rw [sExprLoop_exit A (by simp)]
      simp only [Res.bind_ok, ne_eq, not_true_eq_false, if_false, sAdvance_mk]
    exact ⟨fun _ => hF, fun _ rest => term_of_factor A (hF rest),
      fun rest hm => expr_of_term A hm (term_of_factor A (hF rest))⟩
  | bin op l r ihl ihr =>
    intro hs v hv
    obtain ⟨a, b, ha, hb, hop⟩ := Expr.eval_bin A hv
    obtain ⟨hsl, hsr, hpl, hpr⟩ := hs
    have hL := ihl hsl a ha
    have hR := ihr hsr b hb
    have hprec : r.prec ≤ 2 := by cases r <;> simp only [Expr.prec] <;> first | omega | (rename_i o _ _; cases o <;> simp [BinOp.prec])
    by_cases hmul : op.prec = 1
    · -- `*` or `/`: a term
      have hr2 : r.prec = 2 := by omega
      have hT : ∀ rest : Stream α, (enter A ((Expr.bin op l r).toks A ++ rest)).bind (sTerm A)
          = (enter A rest).bind (sTermLoop A v) := by
        intro rest
        simp only [Expr.toks, List.append_assoc, List.cons_append]
        rw [hL.2.1 (by omega), enter_cons]
        simp only [Res.bind_ok]
        rw [sTermLoop_eq]
        have hF := hR.1 hr2 rest
        cases op with
        | add => simp [BinOp.prec] at hmul
        | sub => simp [BinOp.prec] at hmul
        | mul =>
          simp only at hop
          simp only [BinOp.type, Token.simple, true_or, if_true, sAdvance_mk]
          rw [← Res.bind_assoc, hF, Res.bind_assoc, hop]
          rfl
        | div =>
          simp only at hop
          simp only [BinOp.type, Token.simple, or_true, reduceCtorEq, if_false, if_true,
            sAdvance_mk]
          rw [← Res.bind_assoc, hF, Res.bind_assoc, hop.2]
          simp only [Res.bind_ok, hop.1, Bool.false_eq_true, if_false]
      exact ⟨fun h2 => by simp only [Expr.prec] at h2; omega, fun _ => hT,
        fun rest hm => expr_of_term A hm (hT rest)⟩
    · -- `+` or `-`: an expression
      have hp0 : op.prec = 0 := by cases op <;> simp [BinOp.prec] at hmul ⊢
      refine ⟨fun h2 => by simp only [Expr.prec] at h2; omega,
        fun h1 => by simp only [Expr.prec] at h1; omega, ?_⟩
      intro rest hm
      have hnm : NoMulHead (.ok (Token.simple A op.type) :: (r.toks A ++ rest)) := by
        refine noMulHead_cons ?_ _
        cases op <;> simp [BinOp.prec, BinOp.type, Token.simple] at hmul ⊢
      simp only [Expr.toks, List.append_assoc, List.cons_append]
      rw [hL.2.2 _ hnm, enter_cons]
      simp only [Res.bind_ok]
      rw [sExprLoop_eq]
      have hT := hR.2.1 (by omega) rest
      cases op with
      | mul => simp [BinOp.prec] at hp0
      | div => simp [BinOp.prec] at hp0
      | add =>
        simp only at hop
        simp only [BinOp.type, Token.simple, true_or, if_true, sAdvance_mk]
        rw [← Res.bind_assoc, hT, Res.bind_assoc, hop]
        refine Res.bind_congr fun p hp => ?_
        rw [sTermLoop_exit A (enter_noMul A hm hp)]
        rfl
      | sub =>
        simp only at hop
        simp only [BinOp.type, Token.simple, or_true, reduceCtorEq, if_false, if_true,
          sAdvance_mk]
        rw [← Res.bind_assoc, hT, Res.bind_assoc, hop]
        refine Res.bind_congr fun p hp => ?_
        rw [sTermLoop_exit A (enter_noMul A hm hp)]
        rfl

/-- Evaluating the tokens of a standard tree gives the value of the tree. -/
theorem sEval_tree {e : Expr} (hs : e.Standard) {v : α} (hv : e.eval A = some v) :
    sEval A (e.toks A) = .ok v := by
  have h := (tree_parse A e hs v hv).2.2 [] noMulHead_nil
  rw [List.append_nil] at h
  unfold sEval
  rw [← Res.bind_assoc, h, enter_eq]
  simp only [Res.bind_ok]
  rw [sExprLoop_exit A (by simp [Token.simple])]
  simp [Token.simple]

end TreeParse

/-- C1 (amended). For every standard infix tree `e` over non-negative integer literals
with `+ - * /` and parentheses, and every text that spells it (optional white space
between tokens): when `std::stod` converts every literal and no divisor compares equal to
zero (`e.eval A = some v`), evaluating the text succeeds with the value `v` of the tree
(`* /` bind tighter than `+ -`, operators of one group associate to the left), computed
with the operations of the program. -/
theorem C1_infix_value {α : Type} (A : Arith α) (e : Expr) (text : List Char) (v : α)
    (hs : e.Standard) (ht : Spells e text) (hv : e.eval A = some v) :
    evalLine A text = .ok v := by
  have hl := Spells.lexes A ht hs ⟨v, hv⟩ [] [] stops_nil (Lexes.nil_of rfl)
  rw [List.append_nil, List.append_nil] at hl
  rw [evalLine_eq_sEval A hl]
  exact sEval_tree A hs hv

set_option exponentiation.threshold 3000 in
set_option maxRecDepth 100000 in
/-- C1 at `2+3*4` (14), `10-3-2` (5), `8/4/2` (1) and `(2+3)*4` (20), under the binary64
interpretation. -/
theorem C1_infix_value_witness :
    evalLine F64.arith ['2', '+', '3', '*', '4'] = .ok (F64.ofNat 14) ∧
    evalLine F64.arith ['1', '0', '-', '3', '-', '2'] = .ok (F64.ofNat 5) ∧
    evalLine F64.arith ['8', '/', '4', '/', '2'] = .ok (F64.ofNat 1) ∧
    evalLine F64.arith ['(', '2', '+', '3', ')', '*', '4'] = .ok (F64.ofNat 20) :=
  ⟨C1_infix_value F64.arith (.bin .add (.num ['2']) (.bin .mul (.num ['3']) (.num ['4']))) _ _
      (by simp [Expr.Standard, Expr.prec, BinOp.prec]; decide)
      (@Spells.bin .add _ _ _ _ (Spells.num ['2']) (@Spells.bin .mul _ _ _ _ (Spells.num ['3']) (Spells.num ['4'])))
      (by decide!),
    C1_infix_value F64.arith (.bin .sub (.bin .sub (.num ['1', '0']) (.num ['3'])) (.num ['2'])) _ _
      (by simp [Expr.Standard, Expr.prec, BinOp.prec]; decide)
      (@Spells.bin .sub _ _ _ _ (@Spells.bin .sub _ _ _ _ (Spells.num ['1', '0']) (Spells.num ['3'])) (Spells.num ['2']))
      (by decide!),
    C1_infix_value F64.arith (.bin .div (.bin .div (.num ['8']) (.num ['4'])) (.num ['2'])) _ _
      (by simp [Expr.Standard, Expr.prec, BinOp.prec]; decide)
      (@Spells.bin .div _ _ _ _ (@Spells.bin .div _ _ _ _ (Spells.num ['8']) (Spells.num ['4'])) (Spells.num ['2']))
      (by decide!),
    C1_infix_value F64.arith (.bin .mul (.paren (.bin .add (.num ['2']) (.num ['3']))) (.num ['4'])) _ _
      (by simp [Expr.Standard, Expr.prec, BinOp.prec]; decide)
      (@Spells.bin .mul _ _ _ _ (Spells.paren (@Spells.bin .add _ _ _ _ (Spells.num ['2']) (Spells.num ['3']))) (Spells.num ['4']))
      (by decide!)⟩

set_option exponentiation.threshold 3000 in
set_option maxRecDepth 100000 in
/-- C1 as stated fails on a literal that is out of the range of `double`: the text of
`1` followed by 309 zeros is a non-negative integer literal, so a well-formed expression
without any division, and `std::stod` throws (`out_of_range`), which the lexer reports as
`InvalidNumber`. -/
theorem C1_counterexample_huge_literal :
    (Expr.num ('1' :: List.replicate 309 '0')).Standard ∧
    Spells (.num ('1' :: List.replicate 309 '0')) ('1' :: List.replicate 309 '0') ∧
    evalLine F64.arith ('1' :: List.replicate 309 '0')
      = .err (.InvalidNumber ('1' :: List.replicate 309 '0')) := by
  refine ⟨⟨by simp, ?_⟩, Spells.num _, by decide!⟩
  intro c hc
  simp only [List.mem_cons, List.mem_replicate] at hc
  rcases hc with h | ⟨_, h⟩ <;> subst h <;> decide

/-! ## C2: unary signs -/

section Signs
variable {α : Type} (A : Arith α)

/-- A stream on which `parseFactor` consumes everything evaluates to the factor's value. -/
theorem sEval_of_factor {ts : Stream α} {w : α} {q : Parser (Stream α) α}
    (h : (enter A ts).bind (sFactor A) = .ok (w, q)) (hq : q.cur.type = .END) :
    sEval A ts = .ok w := by
  obtain ⟨p, hp, hf⟩ := Res.bind_eq_ok.mp h
  unfold sEval
  rw [hp]
  simp only [Res.bind_ok]
  rw [sExpr_eq, sTerm_eq, hf]
  simp only [Res.bind_ok]
  rw [sTermLoop_exit A (by rw [hq]; decide)]
  simp only [Res.bind_ok]
  rw [sExprLoop_exit A (by rw [hq]; decide)]
  simp [hq]

/-- The token stream of a number literal that evaluates to `v`. -/
theorem literal_factor {f : List Char} {v : α} (hl : NumberLiteral f)
    (h : evalLine A f = .ok v) :
    Lexes A ⟨f, 0⟩ [.ok ⟨.NUMBER, v⟩] ∧ A.stod f = some v := by
  have hlex := lexText_literal A hl
  cases hst : A.stod f with
  | none =>
    rw [hst] at hlex
    have h1 : Lexes A ⟨f, 0⟩ [(.error (.InvalidNumber f) : Except Err (Token α))] :=
      Lexes.fail_of (by rw [hlex])
    rw [evalLine_eq_sEval A h1] at h
    simp [sEval, enter_eq] at h
  | some x =>
    rw [hst] at hlex
    have h1 : Lexes A ⟨f, 0⟩ [(.ok ⟨.NUMBER, x⟩ : Except Err (Token α))] := by
      refine Lexes.cons_of (by rw [hlex]) (by simp) ?_
      rw [hlex]
      simp only [List.drop_length]
      exact Lexes.nil_of rfl
    rw [evalLine_eq_sEval A h1] at h
    have h2 : sEval A [(.ok ⟨.NUMBER, x⟩ : Except Err (Token α))] = .ok x := by
      refine sEval_of_factor A (q := ⟨[], Token.simple A .END⟩) ?_ rfl
      rw [enter_cons]
      simp only [Res.bind_ok]
      rw [sFactor_eq]
      simp only [if_true, sAdvance_mk, enter_eq, Res.bind_ok]
    rw [h2] at h
    injection h with h
    subst h
    exact ⟨h1, rfl⟩

/-- The token stream of an accepted text in parentheses, and `parseFactor` on it. -/
theorem paren_factor {e : List Char} {v : α} (h : evalLine A e = .ok v) :
    ∃ ts : Stream α, Lexes A ⟨'(' :: e ++ [')'], 0⟩ ts ∧
      (enter A ts).bind (sFactor A) = .ok (v, ⟨[], Token.simple A .END⟩) := by
  obtain ⟨ts, hl, hc, hn, hs⟩ := accepted_stream A h
  obtain ⟨p, a, hp, ha, hend, hav⟩ := sEval_eq_ok A hs
  have hw := enter_wf A hn hp
  refine ⟨.ok (Token.simple A .LPAREN) :: (ts ++ [.ok (Token.simple A .RPAREN)]), ?_, ?_⟩
  · exact Lexes.single (by decide)
      (Lexes.append (stops_of_opType (show opType ')' = some .RPAREN by decide) [])
        (Lexes.single (by decide) (Lexes.nil_of rfl)) hl hc)
  · rw [enter_cons]
    simp only [Res.bind_ok]
    rw [sFactor_eq]
    simp only [Token.simple, reduceCtorEq, if_false, if_true, sAdvance_mk]
    have h1 := enter_append A hn hp (Token.simple A .RPAREN) []
    simp only [Token.simple] at h1
    rw [h1]
    simp only [Res.bind_ok]
    have h2 := ext_expr A (Token.simple A .RPAREN) [] (by simp [Token.simple]) _ p a hw ha
    simp only [Token.simple] at h2
    rw [h2, extend_of_end _ _ hend]
    simp only [Res.bind_ok, ne_eq, not_true_eq_false, if_false, sAdvance_mk, enter_eq, hav]
    rfl

theorem signs_factor {f : List Char} {v : α} {tsf : Stream α} (hlf : Lexes A ⟨f, 0⟩ tsf)
    (hf : (enter A tsf).bind (sFactor A) = .ok (v, ⟨[], Token.simple A .END⟩)) :
    ∀ p : List Char, (∀ c ∈ p, c = '+' ∨ c = '-' ∨ isspace c = true) →
      ∃ ts : Stream α, Lexes A ⟨p ++ f, 0⟩ ts ∧
        (enter A ts).bind (sFactor A)
          = .ok (A.neg^[p.count '-'] v, ⟨[], Token.simple A .END⟩) := by
  intro p
  induction p with
  | nil => intro _; exact ⟨tsf, hlf, hf⟩
  | cons c p ih =>
    intro hp
    obtain ⟨ts, hl, hs⟩ := ih fun d hd => hp d (List.mem_cons_of_mem _ hd)
    rcases hp c (List.mem_cons_self _ _) with hc | hc | hc
    · subst hc
      refine ⟨.ok (Token.simple A .PLUS) :: ts, Lexes.single (by decide) hl, ?_⟩
      rw [enter_cons]
      simp only [Res.bind_ok]
      rw [sFactor_eq]
      simp only [Token.simple, reduceCtorEq, if_false, if_true, sAdvance_mk]
      rw [hs, List.count_cons_of_ne (by decide)]
      rfl
    · subst hc
      refine ⟨.ok (Token.simple A .MINUS) :: ts, Lexes.single (by decide) hl, ?_⟩
      rw [enter_cons]
      simp only [Res.bind_ok]
      rw [sFactor_eq]
      simp only [Token.simple, reduceCtorEq, if_false, if_true, sAdvance_mk]
      rw [← Res.bind_assoc, hs, List.count_cons_self, Function.iterate_succ_apply']
      rfl
    · refine ⟨ts, Lexes.ws hc hl, ?_⟩
      have hne : c ≠ '-' := (isspace_cases hc).2.1
      rw [hs, List.count_cons_of_ne (Ne.symm hne)]

end Signs

/-- C2. Let `f` be a number literal that evaluates to `v`, or an accepted text with value
`v` in parentheses, and `p` a prefix of `+` and `-` characters and white space. Then
evaluating `p` followed by `f` succeeds with `v` negated once per `-` of `p`; where unary
minus is an involution (as it is for `double`), that is `v` for an even number of `-` and
`-v` for an odd one. -/
theorem C2_unary_signs {α : Type} (A : Arith α) (f p : List Char) (v : α)
    (hf : (NumberLiteral f ∧ evalLine A f = .ok v) ∨
      (∃ e, f = '(' :: e ++ [')'] ∧ evalLine A e = .ok v))
    (hp : ∀ c ∈ p, c = '+' ∨ c = '-' ∨ isspace c = true) :
    evalLine A (p ++ f) = .ok (A.neg^[p.count '-'] v) ∧
    ((∀ x, A.neg (A.neg x) = x) →
      evalLine A (p ++ f) = .ok (if p.count '-' % 2 = 0 then v else A.neg v)) := by
  have key : evalLine A (p ++ f) = .ok (A.neg^[p.count '-'] v) := by
    have hfac : ∃ tsf : Stream α, Lexes A ⟨f, 0⟩ tsf ∧
        (enter A tsf).bind (sFactor A) = .ok (v, ⟨[], Token.simple A .END⟩) := by
      rcases hf with ⟨hl, h⟩ | ⟨e, rfl, h⟩
      · refine ⟨_, (literal_factor A hl h).1, ?_⟩
        rw [enter_cons]
        simp only [Res.bind_ok]
        rw [sFactor_eq]
        simp only [if_true, sAdvance_mk, enter_eq, Res.bind_ok]
      · exact paren_factor A h
    obtain ⟨tsf, hlf, hsf⟩ := hfac
    obtain ⟨ts, hl, hs⟩ := signs_factor A hlf hsf p hp
    rw [evalLine_eq_sEval A hl]
    exact sEval_of_factor A hs rfl
  refine ⟨key, fun hinv => ?_⟩
  rw [key]
  congr 1
  have hiter : ∀ n : Nat, A.neg^[n] v = if n % 2 = 0 then v else A.neg v := by
    intro n
    induction n with
    | zero => rfl
    | succ n ih =>
      rw [Function.iterate_succ_apply', ih]
      by_cases hn : n % 2 = 0
      · have : (n + 1) % 2 ≠ 0 := by omega
        rw [if_pos hn, if_neg this]
      · have : (n + 1) % 2 = 0 := by omega
        rw [if_neg hn, if_pos this, hinv]
  exact hiter _

/-- Unary minus of binary64 is an involution. -/
theorem F64.neg_neg (x : F64) : F64.neg (F64.neg x) = x := by
  cases x <;> simp [F64.neg]

set_option exponentiation.threshold 3000 in
set_option maxRecDepth 100000 in
/-- C2 at `-5`, `--5`, `-+-5` and `-(2+3)`, under the binary64 interpretation; the last
line uses the second part of C2, unary minus of binary64 being an involution. -/
theorem C2_unary_signs_witness :
    evalLine F64.arith ['-', '5'] = .ok (F64.neg (F64.ofNat 5)) ∧
    evalLine F64.arith ['-', '-', '5'] = .ok (F64.ofNat 5) ∧
    evalLine F64.arith ['-', '+', '-', '5'] = .ok (F64.ofNat 5) ∧
    evalLine F64.arith ['-', '(', '2', '+', '3', ')'] = .ok (F64.neg (F64.ofNat 5)) ∧
    evalLine F64.arith ['-', ' ', '-', '-', '5'] = .ok (F64.neg (F64.ofNat 5)) :=
  ⟨(C2_unary_signs F64.arith ['5'] ['-'] (F64.ofNat 5)
      (Or.inl ⟨⟨by simp, by simp [isdigit], by decide⟩, by decide!⟩) (by simp)).1,
    (C2_unary_signs F64.arith ['5'] ['-', '-'] (F64.ofNat 5)
      (Or.inl ⟨⟨by simp, by simp [isdigit], by decide⟩, by decide!⟩) (by simp)).1,
    (C2_unary_signs F64.arith ['5'] ['-', '+', '-'] (F64.ofNat 5)
      (Or.inl ⟨⟨by simp, by simp [isdigit], by decide⟩, by decide!⟩) (by simp)).1,
    (C2_unary_signs F64.arith ['(', '2', '+', '3', ')'] ['-'] (F64.ofNat 5)
      (Or.inr ⟨['2', '+', '3'], rfl, by decide!⟩) (by simp)).1,
    (C2_unary_signs F64.arith ['5'] ['-', ' ', '-', '-'] (F64.ofNat 5)
      (Or.inl ⟨⟨by simp, by simp [isdigit], by decide⟩, by decide!⟩) (by simp [isspace])).2
      F64.neg_neg⟩

/-! ## C3: division by zero -/

section DivZero
variable {α : Type} (A : Arith α)

theorem clean_of_consumed {ts : Stream α} (hn : NoEnd ts) {p q : Parser (Stream α) α}
    (hp : enter A ts = .ok p) (hc : Consumed p q) (hend : q.cur.type = .END) : Clean ts := by
  obtain ⟨hw2, pre, hpre, hlex⟩ := hc
  rw [hw2.2 hend, List.append_nil] at hlex
  rw [enter_eq] at hp
  cases ts with
  | nil => exact clean_nil
  | cons x rs =>
    cases x with
    | error e => simp at hp
    | ok t =>
      simp only [Res.ok.injEq] at hp; subst hp
      intro y hy
      rcases List.mem_cons.mp hy with h1 | h1
      · exact ⟨t, h1, hn t (List.mem_cons_self _ _)⟩
      · simp only at hlex; rw [hlex] at h1; exact hpre y h1

theorem create_stream {a : List Char} {ts : Stream α} (hl : Lexes A ⟨a, 0⟩ ts)
    {p : Parser Lexer α} (hp : Parser.create A a = .ok p) :
    ∃ p1, enter A ts = .ok p1 ∧ Parser.Rel (Lexes A) p p1 := by
  have h0 : Parser.Rel (Lexes A) (⟨⟨a, 0⟩, Token.simple A .END⟩ : Parser Lexer α)
      ⟨ts, Token.simple A .END⟩ := ⟨rfl, hl⟩
  have h1 := advance_sim (lexes_simulates A) h0
  unfold Parser.create Parser.init at hp
  rw [hp] at h1
  unfold enter Parser.init
  cases hb : advance (Stream.next A) ⟨ts, Token.simple A .END⟩ with
  | ok p1 => rw [hb] at h1; exact ⟨p1, rfl, h1⟩
  | err e => rw [hb] at h1; exact absurd h1 (by simp [Res.Rel])
  | outOfFuel => rw [hb] at h1; exact absurd h1 (by simp [Res.Rel])

theorem evalTerm_stream {a : List Char} {ts : Stream α} (hl : Lexes A ⟨a, 0⟩ ts) {n : Nat}
    {v : α} (h : evalTerm A n a = .ok v) :
    ∃ p r, enter A ts = .ok p ∧ parseTerm A (Stream.next A) n p = .ok r ∧
      r.2.cur.type = .END ∧ r.1 = v := by
  unfold evalTerm at h
  obtain ⟨p, hp, h⟩ := Res.bind_eq_ok.mp h
  obtain ⟨r, hr, h⟩ := Res.bind_eq_ok.mp h
  obtain ⟨p1, hp1, hrel⟩ := create_stream A hl hp
  have hsim := (parser_sim A (lexes_simulates A) n).2.2.1 p p1 hrel
  rw [hr] at hsim
  cases hb : parseTerm A (Stream.next A) n p1 with
  | ok r1 =>
    rw [hb] at hsim
    refine ⟨p1, r1, hp1, hb, ?_⟩
    split at h
    · cases h
    · rename_i hc
      simp only [ne_eq, Decidable.not_not] at hc
      injection h with h
      exact ⟨by rw [← hsim.2.1]; exact hc, by rw [← hsim.1]; exact h⟩
  | err e => rw [hb] at hsim; exact absurd hsim (by simp [Res.Rel])
  | outOfFuel => rw [hb] at hsim; exact absurd hsim (by simp [Res.Rel])

theorem evalFactor_stream {a : List Char} {ts : Stream α} (hl : Lexes A ⟨a, 0⟩ ts) {n : Nat}
    {v : α} (h : evalFactor A n a = .ok v) :
    ∃ p r, enter A ts = .ok p ∧ parseFactor A (Stream.next A) n p = .ok r ∧
      r.2.cur.type = .END ∧ r.1 = v := by
  unfold evalFactor at h
  obtain ⟨p, hp, h⟩ := Res.bind_eq_ok.mp h
  obtain ⟨r, hr, h⟩ := Res.bind_eq_ok.mp h
  obtain ⟨p1, hp1, hrel⟩ := create_stream A hl hp
  have hsim := (parser_sim A (lexes_simulates A) n).2.2.2.2 p p1 hrel
  rw [hr] at hsim
  cases hb : parseFactor A (Stream.next A) n p1 with
  | ok r1 =>
    rw [hb] at hsim
    refine ⟨p1, r1, hp1, hb, ?_⟩
    split at h
    · cases h
    · rename_i hc
      simp only [ne_eq, Decidable.not_not] at hc
      injection h with h
      exact ⟨by rw [← hsim.2.1]; exact hc, by rw [← hsim.1]; exact h⟩
  | err e => rw [hb] at hsim; exact absurd hsim (by simp [Res.Rel])
  | outOfFuel => rw [hb] at hsim; exact absurd hsim (by simp [Res.Rel])

theorem sFactor_of_fuel {n : Nat} {p : Parser (Stream α) α} {a : α × Parser (Stream α) α}
    (h : parseFactor A (Stream.next A) n p = .ok a) : sFactor A p = .ok a := by
  by_cases hn : n ≤ 3 * p.mu + 1
  · have := Res.eq_of_le (parseFactor_mono A (Stream.next A) hn p) (by rw [h]; simp)
    unfold sFactor; rw [this, h]
  · rw [← sFactor_stable A (show 3 * p.mu + 1 ≤ n by omega), h]

end DivZero

/-- C3. Let the text `a`, read in full as a Term, evaluate successfully, and the text
`b`, read in full as a Factor, evaluate successfully to a value that compares equal to
`0.0`. Then evaluating `a`, `/`, `b` fails with `DivisionByZero`. -/
theorem C3_division_by_zero {α : Type} (A : Arith α) (a b : List Char) (n m : Nat) (va vb : α)
    (ha : evalTerm A n a = .ok va) (hb : evalFactor A m b = .ok vb)
    (hz : A.eq vb A.zero = true) :
    evalLine A (a ++ '/' :: b) = .err .DivisionByZero := by
  obtain ⟨tsa, hla, _⟩ := Lexes.exists A a
  obtain ⟨tsb, hlb, _⟩ := Lexes.exists A b
  obtain ⟨pa, ra, hpa, hra, henda, hva⟩ := evalTerm_stream A hla ha
  obtain ⟨pb, rb, hpb, hrb, _, hvb⟩ := evalFactor_stream A hlb hb
  have hwa := enter_wf A hla.noEnd hpa
  have hca : Clean tsa :=
    clean_of_consumed A hla.noEnd hpa ((consumed_of_ok A n).2.2.1 pa ra hwa hra) henda
  have hl : Lexes A ⟨a ++ '/' :: b, 0⟩ (tsa ++ .ok (Token.simple A .DIV) :: tsb) :=
    Lexes.append (stops_of_opType (show opType '/' = some .DIV by decide) _)
      (Lexes.single (by decide) hlb) hla hca
  rw [evalLine_eq_sEval A hl]
  unfold sEval
  rw [enter_append A hla.noEnd hpa]
  simp only [Res.bind_ok]
  rw [sExpr_eq, ext_term_end A _ _ n pa ra hwa hra henda, sTermLoop_eq]
  simp only [Token.simple, or_true, reduceCtorEq, if_false, if_true, sAdvance_mk, hpb,
    Res.bind_ok, sFactor_of_fuel A hrb, hvb, hz]
  rfl

set_option exponentiation.threshold 3000 in
set_option maxRecDepth 100000 in
/-- C3 at `1/0`, `0/0`, `1/(1-1)` and `1 / -0` (written without the blanks), under the
binary64 interpretation. -/
theorem C3_division_by_zero_witness :
    evalLine F64.arith ['1', '/', '0'] = .err .DivisionByZero ∧
    evalLine F64.arith ['0', '/', '0'] = .err .DivisionByZero ∧
    evalLine F64.arith ['1', '/', '(', '1', '-', '1', ')'] = .err .DivisionByZero ∧
    evalLine F64.arith ['1', '/', '-', '0'] = .err .DivisionByZero :=
  ⟨C3_division_by_zero F64.arith ['1'] ['0'] 2 1 (F64.ofNat 1) (F64.ofNat 0)
      (by decide!) (by decide!) (by decide!),
    C3_division_by_zero F64.arith ['0'] ['0'] 2 1 (F64.ofNat 0) (F64.ofNat 0)
      (by decide!) (by decide!) (by decide!),
    C3_division_by_zero F64.arith ['1'] ['(', '1', '-', '1', ')'] 2 5 (F64.ofNat 1) (F64.ofNat 0)
      (by decide!) (by decide!) (by decide!),
    C3_division_by_zero F64.arith ['1'] ['-', '0'] 2 2 (F64.ofNat 1) (F64.neg (F64.ofNat 0))
      (by decide!) (by decide!) (by decide!)⟩

/-! ## C9: white space between tokens -/

section Blank
variable {α : Type} (A : Arith α)

theorem Lexes.unws {c : Char} (hc : isspace c = true) {r : List Char} {ts : Stream α}
    (h : Lexes A ⟨c :: r, 0⟩ ts) : Lexes A ⟨r, 0⟩ ts := by
  rcases h.text_cases with ⟨rfl, h1⟩ | ⟨e, rfl, h1⟩ | ⟨t, ts1, rfl, h1, h2, h3⟩
  · exact Lexes.nil_of (by rw [lexText_ws A hc] at h1; exact h1)
  · exact Lexes.fail_of (by rw [lexText_ws A hc] at h1; exact h1)
  · rw [lexText_ws A hc] at h1 h3
    exact Lexes.cons_of h1 h2 h3

theorem Lexes.unwss {ws : List Char} (hws : ∀ c ∈ ws, isspace c = true) {r : List Char}
    {ts : Stream α} (h : Lexes A ⟨ws ++ r, 0⟩ ts) : Lexes A ⟨r, 0⟩ ts := by
  induction ws with
  | nil => exact h
  | cons c ws ih =>
    exact ih (fun d hd => hws d (List.mem_cons_of_mem _ hd))
      (Lexes.unws A (hws c (List.mem_cons_self _ _)) h)

/-- The number scan stops at the same place on `x ++ y1` as on `x ++ y`, when it stops
inside `x` or at its end and `y1` starts as `y` does or would end a number. -/
theorem scanNumber_agree {y y1 : List Char} (hy : y1.head? = y.head? ∨ Stops y1) (x : List Char)
    (b : Bool) (h : scanNumber (x ++ y) 0 b ≤ x.length) :
    scanNumber (x ++ y1) 0 b = scanNumber (x ++ y) 0 b := by
  induction x generalizing b with
  | nil =>
    simp only [List.nil_append, List.length_nil, Nat.le_zero] at h ⊢
    rw [h]
    cases y1 with
    | nil => rfl
    | cons c r =>
      rcases hy with hy | hy
      · cases y with
        | nil => cases hy
        | cons d r1 =>
          simp only [List.head?_cons, Option.some.injEq] at hy
          subst hy
          simp only [scanNumber] at h ⊢
          split at h
          · rw [scanNumber_add] at h; omega
          · split at h
            · rw [scanNumber_add] at h; omega
            · rename_i h1 h2
              simp only [h1, h2, Bool.false_eq_true, if_false]
      · obtain ⟨h1, h2⟩ := hy c rfl
        simp [scanNumber, h1, h2]
  | cons c x ih =>
    simp only [List.cons_append, scanNumber, List.length_cons, List.append_eq] at h ⊢
    split
    · rename_i h1
      simp only [h1, if_true] at h
      rw [scanNumber_add] at h ⊢
      rw [scanNumber_add (x ++ y), ih b (by omega)]
    · rename_i h1
      simp only [h1, Bool.false_eq_true, if_false] at h
      split
      · rename_i h2
        simp only [h2, if_true] at h
        rw [scanNumber_add] at h ⊢
        rw [scanNumber_add (x ++ y), ih true (by omega)]
      · rfl

/-- A call that returns a token other than `END` and ends inside `x` or at its end does
the same on `x ++ y1` as on `x ++ y`, when `y1` starts as `y` does or would end a
number. -/
theorem lexText_agree {y y1 : List Char} (hy : y1.head? = y.head? ∨ Stops y1) (x : List Char)
    {t : Token α} (ht : (lexText A (x ++ y)).2 = .ok t) (hne : t.type ≠ .END)
    (hk : (lexText A (x ++ y)).1 ≤ x.length) : lexText A (x ++ y1) = lexText A (x ++ y) := by
  induction x with
  | nil =>
    have := (lexText_spec A ([] ++ y)).2.1 t ht hne
    simp only [List.length_nil] at hk
    omega
  | cons c x ih =>
    simp only [List.cons_append] at ht hk ⊢
    by_cases hsp : isspace c = true
    · rw [lexText_ws A hsp] at ht hk ⊢
      rw [lexText_ws A hsp]
      simp only [List.length_cons] at hk
      rw [ih ht (by omega)]
    · rw [lexText] at ht hk ⊢
      rw [lexText]
      simp only [hsp, Bool.false_eq_true, if_false] at ht hk ⊢
      by_cases h1 : c = '+'
      · simp only [h1, if_true]
      by_cases h2 : c = '-'
      · simp only [h2, if_true, if_false, reduceCtorEq, Char.reduceEq]
      by_cases h3 : c = '*'
      · simp only [h3, if_true, if_false, reduceCtorEq, Char.reduceEq]
      by_cases h4 : c = '/'
      · simp only [h4, if_true, if_false, reduceCtorEq, Char.reduceEq]
      by_cases h5 : c = '('
      · simp only [h5, if_true, if_false, reduceCtorEq, Char.reduceEq]
      by_cases h6 : c = ')'
      · simp only [h6, if_true, if_false, reduceCtorEq, Char.reduceEq]
      simp only [h1, h2, h3, h4, h5, h6, if_false] at ht hk ⊢
      by_cases h7 : (isdigit c || decide (c = '.')) = true
      · simp only [h7, if_true] at ht hk ⊢
        have hlen : scanNumber (x ++ y) 0 (decide (c = '.')) ≤ x.length := by
          split at hk <;> simp only [List.length_cons] at hk <;> omega
        rw [scanNumber_agree hy x _ hlen]
        have e1 : List.take (scanNumber (x ++ y) 0 (decide (c = '.')) + 1) (c :: (x ++ y1))
            = List.take (scanNumber (x ++ y) 0 (decide (c = '.')) + 1) (c :: (x ++ y)) := by
          rw [← List.cons_append, ← List.cons_append,
            List.take_append_of_le_length (by simp only [List.length_cons]; omega),
            List.take_append_of_le_length (by simp only [List.length_cons]; omega)]
        rw [e1]
      · simp only [h7, Bool.false_eq_true, if_false] at ht
        cases ht

theorem nextToken_pos_ge (lx : Lexer) : lx.pos ≤ (Lexer.nextToken A lx).1.pos := by
  have e1 := nextToken_eq_lexText A lx.s lx.pos
  change Lexer.nextToken A lx = _ at e1
  rw [e1]
  exact Nat.le_add_right _ _

theorem Steps.le {s : List Char} {p q : Nat} (h : Steps A s p q) : p ≤ q := by
  induction h with
  | refl p => exact Nat.le_refl _
  | head _ _ _ ih => exact Nat.le_trans (nextToken_pos_ge A (Lexer.mk _ _)) ih

theorem Lexes.tok_inv {lx : Lexer} {ts : Stream α} (h : Lexes A lx ts) {t : Token α}
    (ht : (Lexer.nextToken A lx).2 = .ok t) (hne : t.type ≠ .END) :
    ∃ ts1, ts = .ok t :: ts1 ∧ Lexes A (Lexer.nextToken A lx).1 ts1 := by
  cases h with
  | done h => rw [h] at ht; injection ht with ht; subst ht; exact absurd rfl hne
  | fail h => rw [h] at ht; cases ht
  | tok h _ hs => rw [h] at ht; injection ht with ht; subst ht; exact ⟨_, rfl, hs⟩

/-- White space inserted at a token boundary: the token stream does not change. -/
theorem lexes_insert (u w1 w2 v ws : List Char)
    (hw1 : ∀ c ∈ w1, isspace c = true) (hw2 : ∀ c ∈ w2, isspace c = true)
    (hws : ∀ c ∈ ws, isspace c = true) {p q : Nat}
    (h : Steps A (u ++ (w1 ++ (w2 ++ v))) p q) :
    q = u.length → ∀ ts : Stream α, Lexes A ⟨u ++ (w1 ++ (w2 ++ v)), p⟩ ts →
      Lexes A ⟨u ++ (w1 ++ (ws ++ (w2 ++ v))), p⟩ ts := by
  induction h with
  | refl p =>
    intro hq ts hl
    subst hq
    have h1 := hl.to_drop
    rw [List.drop_left] at h1
    have h2 := Lexes.unwss A hw2 (Lexes.unwss A hw1 h1)
    have h3 : Lexes A ⟨w1 ++ (ws ++ (w2 ++ v)), 0⟩ ts :=
      Lexes.wss hw1 (Lexes.wss hws (Lexes.wss hw2 h2))
    refine Lexes.of_drop ?_
    rw [List.drop_left]
    exact h3
  | @head p q t ht hne hstep ih =>
    intro hq ts hl
    have hle : (Lexer.nextToken A ⟨u ++ (w1 ++ (w2 ++ v)), p⟩).1.pos ≤ u.length := by
      rw [← hq]; exact hstep.le
    obtain ⟨ts1, rfl, hl1⟩ := hl.tok_inv A ht hne
    have hl2 := ih hq ts1 (hl1.congr _ (by rw [nextToken_eq_lexText]))
    rw [nextToken_eq_lexText] at ht hle hl2
    simp only at ht hle hl2
    have hp : p ≤ u.length := by omega
    rw [List.drop_append_of_le_length hp] at ht hle hl2
    have hk : (lexText A (List.drop p u ++ (w1 ++ (w2 ++ v)))).1 ≤ (List.drop p u).length := by
      simp only [List.length_drop]; omega
    have hy : (w1 ++ (ws ++ (w2 ++ v))).head? = (w1 ++ (w2 ++ v)).head? ∨
        Stops (w1 ++ (ws ++ (w2 ++ v))) := by
      cases w1 with
      | cons c r => left; rfl
      | nil =>
        cases ws with
        | nil => left; rfl
        | cons c r =>
          right
          exact stops_of_space (hws c (List.mem_cons_self _ _)) _
    have hag := lexText_agree A hy (List.drop p u) ht hne hk
    refine Lexes.tok ?_ hne ?_
    · rw [nextToken_eq_lexText]
      simp only
      rw [List.drop_append_of_le_length hp, hag]
      exact ht
    · rw [nextToken_eq_lexText]
      simp only
      rw [List.drop_append_of_le_length hp, hag]
      exact hl2

end Blank

/-- C9. Let the lexer, run on the input `u ++ w1 ++ w2 ++ v` from its start, have its
cursor at the end of `u` after some number of tokens (the start of the input, the end of
a token), and let `w1`, `w2` be white space (each possibly empty; with `v` empty, the
white space after the last token). Inserting any white space `ws` between `w1` and `w2`
does not change the outcome of the evaluation: the same value, or the same failure. -/
theorem C9_whitespace_insensitive {α : Type} (A : Arith α) (u w1 w2 v ws : List Char)
    (hw1 : ∀ c ∈ w1, isspace c = true) (hw2 : ∀ c ∈ w2, isspace c = true)
    (hws : ∀ c ∈ ws, isspace c = true)
    (hb : Steps A (u ++ (w1 ++ (w2 ++ v))) 0 u.length) :
    evalLine A (u ++ (w1 ++ (ws ++ (w2 ++ v)))) = evalLine A (u ++ (w1 ++ (w2 ++ v))) := by
  obtain ⟨ts, hl, _⟩ := Lexes.exists A (u ++ (w1 ++ (w2 ++ v)))
  have hl1 := lexes_insert A u w1 w2 v ws hw1 hw2 hws hb rfl ts hl
  rw [evalLine_eq_sEval A hl, evalLine_eq_sEval A hl1]

set_option exponentiation.threshold 3000 in
set_option maxRecDepth 100000 in
/-- C9 at the input of the claim: blanks are inserted into `2+3` before the first token,
after `2`, after `+` and after the last token; the result, ` 2  +   3 `, evaluates as
`2+3` does, to 5 (binary64 interpretation). -/
theorem C9_whitespace_insensitive_witness :
    evalLine F64.arith [' ', '2', ' ', ' ', '+', ' ', ' ', ' ', '3', ' '] = .ok (F64.ofNat 5) ∧
    evalLine F64.arith ['2', '+', '3'] = .ok (F64.ofNat 5) := by
  have h0 : evalLine F64.arith ['2', '+', '3'] = .ok (F64.ofNat 5) := by decide!
  have hA := C9_whitespace_insensitive F64.arith [] [] [] ['2', '+', '3'] [' ']
    (by decide) (by decide) (by decide) (Steps.refl 0)
  have hB := C9_whitespace_insensitive F64.arith [' ', '2'] [] [] ['+', '3'] [' ', ' ']
    (by decide) (by decide) (by decide)
    (@Steps.head _ _ _ 0 2 ⟨.NUMBER, F64.ofNat 2⟩ rfl (by decide) (Steps.refl 2))
  have hC := C9_whitespace_insensitive F64.arith [' ', '2', ' ', ' ', '+'] [] [] ['3']
    [' ', ' ', ' '] (by decide) (by decide) (by decide)
    (@Steps.head _ _ _ 0 5 ⟨.NUMBER, F64.ofNat 2⟩ rfl (by decide)
      (@Steps.head _ _ _ 2 5 (Token.simple F64.arith .PLUS) rfl (by decide) (Steps.refl 5)))
  have hD := C9_whitespace_insensitive F64.arith [' ', '2', ' ', ' ', '+', ' ', ' ', ' ', '3']
    [] [] [] [' '] (by decide) (by decide) (by decide)
    (@Steps.head _ _ _ 0 9 ⟨.NUMBER, F64.ofNat 2⟩ rfl (by decide)
      (@Steps.head _ _ _ 2 9 (Token.simple F64.arith .PLUS) rfl (by decide)
        (@Steps.head _ _ _ 5 9 ⟨.NUMBER, F64.ofNat 3⟩ rfl (by decide) (Steps.refl 9))))
  exact ⟨hD.trans (hC.trans (hB.trans (hA.trans h0))), h0⟩

/-! ## White space before a token -/

theorem lexText_wss {α : Type} (A : Arith α) {ws : List Char}
    (hws : ∀ c ∈ ws, isspace c = true) (r : List Char) :
    lexText A (ws ++ r) = (ws.length + (lexText A r).1, (lexText A r).2) := by
  induction ws with
  | nil => simp
  | cons c ws ih =>
    rw [List.cons_append, lexText_ws A (hws c (List.mem_cons_self _ _)),
      ih fun d hd => hws d (List.mem_cons_of_mem _ hd)]
    simp only [List.length_cons, Prod.mk.injEq, and_true]
    omega

/-! ## C13, C14: the cursor of the lexer -/

section Cursor
variable {α : Type} (A : Arith α)

theorem nextToken_eq (lx : Lexer) :
    Lexer.nextToken A lx =
      (⟨lx.s, lx.pos + (lexText A (lx.s.drop lx.pos)).1⟩, (lexText A (lx.s.drop lx.pos)).2) :=
  nextToken_eq_lexText A lx.s lx.pos

theorem nextToken_s (lx : Lexer) : (Lexer.nextToken A lx).1.s = lx.s := by
  rw [nextToken_eq]

theorem nextToken_pos_le (lx : Lexer) (h : lx.pos ≤ lx.s.length) :
    (Lexer.nextToken A lx).1.pos ≤ lx.s.length := by
  rw [nextToken_eq]
  have := lexText_le A (lx.s.drop lx.pos)
  simp only [List.length_drop] at this ⊢
  omega

theorem nextToken_pos_lt (lx : Lexer) {t : Token α} (ht : (Lexer.nextToken A lx).2 = .ok t)
    (hne : t.type ≠ .END) : lx.pos < (Lexer.nextToken A lx).1.pos := by
  rw [nextToken_eq] at ht ⊢
  have := (lexText_spec A (lx.s.drop lx.pos)).2.1 t ht hne
  simp only
  omega

theorem nextToken_end (lx : Lexer) (h : lx.pos ≤ lx.s.length) {t : Token α}
    (ht : (Lexer.nextToken A lx).2 = .ok t) (hend : t.type = .END) :
    (Lexer.nextToken A lx).1 = ⟨lx.s, lx.s.length⟩ ∧ t = Token.simple A .END := by
  rw [nextToken_eq] at ht ⊢
  obtain ⟨h1, h2⟩ := (lexText_spec A (lx.s.drop lx.pos)).2.2 t ht hend
  refine ⟨?_, h1⟩
  simp only [h2, List.length_drop, Lexer.mk.injEq, true_and]
  omega

theorem nextToken_at_end (s : List Char) :
    Lexer.nextToken A ⟨s, s.length⟩ = (⟨s, s.length⟩, .ok (Token.simple A .END)) := by
  rw [nextToken_eq_lexText, List.drop_length, lexText]
  rfl

theorem after_inv (input : List Char) (n : Nat) :
    (Lexer.after A n ⟨input, 0⟩).s = input ∧ (Lexer.after A n ⟨input, 0⟩).pos ≤ input.length := by
  induction n with
  | zero => exact ⟨rfl, Nat.zero_le _⟩
  | succ n ih =>
    simp only [Lexer.after]
    refine ⟨by rw [nextToken_s, ih.1], ?_⟩
    have := nextToken_pos_le A _ (by rw [ih.1]; exact ih.2)
    rw [ih.1] at this
    exact this

theorem after_at_end (s : List Char) (n : Nat) :
    Lexer.after A n ⟨s, s.length⟩ = ⟨s, s.length⟩ := by
  induction n with
  | zero => rfl
  | succ n ih => simp only [Lexer.after, ih, nextToken_at_end]

theorem after_add (m n : Nat) (lx : Lexer) :
    Lexer.after A (m + n) lx = Lexer.after A m (Lexer.after A n lx) := by
  induction m with
  | zero => simp [Lexer.after]
  | succ m ih => rw [Nat.succ_add]; simp only [Lexer.after, ih]

end Cursor

/-- C13. Once a call of `nextToken` on an input has returned `END` (the call number
`k + 1` since the lexer was constructed), the lexer stays where it is, with the cursor at
the length of the input, and every later call returns `END` again, without an error. -/
theorem C13_end_idempotent {α : Type} (A : Arith α) (input : List Char) (k : Nat) (t : Token α)
    (h : (Lexer.nextToken A (Lexer.after A k ⟨input, 0⟩)).2 = .ok t) (ht : t.type = .END) :
    ∀ n, k < n →
      Lexer.after A n ⟨input, 0⟩ = ⟨input, input.length⟩ ∧
      Lexer.nextToken A (Lexer.after A n ⟨input, 0⟩)
        = (⟨input, input.length⟩, .ok (Token.simple A .END)) := by
  intro n hn
  obtain ⟨hs, hp⟩ := after_inv A input k
  have h1 := (nextToken_end A _ (by rw [hs]; exact hp) h ht).1
  rw [hs] at h1
  have h2 : Lexer.after A n ⟨input, 0⟩ = ⟨input, input.length⟩ := by
    obtain ⟨m, rfl⟩ : ∃ m, n = m + (k + 1) := ⟨n - (k + 1), by omega⟩
    rw [after_add]
    simp only [Lexer.after]
    rw [h1, after_at_end]
  exact ⟨h2, by rw [h2, nextToken_at_end]⟩

set_option exponentiation.threshold 3000 in
set_option maxRecDepth 100000 in
/-- C13 on the input `7 `: the second call returns `END`, and so does the fifth, with the
cursor at 2, the length of the input (binary64 interpretation). -/
theorem C13_end_idempotent_witness :
    (Lexer.nextToken F64.arith (Lexer.after F64.arith 1 ⟨['7', ' '], 0⟩)).2
      = .ok (Token.simple F64.arith .END) ∧
    Lexer.after F64.arith 4 ⟨['7', ' '], 0⟩ = ⟨['7', ' '], 2⟩ ∧
    Lexer.nextToken F64.arith (Lexer.after F64.arith 4 ⟨['7', ' '], 0⟩)
      = (⟨['7', ' '], 2⟩, .ok (Token.simple F64.arith .END)) :=
  ⟨rfl, C13_end_idempotent F64.arith ['7', ' '] 1 (Token.simple F64.arith .END) rfl rfl 4
    (by decide)⟩

/-- C14. For every input and every number `k` of calls of `nextToken` made before,
failed calls included: the cursor is at most the length of the input before and after the
next call, the call does not move it back, and it moves it forward when it returns a
token other than `END`. -/
theorem C14_cursor_invariant {α : Type} (A : Arith α) (input : List Char) (k : Nat) :
    (Lexer.after A k ⟨input, 0⟩).s = input ∧
    (Lexer.after A k ⟨input, 0⟩).pos ≤ input.length ∧
    (Lexer.nextToken A (Lexer.after A k ⟨input, 0⟩)).1.pos ≤ input.length ∧
    (Lexer.after A k ⟨input, 0⟩).pos ≤ (Lexer.nextToken A (Lexer.after A k ⟨input, 0⟩)).1.pos ∧
    (∀ t : Token α, (Lexer.nextToken A (Lexer.after A k ⟨input, 0⟩)).2 = .ok t →
      t.type ≠ .END →
      (Lexer.after A k ⟨input, 0⟩).pos
        < (Lexer.nextToken A (Lexer.after A k ⟨input, 0⟩)).1.pos) := by
  obtain ⟨hs, hp⟩ := after_inv A input k
  refine ⟨hs, hp, ?_, nextToken_pos_ge A _, fun t ht hne => nextToken_pos_lt A _ ht hne⟩
  have := nextToken_pos_le A (Lexer.after A k ⟨input, 0⟩) (by rw [hs]; exact hp)
  rw [hs] at this
  exact this

/-! ## C11: the number scan -/

/-- The loop of main.cpp:36-41 on the text `rest`, entered with `dotSeen = b`: what it
consumes are digits and `.`, with at most one `.` counting the one seen before; the
character it stops at is not a digit, and if it is a `.`, a `.` has been seen. -/
theorem scanNumber_spec (rest : List Char) (b : Bool) :
    (∀ x ∈ rest.take (scanNumber rest 0 b), isdigit x = true ∨ x = '.') ∧
    (rest.take (scanNumber rest 0 b)).count '.' + (if b then 1 else 0) ≤ 1 ∧
    (∀ d, rest[scanNumber rest 0 b]? = some d →
      isdigit d = false ∧ (d = '.' → b = true ∨ '.' ∈ rest.take (scanNumber rest 0 b))) := by
  induction rest generalizing b with
  | nil => cases b <;> simp [scanNumber]
  | cons x xs ih =>
    by_cases hx : isdigit x = true
    · have hne : x ≠ '.' := by rintro rfl; exact absurd hx (by decide)
      have e : scanNumber (x :: xs) 0 b = scanNumber xs 0 b + 1 := by
        simp only [scanNumber, hx, if_true]; rw [scanNumber_add]; omega
      obtain ⟨h1, h2, h3⟩ := ih b
      rw [e]
      refine ⟨?_, ?_, ?_⟩
      · intro y hy
        simp only [List.take_succ_cons, List.mem_cons] at hy
        rcases hy with rfl | hy
        · exact Or.inl hx
        · exact h1 y hy
      · simp only [List.take_succ_cons]
        rw [List.count_cons_of_ne (Ne.symm hne)]
        exact h2
      · intro d hd
        simp only [List.getElem?_cons_succ] at hd
        obtain ⟨g1, g2⟩ := h3 d hd
        refine ⟨g1, fun hdot => ?_⟩
        rcases g2 hdot with g | g
        · exact Or.inl g
        · exact Or.inr (by simp only [List.take_succ_cons]; exact List.mem_cons_of_mem _ g)
    · by_cases hdot : x = '.' ∧ b = false
      · obtain ⟨rfl, rfl⟩ := hdot
        have e : scanNumber ('.' :: xs) 0 false = scanNumber xs 0 true + 1 := by
          simp only [scanNumber, hx]
          simp only [Bool.false_eq_true, if_false, Bool.not_false, Bool.and_true,
            decide_True, if_true]
          rw [scanNumber_add]; omega
        obtain ⟨h1, h2, h3⟩ := ih true
        rw [e]
        refine ⟨?_, ?_, ?_⟩
        · intro y hy
          simp only [List.take_succ_cons, List.mem_cons] at hy
          rcases hy with rfl | hy
          · exact Or.inr rfl
          · exact h1 y hy
        · simp only [List.take_succ_cons, List.count_cons_self]
          simp only [if_true] at h2
          simp only [Bool.false_eq_true, if_false]
          omega
        · intro d hd
          simp only [List.getElem?_cons_succ] at hd
          refine ⟨(h3 d hd).1, fun _ => Or.inr ?_⟩
          simp only [List.take_succ_cons]
          exact List.mem_cons_self _ _
      · have e : scanNumber (x :: xs) 0 b = 0 := by
          simp only [scanNumber, hx]
          have : (decide (x = '.') && !b) = false := by
            cases b <;> simp_all
          simp only [this, Bool.false_eq_true, if_false]
        rw [e]
        refine ⟨by simp, by cases b <;> simp, ?_⟩
        intro d hd
        simp only [List.getElem?_cons_zero, Option.some.injEq] at hd
        subst hd
        refine ⟨by simpa using hx, fun hd => Or.inl ?_⟩
        cases b
        · exact absurd ⟨hd, rfl⟩ hdot
        · rfl

theorem lexText_number {α : Type} (A : Arith α) (c : Char) (rest : List Char)
    (hc : isdigit c = true ∨ c = '.') :
    lexText A (c :: rest) =
      (scanNumber rest 0 (decide (c = '.')) + 1,
        match A.stod ((c :: rest).take (scanNumber rest 0 (decide (c = '.')) + 1)) with
        | some v => .ok ⟨.NUMBER, v⟩
        | none => .error (.InvalidNumber
            ((c :: rest).take (scanNumber rest 0 (decide (c = '.')) + 1)))) := by
  have hfacts : isspace c = false ∧ c ≠ '+' ∧ c ≠ '-' ∧ c ≠ '*' ∧ c ≠ '/' ∧ c ≠ '(' ∧ c ≠ ')' := by
    rcases hc with hc | hc
    · exact isdigit_not_other hc
    · subst hc; decide
  obtain ⟨f0, f1, f2, f3, f4, f5, f6⟩ := hfacts
  have hnum : (isdigit c || decide (c = '.')) = true := by
    rcases hc with hc | hc
    · simp [hc]
    · simp [hc]
  rw [lexText]
  simp only [f0, f1, f2, f3, f4, f5, f6, hnum, Bool.false_eq_true, if_false, if_true]
  cases A.stod ((c :: rest).take (scanNumber rest 0 (decide (c = '.')) + 1)) <;> rfl

/-- The run that the scan takes from `c :: rest`, and why it is the longest. -/
theorem scan_run (c : Char) (rest : List Char) (hc : isdigit c = true ∨ c = '.') :
    IsRun ((c :: rest).take (scanNumber rest 0 (decide (c = '.')) + 1)) ∧
    (∀ d, (c :: rest)[scanNumber rest 0 (decide (c = '.')) + 1]? = some d →
      isdigit d = false ∧
      (d = '.' → '.' ∈ (c :: rest).take (scanNumber rest 0 (decide (c = '.')) + 1))) ∧
    (∀ k, k ≤ (c :: rest).length → IsRun ((c :: rest).take k) →
      k ≤ scanNumber rest 0 (decide (c = '.')) + 1) := by
  obtain ⟨h1, h2, h3⟩ := scanNumber_spec rest (decide (c = '.'))
  have hrun : IsRun ((c :: rest).take (scanNumber rest 0 (decide (c = '.')) + 1)) := by
    refine ⟨?_, ?_⟩
    · intro y hy
      simp only [List.take_succ_cons, List.mem_cons] at hy
      rcases hy with rfl | hy
      · exact hc
      · exact h1 y hy
    · simp only [List.take_succ_cons]
      by_cases hd : c = '.'
      · subst hd
        rw [List.count_cons_self]
        simpa using h2
      · rw [List.count_cons_of_ne (Ne.symm hd)]
        omega
  have hstop : ∀ d, (c :: rest)[scanNumber rest 0 (decide (c = '.')) + 1]? = some d →
      isdigit d = false ∧
      (d = '.' → '.' ∈ (c :: rest).take (scanNumber rest 0 (decide (c = '.')) + 1)) := by
    intro d hd
    simp only [List.getElem?_cons_succ] at hd
    obtain ⟨g1, g2⟩ := h3 d hd
    refine ⟨g1, fun hdot => ?_⟩
    simp only [List.take_succ_cons]
    rcases g2 hdot with g | g
    · have : c = '.' := by simpa using g
      rw [this]; exact List.mem_cons_self _ _
    · exact List.mem_cons_of_mem _ g
  refine ⟨hrun, hstop, ?_⟩
  intro k hk hrk
  by_contra hlt
  have hlen : scanNumber rest 0 (decide (c = '.')) + 1 < (c :: rest).length := by omega
  generalize scanNumber rest 0 (decide (c = '.')) + 1 = j at hrun hstop hlt hlen
  generalize c :: rest = r at hrun hstop hk hrk hlen
  have hget : r[j]? = some r[j] := List.getElem?_eq_getElem hlen
  obtain ⟨g1, g2⟩ := hstop _ hget
  have hmem : r[j] ∈ r.take k := by
    rw [List.mem_take_iff_getElem]
    exact ⟨j, by simp only [lt_min_iff]; omega, rfl⟩
  have hdot : r[j] = '.' := by
    rcases hrk.1 _ hmem with h | h
    · rw [h] at g1; cases g1
    · exact h
  have hsplit : r.take k = r.take (j + 1) ++ (r.take k).drop (j + 1) := by
    have : r.take (j + 1) = (r.take k).take (j + 1) := by
      rw [List.take_take]; congr 1; omega
    rw [this, List.take_append_drop]
  have hcount := hrk.2
  rw [hsplit, List.count_append, List.take_succ, List.count_append, hget] at hcount
  have hc1 : 1 ≤ (r.take j).count '.' := List.count_pos_iff.mpr (g2 hdot)
  have hc2 : (Option.toList (some r[j])).count '.' = 1 := by
    rw [hdot]; rfl
  omega

/-- C11. With the cursor `pos` of the input `s` at a digit or at `.`, `nextToken` moves
the cursor by the length `len` of the longest run of digits with at most one `.` that
starts at `pos`: the text `s[pos .. pos+len)` is such a run, no longer text starting at
`pos` is one, and the character the scan stops before is not a digit and is a `.` only if
the run has a `.` already. The cursor is left at that character, for the next call. The
call returns the conversion of the run by `std::stod` as a `NUMBER` (or the error of that
conversion). -/
theorem C11_number_scan {α : Type} (A : Arith α) (s : List Char) (pos : Nat) (c : Char)
    (hc : s[pos]? = some c) (hd : isdigit c = true ∨ c = '.') :
    ∃ len, 1 ≤ len ∧ pos + len ≤ s.length ∧
      IsRun (substr s pos len) ∧
      (∀ k, pos + k ≤ s.length → IsRun (substr s pos k) → k ≤ len) ∧
      (∀ d, s[pos + len]? = some d →
        isdigit d = false ∧ (d = '.' → '.' ∈ substr s pos len)) ∧
      (Lexer.nextToken A ⟨s, pos⟩).1 = ⟨s, pos + len⟩ ∧
      (∀ v, A.stod (substr s pos len) = some v →
        (Lexer.nextToken A ⟨s, pos⟩).2 = .ok ⟨.NUMBER, v⟩) ∧
      (A.stod (substr s pos len) = none →
        (Lexer.nextToken A ⟨s, pos⟩).2 = .error (.InvalidNumber (substr s pos len))) := by
  obtain ⟨rest, hr⟩ : ∃ rest, s.drop pos = c :: rest := by
    have h1 : (s.drop pos).head? = some c := by rw [List.head?_drop]; exact hc
    cases hdr : s.drop pos with
    | nil => rw [hdr] at h1; cases h1
    | cons x xs =>
      rw [hdr] at h1
      simp only [List.head?_cons, Option.some.injEq] at h1
      exact ⟨xs, by rw [h1]⟩
  have hlen : (c :: rest).length = s.length - pos := by rw [← hr, List.length_drop]
  have hpos : pos < s.length := by
    simp only [List.length_cons] at hlen; omega
  obtain ⟨h1, h2, h3⟩ := scan_run c rest hd
  have hle := scanNumber_le rest (decide (c = '.'))
  refine ⟨scanNumber rest 0 (decide (c = '.')) + 1, by omega, ?_, ?_, ?_, ?_, ?_, ?_, ?_⟩
  · simp only [List.length_cons] at hlen; omega
  · simpa only [substr, hr] using h1
  · intro k hk hrk
    simp only [substr, hr] at hrk
    exact h3 k (by rw [hlen]; omega) hrk
  · intro d hget
    simp only [substr, hr]
    refine h2 d ?_
    rw [← hr, List.getElem?_drop]
    exact hget
  all_goals rw [nextToken_eq_lexText, hr, lexText_number A c rest hd]
  · intro v hv
    simp only [substr, hr] at hv
    simp only [hv]
  · intro hv
    simp only [substr, hr] at hv ⊢
    simp only [hv]

set_option exponentiation.threshold 3000 in
set_option maxRecDepth 100000 in
/-- C11 on `1.2.3` (binary64 interpretation): the first call takes the run `1.2` of
length 3, stops before the second `.` and returns the number 1.2; the second call returns
the number 0.3 (from `.3`) and the third `END`; so `parse` fails with `TrailingInput`. -/
theorem C11_number_scan_witness :
    (∃ len, 1 ≤ len ∧ 0 + len ≤ ['1', '.', '2', '.', '3'].length ∧
      IsRun (substr ['1', '.', '2', '.', '3'] 0 len) ∧
      (∀ k, 0 + k ≤ ['1', '.', '2', '.', '3'].length →
        IsRun (substr ['1', '.', '2', '.', '3'] 0 k) → k ≤ len) ∧
      (∀ d, ['1', '.', '2', '.', '3'][0 + len]? = some d →
        isdigit d = false ∧ (d = '.' → '.' ∈ substr ['1', '.', '2', '.', '3'] 0 len)) ∧
      (Lexer.nextToken F64.arith ⟨['1', '.', '2', '.', '3'], 0⟩).1
        = ⟨['1', '.', '2', '.', '3'], 0 + len⟩ ∧
      (∀ v, F64.arith.stod (substr ['1', '.', '2', '.', '3'] 0 len) = some v →
        (Lexer.nextToken F64.arith ⟨['1', '.', '2', '.', '3'], 0⟩).2 = .ok ⟨.NUMBER, v⟩) ∧
      (F64.arith.stod (substr ['1', '.', '2', '.', '3'] 0 len) = none →
        (Lexer.nextToken F64.arith ⟨['1', '.', '2', '.', '3'], 0⟩).2
          = .error (.InvalidNumber (substr ['1', '.', '2', '.', '3'] 0 len)))) ∧
    Lexer.nextToken F64.arith ⟨['1', '.', '2', '.', '3'], 0⟩
      = (⟨['1', '.', '2', '.', '3'], 3⟩, .ok ⟨.NUMBER, .fin false 5404319552844595 (-52)⟩) ∧
    Lexer.nextToken F64.arith ⟨['1', '.', '2', '.', '3'], 3⟩
      = (⟨['1', '.', '2', '.', '3'], 5⟩, .ok ⟨.NUMBER, .fin false 5404319552844595 (-54)⟩) ∧
    Lexer.nextToken F64.arith ⟨['1', '.', '2', '.', '3'], 5⟩
      = (⟨['1', '.', '2', '.', '3'], 5⟩, .ok (Token.simple F64.arith .END)) ∧
    evalLine F64.arith ['1', '.', '2', '.', '3'] = .err .TrailingInput :=
  ⟨C11_number_scan F64.arith ['1', '.', '2', '.', '3'] 0 '1' rfl (Or.inl (by decide)),
    rfl, rfl, rfl, by decide!⟩

/-! ## C12: when `nextToken` fails with `InvalidNumber` -/

theorem scanNumber_run (cs rest : List Char) (b : Bool)
    (h1 : ∀ c ∈ cs, isdigit c = true ∨ c = '.')
    (h2 : cs.count '.' + (if b then 1 else 0) ≤ 1)
    (h3 : ∀ d, rest.head? = some d → isdigit d = false ∧ (d = '.' → b = true ∨ '.' ∈ cs)) :
    scanNumber (cs ++ rest) 0 b = cs.length := by
  induction cs generalizing b with
  | nil =>
    cases rest with
    | nil => rfl
    | cons d r =>
      obtain ⟨g1, g2⟩ := h3 d rfl
      have : (decide (d = '.') && !b) = false := by
        by_cases hd : d = '.'
        · rcases g2 hd with g | g
          · simp [g]
          · cases g
        · simp [hd]
      simp only [List.nil_append, scanNumber, g1, this, Bool.false_eq_true, if_false,
        List.length_nil]
  | cons c cs ih =>
    have hc := h1 c (List.mem_cons_self _ _)
    have hcs : ∀ d ∈ cs, isdigit d = true ∨ d = '.' := fun d hd => h1 d (List.mem_cons_of_mem _ hd)
    simp only [List.cons_append, scanNumber, List.length_cons, List.append_eq]
    by_cases hd : isdigit c = true
    · have hne : c ≠ '.' := by intro h; subst h; revert hd; decide
      simp only [hd, if_true]
      rw [scanNumber_add, ih b hcs]
      · omega
      · rw [List.count_cons_of_ne (Ne.symm hne)] at h2; exact h2
      · intro d hdd
        obtain ⟨g1, g2⟩ := h3 d hdd
        refine ⟨g1, fun hdot => ?_⟩
        rcases g2 hdot with g | g
        · exact Or.inl g
        · simp only [List.mem_cons] at g
          rcases g with g | g
          · exact absurd g.symm hne
          · exact Or.inr g
    · have hdot : c = '.' := by rcases hc with hc | hc; exact absurd hc hd; exact hc
      subst hdot
      rw [List.count_cons_self] at h2
      have hb : b = false := by cases b <;> simp at h2 ⊢
      subst hb
      simp only [hd, Bool.false_eq_true, if_false, decide_True, Bool.not_false, Bool.and_self,
        if_true]
      rw [scanNumber_add, ih true hcs]
      · omega
      · simp only [if_true]; simp only [Bool.false_eq_true, if_false] at h2; omega
      · intro d hdd
        exact ⟨(h3 d hdd).1, fun _ => Or.inl rfl⟩

/-- An `InvalidNumber` comes from the number scan only: behind white space the text starts
with a digit or `.`, and the run scanned from there is what `stod` does not convert. -/
theorem lexText_invalid {α : Type} (A : Arith α) (r : List Char) (ns : List Char)
    (h : (lexText A r).2 = .error (.InvalidNumber ns)) :
    ∃ ws c rest, r = ws ++ c :: rest ∧ (∀ x ∈ ws, isspace x = true) ∧
      (isdigit c = true ∨ c = '.') ∧
      ns = (c :: rest).take (scanNumber rest 0 (decide (c = '.')) + 1) ∧ A.stod ns = none := by
  induction r with
  | nil => simp [lexText] at h
  | cons c rest ih =>
    by_cases hsp : isspace c = true
    · rw [lexText] at h
      simp only [hsp, if_true] at h
      obtain ⟨ws, c1, rest1, e, hws, hc1, hns, hst⟩ := ih h
      refine ⟨c :: ws, c1, rest1, by rw [e]; rfl, ?_, hc1, hns, hst⟩
      intro x hx
      simp only [List.mem_cons] at hx
      rcases hx with rfl | hx
      · exact hsp
      · exact hws x hx
    · by_cases hnum : isdigit c = true ∨ c = '.'
      · rw [lexText_number A c rest hnum] at h
        refine ⟨[], c, rest, rfl, by simp, hnum, ?_⟩
        cases hst : A.stod ((c :: rest).take (scanNumber rest 0 (decide (c = '.')) + 1)) with
        | some v => rw [hst] at h; cases h
        | none =>
          rw [hst] at h
          simp only [Except.error.injEq, Err.InvalidNumber.injEq] at h
          rw [← h]
          exact ⟨rfl, hst⟩
      · exfalso
        have hn : (isdigit c || decide (c = '.')) = false := by
          cases h1 : isdigit c
          · have : c ≠ '.' := fun h2 => hnum (Or.inr h2)
            simp [this]
          · exact absurd (Or.inl h1) hnum
        revert h
        rw [lexText]
        simp only [hsp, hn, Bool.false_eq_true, if_false]
        repeat' split
        all_goals (intro h; cases h)

/-- C12, as the code has it. `InvalidNumber` is reachable, and exactly so: after any
number `k` of calls, `nextToken` fails with `InvalidNumber numStr` if and only if the
unread text is white space, then `numStr`, then a text `rest`, where `numStr` is a
non-empty run of digits with at most one `.` that `rest` does not continue (`rest` is
empty or starts with a character that is not a digit, and is a `.` only if `numStr` has
one), and `std::stod` does not convert `numStr`. -/
theorem C12_invalid_number {α : Type} (A : Arith α) (input : List Char) (k : Nat)
    (numStr : List Char) :
    (Lexer.nextToken A (Lexer.after A k ⟨input, 0⟩)).2 = .error (.InvalidNumber numStr) ↔
      ∃ ws rest, input.drop (Lexer.after A k ⟨input, 0⟩).pos = ws ++ (numStr ++ rest) ∧
        (∀ x ∈ ws, isspace x = true) ∧ NumberLiteral numStr ∧
        (∀ d, rest.head? = some d → isdigit d = false ∧ (d = '.' → '.' ∈ numStr)) ∧
        A.stod numStr = none := by
  rw [nextToken_eq, (after_inv A input k).1]
  generalize input.drop (Lexer.after A k ⟨input, 0⟩).pos = r
  constructor
  · intro h
    obtain ⟨ws, c, rest, e, hws, hc, hns, hst⟩ := lexText_invalid A r numStr h
    obtain ⟨h1, h2, _⟩ := scan_run c rest hc
    rw [← hns] at h1 h2
    refine ⟨ws, (c :: rest).drop (scanNumber rest 0 (decide (c = '.')) + 1), ?_, hws,
      ⟨?_, h1.1, h1.2⟩, ?_, hst⟩
    · rw [hns, List.take_append_drop, e]
    · rw [hns]; simp
    · intro d hd
      rw [List.head?_drop] at hd
      exact h2 d hd
  · rintro ⟨ws, rest, e, hws, ⟨hne, hall, hcount⟩, hstop, hst⟩
    rw [e, lexText_wss A hws]
    cases numStr with
    | nil => exact absurd rfl hne
    | cons c cs =>
      have hc := hall c (List.mem_cons_self _ _)
      have hlen : scanNumber (cs ++ rest) 0 (decide (c = '.')) = cs.length := by
        refine scanNumber_run cs rest _ (fun d hd => hall d (List.mem_cons_of_mem _ hd)) ?_ ?_
        · by_cases hd : c = '.'
          · subst hd; rw [List.count_cons_self] at hcount; simp; omega
          · rw [List.count_cons_of_ne (Ne.symm hd)] at hcount; simp [hd]; omega
        · intro d hd
          obtain ⟨g1, g2⟩ := hstop d hd
          refine ⟨g1, fun hdot => ?_⟩
          have := g2 hdot
          simp only [List.mem_cons] at this
          rcases this with g | g
          · exact Or.inl (by simp [g.symm])
          · exact Or.inr g
      rw [List.cons_append, lexText_number A c (cs ++ rest) hc, hlen]
      have htake : List.take (cs.length + 1) (c :: (cs ++ rest)) = c :: cs := by
        rw [← List.cons_append, ← List.length_cons c cs, List.take_left]
      rw [htake, hst]

set_option exponentiation.threshold 3000 in
set_option maxRecDepth 100000 in
/-- C12 as stated fails: `.` alone is a run of digits with at most one `.`, starting at a
`.`, that the conversion does not accept (`std::stod` throws `invalid_argument`, there is
no digit), and `nextToken` fails with `InvalidNumber` on it: on the input `.` at the
first call, on `1+.` at the third call, on `..` at the first call; and so do the
constructor and `parse` on these three inputs (binary64 interpretation). -/
theorem C12_counterexample_lone_dot :
    IsRun ['.'] ∧ F64.arith.stod ['.'] = none ∧
    (Lexer.nextToken F64.arith (Lexer.after F64.arith 0 ⟨['.'], 0⟩)).2
      = .error (.InvalidNumber ['.']) ∧
    (Lexer.nextToken F64.arith (Lexer.after F64.arith 2 ⟨['1', '+', '.'], 0⟩)).2
      = .error (.InvalidNumber ['.']) ∧
    (Lexer.nextToken F64.arith (Lexer.after F64.arith 0 ⟨['.', '.'], 0⟩)).2
      = .error (.InvalidNumber ['.']) ∧
    evalLine F64.arith ['.'] = .err (.InvalidNumber ['.']) ∧
    evalLine F64.arith ['1', '+', '.'] = .err (.InvalidNumber ['.']) ∧
    evalLine F64.arith ['.', '.'] = .err (.InvalidNumber ['.']) :=
  ⟨⟨by simp, by decide⟩, by decide!, rfl, rfl, rfl, by decide!, by decide!, by decide!⟩

/-! ## C17: parentheses around an accepted text -/

theorem paren_accept {α : Type} (A : Arith α) {e : List Char} {v : α}
    (h : evalLine A e = .ok v) : evalLine A ('(' :: e ++ [')']) = .ok v := by
  obtain ⟨ts, hl, hs⟩ := paren_factor A h
  rw [evalLine_eq_sEval A hl]
  exact sEval_of_factor A hs rfl

/-- C17. If evaluating the text `e` succeeds with value `v`, then so does evaluating `e`
in parentheses, and `e` in any number `n` of nested pairs of parentheses, with the same
value `v`. -/
theorem C17_parenthesise {α : Type} (A : Arith α) (e : List Char) (v : α)
    (h : evalLine A e = .ok v) :
    evalLine A ('(' :: e ++ [')']) = .ok v ∧
    ∀ n, evalLine A (List.replicate n '(' ++ e ++ List.replicate n ')') = .ok v := by
  refine ⟨paren_accept A h, fun n => ?_⟩
  induction n with
  | zero => simpa using h
  | succ n ih =>
    have e1 : List.replicate (n + 1) '(' ++ e ++ List.replicate (n + 1) ')'
        = '(' :: (List.replicate n '(' ++ e ++ List.replicate n ')') ++ [')'] := by
      rw [List.replicate_succ, List.replicate_succ']
      simp only [List.cons_append, List.append_assoc]
    rw [e1]
    exact paren_accept A ih

set_option exponentiation.threshold 3000 in
set_option maxRecDepth 100000 in
/-- C17 on `2+3`: it evaluates to 5, and so do `(2+3)` and `(((2+3)))` (binary64
interpretation). -/
theorem C17_parenthesise_witness :
    evalLine F64.arith ['2', '+', '3'] = .ok (F64.ofNat 5) ∧
    evalLine F64.arith ['(', '2', '+', '3', ')'] = .ok (F64.ofNat 5) ∧
    evalLine F64.arith ['(', '(', '(', '2', '+', '3', ')', ')', ')'] = .ok (F64.ofNat 5) :=
  ⟨by decide!,
    (C17_parenthesise F64.arith ['2', '+', '3'] (F64.ofNat 5) (by decide!)).1,
    (C17_parenthesise F64.arith ['2', '+', '3'] (F64.ofNat 5) (by decide!)).2 3⟩

/-! ## C20: termination -/

section Reach
variable {σ α : Type} (A : Arith α) (next : σ → σ × Except Err (Token α))

/-- A reflexive and transitive relation that holds between the states before and after
`advance` holds between the state a parser function is entered in and the one it
returns. -/
theorem reach_of_ok (R : Parser σ α → Parser σ α → Prop) (hrefl : ∀ p, R p p)
    (htrans : ∀ p q s, R p q → R q s → R p s)
    (hadv : ∀ p q, advance next p = .ok q → R p q) (n : Nat) :
    (∀ p a, parseExpression A next n p = .ok a → R p a.2) ∧
    (∀ v p a, exprLoop A next n v p = .ok a → R p a.2) ∧
    (∀ p a, parseTerm A next n p = .ok a → R p a.2) ∧
    (∀ v p a, termLoop A next n v p = .ok a → R p a.2) ∧
    (∀ p a, parseFactor A next n p = .ok a → R p a.2) := by
  induction n with
  | zero =>
    refine ⟨?_, ?_, ?_, ?_, ?_⟩ <;> intros <;> rename_i h <;> cases h
  | succ n ih =>
    obtain ⟨hE, hEL, hT, hTL, hF⟩ := ih
    refine ⟨?_, ?_, ?_, ?_, ?_⟩
    · intro p a h
      rw [parseExpression] at h
      obtain ⟨b, hb, h⟩ := Res.bind_eq_ok.mp h
      exact htrans _ _ _ (hT p b hb) (hEL _ _ a h)
    · intro v p a h
      rw [exprLoop] at h
      split at h
      · obtain ⟨p1, h1, h⟩ := Res.bind_eq_ok.mp h
        obtain ⟨b, hb, h⟩ := Res.bind_eq_ok.mp h
        exact htrans _ _ _ (hadv _ _ h1) (htrans _ _ _ (hT p1 b hb) (hEL _ _ a h))
      · injection h with h; subst h; exact hrefl _
    · intro p a h
      rw [parseTerm] at h
      obtain ⟨b, hb, h⟩ := Res.bind_eq_ok.mp h
      exact htrans _ _ _ (hF p b hb) (hTL _ _ a h)
    · intro v p a h
      rw [termLoop] at h
      split at h
      · obtain ⟨p1, h1, h⟩ := Res.bind_eq_ok.mp h
        obtain ⟨b, hb, h⟩ := Res.bind_eq_ok.mp h
        have c0 := hadv _ _ h1
        have c1 := hF p1 b hb
        split at h
        · exact htrans _ _ _ c0 (htrans _ _ _ c1 (hTL _ _ a h))
        · split at h
          · cases h
          · exact htrans _ _ _ c0 (htrans _ _ _ c1 (hTL _ _ a h))
      · injection h with h; subst h; exact hrefl _
    · intro p a h
      rw [parseFactor] at h
      split at h
      · obtain ⟨p1, h1, h⟩ := Res.bind_eq_ok.mp h
        injection h with h; subst h
        exact hadv _ _ h1
      · split at h
        · obtain ⟨p1, h1, h⟩ := Res.bind_eq_ok.mp h
          obtain ⟨b, hb, h⟩ := Res.bind_eq_ok.mp h
          split at h
          · cases h
          · obtain ⟨p2, h2, h⟩ := Res.bind_eq_ok.mp h
            injection h with h; subst h
            exact htrans _ _ _ (hadv _ _ h1) (htrans _ _ _ (hE p1 b hb) (hadv _ _ h2))
        · split at h
          · obtain ⟨p1, h1, h⟩ := Res.bind_eq_ok.mp h
            exact htrans _ _ _ (hadv _ _ h1) (hF p1 a h)
          · split at h
            · obtain ⟨p1, h1, h⟩ := Res.bind_eq_ok.mp h
              obtain ⟨b, hb, h⟩ := Res.bind_eq_ok.mp h
              injection h with h; subst h
              exact htrans _ _ _ (hadv _ _ h1) (hF p1 b hb)
            · cases h

end Reach

section Unread
variable {α : Type} (A : Arith α)

theorem advance_eq_ok {p q : Parser Lexer α} (h : advance (Lexer.nextToken A) p = .ok q) :
    (Lexer.nextToken A p.lexer).1 = q.lexer ∧ (Lexer.nextToken A p.lexer).2 = .ok q.cur := by
  unfold advance at h
  rcases hn : Lexer.nextToken A p.lexer with ⟨lx, r⟩
  rw [hn] at h
  cases r with
  | error e => cases h
  | ok t => injection h with h; subst h; exact ⟨rfl, rfl⟩

/-- `advance` keeps the parser on its input and does not give back input; it consumes
some when the current token is not `END`. -/
theorem advance_unread (input : List Char) {p q : Parser Lexer α} (hp : p.AtInput input)
    (h : advance (Lexer.nextToken A) p = .ok q) :
    q.AtInput input ∧ q.unread ≤ p.unread ∧ (p.cur.type ≠ .END → q.unread < p.unread) := by
  obtain ⟨h1, h2⟩ := advance_eq_ok A h
  obtain ⟨hs, hpos, hend⟩ := hp
  have hle := nextToken_pos_le A p.lexer (by rw [hs]; exact hpos)
  have hge := nextToken_pos_ge A p.lexer
  have hs2 := nextToken_s A p.lexer
  rw [h1] at hle hge hs2
  rw [hs] at hle hs2
  by_cases hq : q.cur.type = .END
  · have := (nextToken_end A p.lexer (by rw [hs]; exact hpos) h2 hq).1
    rw [h1, hs] at this
    have hqpos : q.lexer.pos = input.length := by rw [this]
    refine ⟨⟨hs2, hle, fun _ => hqpos⟩, ?_, ?_⟩
    · simp only [Parser.unread, hq, if_true, hs2, hqpos]; omega
    · intro hne
      simp only [Parser.unread, hq, if_true, hs2, hqpos, hne, if_false]; omega
  · have hlt := nextToken_pos_lt A p.lexer h2 hq
    rw [h1] at hlt
    refine ⟨⟨hs2, hle, fun h => absurd h hq⟩, ?_, ?_⟩
    · simp only [Parser.unread, hq, if_false, hs2, hs]
      split <;> omega
    · intro hne
      simp only [Parser.unread, hq, if_false, hs2, hs, hne]
      omega

/-- No parser function gives back input. -/
theorem unread_le (input : List Char) (n : Nat) :
    (∀ (p : Parser Lexer α) a, parseExpression A (Lexer.nextToken A) n p = .ok a →
      p.AtInput input → a.2.AtInput input ∧ a.2.unread ≤ p.unread) ∧
    (∀ v (p : Parser Lexer α) a, exprLoop A (Lexer.nextToken A) n v p = .ok a →
      p.AtInput input → a.2.AtInput input ∧ a.2.unread ≤ p.unread) ∧
    (∀ (p : Parser Lexer α) a, parseTerm A (Lexer.nextToken A) n p = .ok a →
      p.AtInput input → a.2.AtInput input ∧ a.2.unread ≤ p.unread) ∧
    (∀ v (p : Parser Lexer α) a, termLoop A (Lexer.nextToken A) n v p = .ok a →
      p.AtInput input → a.2.AtInput input ∧ a.2.unread ≤ p.unread) ∧
    (∀ (p : Parser Lexer α) a, parseFactor A (Lexer.nextToken A) n p = .ok a →
      p.AtInput input → a.2.AtInput input ∧ a.2.unread ≤ p.unread) :=
  reach_of_ok A (Lexer.nextToken A)
    (fun p q => p.AtInput input → q.AtInput input ∧ q.unread ≤ p.unread)
    (fun _ h => ⟨h, Nat.le_refl _⟩)
    (fun _ _ _ h1 h2 h => ⟨(h2 (h1 h).1).1, Nat.le_trans (h2 (h1 h).1).2 (h1 h).2⟩)
    (fun _ _ h hp => ⟨(advance_unread A input hp h).1, (advance_unread A input hp h).2.1⟩) n

theorem create_atInput (input : List Char) {p : Parser Lexer α}
    (h : Parser.create A input = .ok p) : p.AtInput input := by
  obtain ⟨h1, h2⟩ := advance_eq_ok A h
  have hle := nextToken_pos_le A ⟨input, 0⟩ (Nat.zero_le _)
  have hs2 := nextToken_s A ⟨input, 0⟩
  refine ⟨by rw [← h1]; exact hs2, by rw [← h1]; exact hle, fun hq => ?_⟩
  have := (nextToken_end A ⟨input, 0⟩ (Nat.zero_le _) h2 hq).1
  rw [← h1, this]

end Unread

section Strict
variable {α : Type} (A : Arith α) (input : List Char)

/-- `parseFactor` consumes input. -/
theorem parseFactor_unread {n : Nat} {p : Parser Lexer α} {a : α × Parser Lexer α}
    (h : parseFactor A (Lexer.nextToken A) n p = .ok a) (hp : p.AtInput input) :
    a.2.AtInput input ∧ a.2.unread < p.unread := by
  cases n with
  | zero => cases h
  | succ n =>
    obtain ⟨hE, _, _, _, hF⟩ := unread_le A input n
    rw [parseFactor] at h
    split at h
    · rename_i hc
      obtain ⟨p1, h1, h⟩ := Res.bind_eq_ok.mp h
      injection h with h; subst h
      have := advance_unread A input hp h1
      exact ⟨this.1, this.2.2 (by rw [hc]; decide)⟩
    · split at h
      · rename_i hc
        obtain ⟨p1, h1, h⟩ := Res.bind_eq_ok.mp h
        obtain ⟨b, hb, h⟩ := Res.bind_eq_ok.mp h
        split at h
        · cases h
        · obtain ⟨p2, h2, h⟩ := Res.bind_eq_ok.mp h
          injection h with h; subst h
          have c0 := advance_unread A input hp h1
          have c1 := hE p1 b hb c0.1
          have c2 := advance_unread A input c1.1 h2
          have := c0.2.2 (by rw [hc]; decide)
          exact ⟨c2.1, by have := c1.2; have := c2.2.1; simp only at *; omega⟩
      · split at h
        · rename_i hc
          obtain ⟨p1, h1, h⟩ := Res.bind_eq_ok.mp h
          have c0 := advance_unread A input hp h1
          have c1 := hF p1 a h c0.1
          have := c0.2.2 (by rw [hc]; decide)
          exact ⟨c1.1, by have := c1.2; omega⟩
        · split at h
          · rename_i hc
            obtain ⟨p1, h1, h⟩ := Res.bind_eq_ok.mp h
            obtain ⟨b, hb, h⟩ := Res.bind_eq_ok.mp h
            injection h with h; subst h
            have c0 := advance_unread A input hp h1
            have c1 := hF p1 b hb c0.1
            have := c0.2.2 (by rw [hc]; decide)
            exact ⟨c1.1, by have := c1.2; simp only at *; omega⟩
          · cases h

/-- `parseTerm` consumes input. -/
theorem parseTerm_unread {n : Nat} {p : Parser Lexer α} {a : α × Parser Lexer α}
    (h : parseTerm A (Lexer.nextToken A) n p = .ok a) (hp : p.AtInput input) :
    a.2.AtInput input ∧ a.2.unread < p.unread := by
  cases n with
  | zero => cases h
  | succ n =>
    rw [parseTerm] at h
    obtain ⟨b, hb, h⟩ := Res.bind_eq_ok.mp h
    have c0 := parseFactor_unread A input hb hp
    have c1 := (unread_le A input n).2.2.2.1 _ _ a h c0.1
    exact ⟨c1.1, by have := c0.2; have := c1.2; omega⟩

/-- `parseExpression` consumes input. -/
theorem parseExpression_unread {n : Nat} {p : Parser Lexer α} {a : α × Parser Lexer α}
    (h : parseExpression A (Lexer.nextToken A) n p = .ok a) (hp : p.AtInput input) :
    a.2.AtInput input ∧ a.2.unread < p.unread := by
  cases n with
  | zero => cases h
  | succ n =>
    rw [parseExpression] at h
    obtain ⟨b, hb, h⟩ := Res.bind_eq_ok.mp h
    have c0 := parseTerm_unread A input hb hp
    have c1 := (unread_le A input n).2.1 _ _ a h c0.1
    exact ⟨c1.1, by have := c0.2; have := c1.2; omega⟩

/-- More fuel than `evalLine` supplies gives the result of `evalLine`. -/
theorem evalLine_fuel {fuel : Nat} (h : 3 * input.length + 3 ≤ fuel) :
    (Parser.create A input).bind (Parser.parse A fuel) = evalLine A input := by
  refine Res.eq_of_le ?_ (evalLine_ne_outOfFuel A input)
  unfold evalLine
  refine Res.le_bind (Res.le_refl _) fun p => ?_
  unfold Parser.parse Parser.parseWith
  exact Res.le_bind (parseExpression_mono A _ h p) fun r => Res.le_refl _

end Strict

/-- C20. `parse` terminates on every input, with a value or with a failure: the bound
that `evalLine` puts on the depth of the call chain is never reached, and a larger bound
gives the same result. The reason is a measure, the number of input characters not yet
consumed (`Parser.unread`): the constructor leaves the parser in a state on its input;
from a state on the input, `advance` with a current token other than `END` (consuming
that token) gives a state with strictly less unconsumed input, and so does every
`parseExpression`, `parseTerm` and `parseFactor` that returns; neither loop gives input
back. So every iteration of a loop (`advance`, then `parseTerm` or `parseFactor`) and
every `parseFactor` entered from `parseFactor` (after `advance`) starts with less
unconsumed input. -/
theorem C20_termination {α : Type} (A : Arith α) (input : List Char) :
    ((∃ v, evalLine A input = .ok v) ∨ (∃ e, evalLine A input = .err e)) ∧
    (∀ fuel, 3 * input.length + 3 ≤ fuel →
      (Parser.create A input).bind (Parser.parse A fuel) = evalLine A input) ∧
    (∀ p, Parser.create A input = .ok p → p.AtInput input) ∧
    (∀ p q : Parser Lexer α, p.AtInput input → p.cur.type ≠ .END →
      advance (Lexer.nextToken A) p = .ok q → q.AtInput input ∧ q.unread < p.unread) ∧
    (∀ n (p : Parser Lexer α) a, p.AtInput input →
      parseExpression A (Lexer.nextToken A) n p = .ok a ∨
        parseTerm A (Lexer.nextToken A) n p = .ok a ∨
        parseFactor A (Lexer.nextToken A) n p = .ok a →
      a.2.AtInput input ∧ a.2.unread < p.unread) ∧
    (∀ n v (p : Parser Lexer α) a, p.AtInput input →
      exprLoop A (Lexer.nextToken A) n v p = .ok a ∨
        termLoop A (Lexer.nextToken A) n v p = .ok a →
      a.2.AtInput input ∧ a.2.unread ≤ p.unread) := by
  refine ⟨?_, fun fuel h => evalLine_fuel A input h, fun p h => create_atInput A input h,
    ?_, ?_, ?_⟩
  · have := evalLine_ne_outOfFuel A input
    cases h : evalLine A input with
    | ok v => exact Or.inl ⟨v, rfl⟩
    | err e => exact Or.inr ⟨e, rfl⟩
    | outOfFuel => exact absurd h this
  · intro p q hp hne h
    have := advance_unread A input hp h
    exact ⟨this.1, this.2.2 hne⟩
  · intro n p a hp h
    rcases h with h | h | h
    · exact parseExpression_unread A input h hp
    · exact parseTerm_unread A input h hp
    · exact parseFactor_unread A input h hp
  · intro n v p a hp h
    rcases h with h | h
    · exact (unread_le A input n).2.1 v p a h hp
    · exact (unread_le A input n).2.2.2.1 v p a h hp

/-! ## C18: an accepted input has been read in full -/

/-- What a call that returns a token has moved the cursor over is recognised. -/
theorem lexText_recognised {α : Type} (A : Arith α) (r : List Char) (t : Token α)
    (h : (lexText A r).2 = .ok t) : ∀ c ∈ r.take (lexText A r).1, recognised c = true := by
  induction r with
  | nil => simp
  | cons c rest ih =>
    by_cases hsp : isspace c = true
    · rw [lexText] at h ⊢
      simp only [hsp, if_true] at h ⊢
      intro x hx
      simp only [List.take_succ_cons, List.mem_cons] at hx
      rcases hx with rfl | hx
      · simp [recognised, hsp]
      · exact ih h x hx
    · by_cases hnum : isdigit c = true ∨ c = '.'
      · rw [lexText_number A c rest hnum]
        intro x hx
        rcases (scan_run c rest hnum).1.1 x hx with g | g
        · simp [recognised, g]
        · simp [recognised, g]
      · have hn : (isdigit c || decide (c = '.')) = false := by
          cases h1 : isdigit c
          · have : c ≠ '.' := fun h2 => hnum (Or.inr h2)
            simp [this]
          · exact absurd (Or.inl h1) hnum
        revert h
        rw [lexText]
        simp only [hsp, hn, Bool.false_eq_true, if_false]
        repeat' split
        all_goals intro h
        all_goals first
          | (cases h; done)
          | (intro x hx
             simp only [List.take_succ_cons, List.take_zero, List.mem_singleton] at hx
             subst hx
             simp_all [recognised])

/-- A text whose token stream has no error consists of recognised characters. -/
theorem lexes_recognised {α : Type} {A : Arith α} {lx : Lexer} {ts : Stream α}
    (h : Lexes A lx ts) (hc : Clean ts) : ∀ c ∈ lx.s.drop lx.pos, recognised c = true := by
  induction h with
  | @done lx h =>
    rw [nextToken_eq] at h
    have h1 := lexText_recognised A _ _ h
    have h2 := ((lexText_spec A (lx.s.drop lx.pos)).2.2 _ h rfl).2
    rw [h2, List.take_length] at h1
    exact h1
  | @fail lx e h =>
    obtain ⟨t, ht, _⟩ := hc _ (List.mem_cons_self _ _)
    cases ht
  | @tok lx t ts h ht _ ih =>
    have hc1 : Clean ts := fun x hx => hc x (List.mem_cons_of_mem _ hx)
    have ih1 := ih hc1
    rw [nextToken_eq] at h ih1
    have h1 := lexText_recognised A _ _ h
    simp only [← List.drop_drop] at ih1
    intro c hcm
    rw [← List.take_append_drop (lexText A (lx.s.drop lx.pos)).1 (lx.s.drop lx.pos)] at hcm
    rcases List.mem_append.mp hcm with g | g
    · exact h1 c g
    · exact ih1 c g

/-- C18. For every input: if evaluating it succeeds with `v`, then every character of
the input is recognised (white space, a digit, `.` or one of `+ - * / ( )`), and the
constructor and `parseExpression` have returned, the latter with `v` and a state whose
current token is `END` and whose lexer has its cursor at the length of the input. And an
input with a character that is not recognised, anywhere, is rejected with a failure. -/
theorem C18_read_in_full {α : Type} (A : Arith α) (input : List Char) :
    (∀ v, evalLine A input = .ok v →
      (∀ c ∈ input, recognised c = true) ∧
      ∃ p a, Parser.create A input = .ok p ∧
        parseExpression A (Lexer.nextToken A) (3 * input.length + 3) p = .ok a ∧
        a.1 = v ∧ a.2.cur.type = .END ∧ a.2.lexer = ⟨input, input.length⟩) ∧
    ((∃ c ∈ input, recognised c = false) → ∃ e, evalLine A input = .err e) := by
  have part1 : ∀ v, evalLine A input = .ok v →
      (∀ c ∈ input, recognised c = true) ∧
      ∃ p a, Parser.create A input = .ok p ∧
        parseExpression A (Lexer.nextToken A) (3 * input.length + 3) p = .ok a ∧
        a.1 = v ∧ a.2.cur.type = .END ∧ a.2.lexer = ⟨input, input.length⟩ := by
    intro v h
    constructor
    · obtain ⟨ts, hl, hc, _, _⟩ := accepted_stream A h
      simpa using lexes_recognised hl hc
    · unfold evalLine at h
      obtain ⟨p, hp, h⟩ := Res.bind_eq_ok.mp h
      unfold Parser.parse Parser.parseWith at h
      obtain ⟨a, ha, h⟩ := Res.bind_eq_ok.mp h
      split at h
      · cases h
      · rename_i hc
        simp only [ne_eq, Decidable.not_not] at hc
        injection h with h
        obtain ⟨⟨hs, _, hend⟩, _⟩ :=
          parseExpression_unread A input ha (create_atInput A input hp)
        refine ⟨p, a, hp, ha, h, hc, ?_⟩
        rcases hlx : a.2.lexer with ⟨s1, pos1⟩
        rw [hlx] at hs hend
        simp only at hs
        have := hend hc
        simp only at this
        rw [hs, this]
  refine ⟨part1, ?_⟩
  rintro ⟨c, hc, hr⟩
  cases h : evalLine A input with
  | ok v =>
    have := (part1 v h).1 c hc
    rw [hr] at this
    cases this
  | err e => exact ⟨e, rfl⟩
  | outOfFuel => exact absurd h (evalLine_ne_outOfFuel A input)

set_option exponentiation.threshold 3000 in
set_option maxRecDepth 100000 in
/-- C18 on two inputs (binary64 interpretation): `2+2` is accepted with 4, its three
characters are recognised and the lexer ends with its cursor at 3; `2 $` has the
unrecognised character `$` and is rejected. -/
theorem C18_read_in_full_witness :
    evalLine F64.arith ['2', '+', '2'] = .ok (F64.ofNat 4) ∧
    ((∀ c ∈ ['2', '+', '2'], recognised c = true) ∧
      ∃ p a, Parser.create F64.arith ['2', '+', '2'] = .ok p ∧
        parseExpression F64.arith (Lexer.nextToken F64.arith) (3 * ['2', '+', '2'].length + 3) p
          = .ok a ∧
        a.1 = F64.ofNat 4 ∧ a.2.cur.type = .END ∧
        a.2.lexer = ⟨['2', '+', '2'], ['2', '+', '2'].length⟩) ∧
    recognised '$' = false ∧
    ∃ e, evalLine F64.arith ['2', ' ', '$'] = .err e :=
  ⟨by decide!,
    (C18_read_in_full F64.arith ['2', '+', '2']).1 (F64.ofNat 4) (by decide!),
    by decide,
    (C18_read_in_full F64.arith ['2', ' ', '$']).2 ⟨'$', by simp, by decide⟩⟩

/-! ## C19: a lexical error in the lookahead comes first -/

section ExtErr
variable {α : Type} (A : Arith α) (e : Err) (r : Stream α)

theorem advance_err {p p1 : Parser (Stream α) α} (hw : WF p)
    (h : advance (Stream.next A) p = .ok p1) :
    advance (Stream.next A) (extendErr e r p)
      = (if p1.cur.type = .END then .err e else .ok (extendErr e r p1)) ∧ WF p1 := by
  refine ⟨?_, (consumed_advance A hw h).1⟩
  rw [advance_stream] at h ⊢
  rcases p with ⟨ts, cur⟩
  cases ts with
  | nil =>
    simp only [Res.ok.injEq] at h; subst h
    simp [extendErr, Token.simple]
  | cons x rs =>
    cases x with
    | error e1 => simp at h
    | ok t =>
      simp only [Res.ok.injEq] at h; subst h
      have hne : t.type ≠ .END := hw.1 t (List.mem_cons_self _ _)
      simp [extendErr, hne]

theorem errAfter_of_end {a : α × Parser (Stream α) α} (h : a.2.cur.type = .END) :
    errAfter e r a = .err e := by
  unfold errAfter; rw [if_pos h]

theorem errAfter_of_ne {a : α × Parser (Stream α) α} (h : a.2.cur.type ≠ .END) :
    errAfter e r a = .ok (a.1, extendErr e r a.2) := by
  unfold errAfter; rw [if_neg h]

/-- A successful call, on the stream followed by a lexical error: the same result when
its lookahead was a token, the error when its lookahead was the end of the stream. -/
theorem ext_err (n : Nat) :
    (∀ (p : Parser (Stream α) α) a, WF p → parseExpression A (Stream.next A) n p = .ok a →
      parseExpression A (Stream.next A) n (extendErr e r p) = errAfter e r a) ∧
    (∀ v (p : Parser (Stream α) α) a, WF p → p.cur.type ≠ .END →
      exprLoop A (Stream.next A) n v p = .ok a →
      exprLoop A (Stream.next A) n v (extendErr e r p) = errAfter e r a) ∧
    (∀ (p : Parser (Stream α) α) a, WF p → parseTerm A (Stream.next A) n p = .ok a →
      parseTerm A (Stream.next A) n (extendErr e r p) = errAfter e r a) ∧
    (∀ v (p : Parser (Stream α) α) a, WF p → p.cur.type ≠ .END →
      termLoop A (Stream.next A) n v p = .ok a →
      termLoop A (Stream.next A) n v (extendErr e r p) = errAfter e r a) ∧
    (∀ (p : Parser (Stream α) α) a, WF p → parseFactor A (Stream.next A) n p = .ok a →
      parseFactor A (Stream.next A) n (extendErr e r p) = errAfter e r a) := by
  induction n with
  | zero =>
    refine ⟨fun _ _ _ h => ?_, fun _ _ _ _ _ h => ?_, fun _ _ _ h => ?_, fun _ _ _ _ _ h => ?_,
      fun _ _ _ h => ?_⟩ <;> cases h
  | succ n ih =>
    obtain ⟨hE, hEL, hT, hTL, hF⟩ := ih
    have inv := consumed_of_ok A n
    have hcur : ∀ p : Parser (Stream α) α, (extendErr e r p).cur = p.cur := fun _ => rfl
    refine ⟨?_, ?_, ?_, ?_, ?_⟩
    · intro p a hw h
      rw [parseExpression] at h ⊢
      obtain ⟨b, hb, h⟩ := Res.bind_eq_ok.mp h
      have hbw := (inv.2.2.1 p b hw hb).1
      rw [hT p b hw hb]
      by_cases hbe : b.2.cur.type = .END
      · have hae : a.2.cur.type = .END := by rw [exprLoop_at_end A _ h hbe]; exact hbe
        rw [errAfter_of_end e r hbe, errAfter_of_end e r hae]; rfl
      · rw [errAfter_of_ne e r hbe]
        exact hEL _ _ a hbw hbe h
    · intro v p a hw hne h
      rw [exprLoop] at h ⊢
      rw [hcur]
      split at h
      · rename_i hc
        rw [if_pos hc]
        obtain ⟨p1, h1, h⟩ := Res.bind_eq_ok.mp h
        obtain ⟨b, hb, h⟩ := Res.bind_eq_ok.mp h
        obtain ⟨c0, hw1⟩ := advance_err A e r hw h1
        have hbw := (inv.2.2.1 p1 b hw1 hb).1
        have hp1 : p1.cur.type ≠ .END := by
          intro hc1
          cases n with
          | zero => cases hb
          | succ m =>
            rw [parseTerm] at hb
            cases m with
            | zero => cases hb
            | succ k => rw [parseFactor_unexpected A _ k p1 (Or.inl hc1)] at hb; cases hb
        rw [c0, if_neg hp1]
        simp only [Res.bind_ok]
        rw [hT p1 b hw1 hb]
        by_cases hbe : b.2.cur.type = .END
        · have hae : a.2.cur.type = .END := by rw [exprLoop_at_end A _ h hbe]; exact hbe
          rw [errAfter_of_end e r hbe, errAfter_of_end e r hae]; rfl
        · rw [errAfter_of_ne e r hbe]
          exact hEL _ _ a hbw hbe h
      · rename_i hc
        rw [if_neg hc]
        injection h with h; subst h
        rw [errAfter_of_ne e r hne]
    · intro p a hw h
      rw [parseTerm] at h ⊢
      obtain ⟨b, hb, h⟩ := Res.bind_eq_ok.mp h
      have hbw := (inv.2.2.2.2 p b hw hb).1
      rw [hF p b hw hb]
      by_cases hbe : b.2.cur.type = .END
      · have hae : a.2.cur.type = .END := by rw [termLoop_at_end A _ h hbe]; exact hbe
        rw [errAfter_of_end e r hbe, errAfter_of_end e r hae]; rfl
      · rw [errAfter_of_ne e r hbe]
        exact hTL _ _ a hbw hbe h
    · intro v p a hw hne h
      rw [termLoop] at h ⊢
      rw [hcur]
      split at h
      · rename_i hc
        rw [if_pos hc]
        obtain ⟨p1, h1, h⟩ := Res.bind_eq_ok.mp h
        obtain ⟨b, hb, h⟩ := Res.bind_eq_ok.mp h
        obtain ⟨c0, hw1⟩ := advance_err A e r hw h1
        have hbw := (inv.2.2.2.2 p1 b hw1 hb).1
        have hp1 : p1.cur.type ≠ .END := by
          intro hc1
          cases n with
          | zero => cases hb
          | succ k => rw [parseFactor_unexpected A _ k p1 (Or.inl hc1)] at hb; cases hb
        rw [c0, if_neg hp1]
        simp only [Res.bind_ok]
        rw [hF p1 b hw1 hb]
        by_cases hbe : b.2.cur.type = .END
        · have hfin : a.2.cur.type = .END := by
            split at h
            · have := termLoop_at_end A _ h hbe; subst this; exact hbe
            · split at h
              · cases h
              · have := termLoop_at_end A _ h hbe; subst this; exact hbe
          rw [errAfter_of_end e r hbe, errAfter_of_end e r hfin]; rfl
        · rw [errAfter_of_ne e r hbe]
          simp only [Res.bind_ok]
          split at h
          · rename_i hm
            rw [if_pos hm]
            exact hTL _ _ a hbw hbe h
          · rename_i hm
            rw [if_neg hm]
            split at h
            · cases h
            · rename_i hz
              rw [if_neg hz]
              exact hTL _ _ a hbw hbe h
      · rename_i hc
        rw [if_neg hc]
        injection h with h; subst h
        rw [errAfter_of_ne e r hne]
    · intro p a hw h
      rw [parseFactor] at h ⊢
      rw [hcur]
      split at h
      · rename_i hc
        rw [if_pos hc]
        obtain ⟨p1, h1, h⟩ := Res.bind_eq_ok.mp h
        injection h with h; subst h
        rw [(advance_err A e r hw h1).1]
        unfold errAfter
        split <;> rfl
      · rename_i hn
        rw [if_neg hn]
        split at h
        · rename_i hc
          rw [if_pos hc]
          obtain ⟨p1, h1, h⟩ := Res.bind_eq_ok.mp h
          obtain ⟨b, hb, h⟩ := Res.bind_eq_ok.mp h
          obtain ⟨c0, hw1⟩ := advance_err A e r hw h1
          have hbw := (inv.1 p1 b hw1 hb).1
          have hp1 : p1.cur.type ≠ .END := by
            intro hc1
            cases n with
            | zero => cases hb
            | succ m =>
              rw [parseExpression] at hb
              cases m with
              | zero => cases hb
              | succ k =>
                rw [parseTerm] at hb
                cases k with
                | zero => cases hb
                | succ j => rw [parseFactor_unexpected A _ j p1 (Or.inl hc1)] at hb; cases hb
          split at h
          · cases h
          · rename_i hr
            simp only [ne_eq, Decidable.not_not] at hr
            have hbe : b.2.cur.type ≠ .END := by rw [hr]; decide
            obtain ⟨p2, h2, h⟩ := Res.bind_eq_ok.mp h
            injection h with h; subst h
            rw [c0, if_neg hp1]
            simp only [Res.bind_ok]
            rw [hE p1 b hw1 hb, errAfter_of_ne e r hbe]
            simp only [Res.bind_ok, hcur, hr, ne_eq, not_true_eq_false, if_false]
            rw [(advance_err A e r hbw h2).1]
            unfold errAfter
            split <;> rfl
        · rename_i hl
          rw [if_neg hl]
          split at h
          · rename_i hc
            rw [if_pos hc]
            obtain ⟨p1, h1, h⟩ := Res.bind_eq_ok.mp h
            obtain ⟨c0, hw1⟩ := advance_err A e r hw h1
            have hp1 : p1.cur.type ≠ .END := by
              intro hc1
              cases n with
              | zero => cases h
              | succ k => rw [parseFactor_unexpected A _ k p1 (Or.inl hc1)] at h; cases h
            rw [c0, if_neg hp1]
            exact hF p1 a hw1 h
          · rename_i hp
            rw [if_neg hp]
            split at h
            · rename_i hc
              rw [if_pos hc]
              obtain ⟨p1, h1, h⟩ := Res.bind_eq_ok.mp h
              obtain ⟨b, hb, h⟩ := Res.bind_eq_ok.mp h
              injection h with h; subst h
              obtain ⟨c0, hw1⟩ := advance_err A e r hw h1
              have hp1 : p1.cur.type ≠ .END := by
                intro hc1
                cases n with
                | zero => cases hb
                | succ k => rw [parseFactor_unexpected A _ k p1 (Or.inl hc1)] at hb; cases hb
              rw [c0, if_neg hp1]
              simp only [Res.bind_ok]
              rw [hF p1 b hw1 hb]
              unfold errAfter
              split <;> rfl
            · cases h

end ExtErr

section LexErr
variable {α : Type} (A : Arith α)

theorem lexText_unknown {c : Char} (hc : recognised c = false) (t : List Char) :
    lexText A (c :: t) = (0, .error (.UnknownCharacter c)) := by
  simp only [recognised, Bool.or_eq_false_iff, decide_eq_false_iff_not] at hc
  obtain ⟨⟨⟨⟨⟨⟨⟨⟨h0, h1⟩, h2⟩, h3⟩, h4⟩, h5⟩, h6⟩, h7⟩, h8⟩ := hc
  rw [lexText]
  simp only [h0, h1, h2, h3, h4, h5, h6, h7, h8, Bool.false_eq_true, if_false, decide_False,
    Bool.or_self]

theorem stops_unknown {c : Char} (hc : recognised c = false) (t : List Char) :
    Stops (c :: t) := by
  simp only [recognised, Bool.or_eq_false_iff, decide_eq_false_iff_not] at hc
  intro d hd
  simp only [List.head?_cons, Option.some.injEq] at hd
  subst hd
  exact ⟨hc.1.1.1.1.1.1.1.2, hc.1.1.1.1.1.1.2⟩

theorem Lexes.unknown {c : Char} (hc : recognised c = false) (t : List Char) :
    Lexes A ⟨c :: t, 0⟩ [(.error (.UnknownCharacter c) : Except Err (Token α))] :=
  Lexes.fail_of (by rw [lexText_unknown A hc])

/-- An accepted token stream, followed by a lexical error, fails with that error. -/
theorem sEval_err {ts : Stream α} (hn : NoEnd ts) {v : α} (h : sEval A ts = .ok v) (e : Err)
    (r : Stream α) : sEval A (ts ++ .error e :: r) = .err e := by
  obtain ⟨p, a, hp, ha, hend, _⟩ := sEval_eq_ok A h
  have hw := enter_wf A hn hp
  have hx := (ext_err A e r _).1 p a hw ha
  rw [errAfter_of_end e r hend] at hx
  have hx2 : sExpr A (extendErr e r p) = .err e := by
    by_cases hle : 3 * p.mu + 3 ≤ 3 * (extendErr e r p).mu + 3
    · have := Res.eq_of_le (parseExpression_mono A (Stream.next A) hle (extendErr e r p))
        (by rw [hx]; simp)
      unfold sExpr; rw [this, hx]
    · rw [← sExpr_stable A (show 3 * (extendErr e r p).mu + 3 ≤ 3 * p.mu + 3 by omega), hx]
  unfold sEval
  rw [enter_eq] at hp ⊢
  cases ts with
  | nil => rfl
  | cons x rs =>
    cases x with
    | error e1 => simp at hp
    | ok t =>
      simp only [Res.ok.injEq] at hp; subst hp
      simp only [List.cons_append, Res.bind_ok]
      have : (⟨rs ++ .error e :: r, t⟩ : Parser (Stream α) α) = extendErr e r ⟨rs, t⟩ := rfl
      rw [this, hx2]
      rfl

end LexErr

/-- C19. Let `c` be a character the lexer does not recognise and `t` any text.
(1) If the text `a`, read in full as a Term, evaluates successfully, and `z` is a number
literal that `stod` converts (to zero, or to any other value), then evaluating `a`, `/`,
`z`, `c`, `t` fails with `UnknownCharacter c`: `parseFactor` pulls the token after `z`
before `parseTerm` compares the value of `z` with `0.0`. (2) If evaluating the text `e`
succeeds, then evaluating `e`, a space, `c`, `t` fails with `UnknownCharacter c` as well:
the lookahead behind the last token of `e` is pulled before `parse` checks for `END`. -/
theorem C19_lexical_error_first {α : Type} (A : Arith α) (c : Char) (t : List Char)
    (hc : recognised c = false) :
    (∀ (a z : List Char) (n : Nat) (va vz : α), evalTerm A n a = .ok va →
      NumberLiteral z → A.stod z = some vz →
      evalLine A (a ++ '/' :: (z ++ c :: t)) = .err (.UnknownCharacter c)) ∧
    (∀ (e : List Char) (v : α), evalLine A e = .ok v →
      evalLine A (e ++ ' ' :: c :: t) = .err (.UnknownCharacter c)) := by
  constructor
  · intro a z n va vz ha hz hv
    obtain ⟨tsa, hla, _⟩ := Lexes.exists A a
    obtain ⟨pa, ra, hpa, hra, henda, hva⟩ := evalTerm_stream A hla ha
    have hwa := enter_wf A hla.noEnd hpa
    have hca : Clean tsa :=
      clean_of_consumed A hla.noEnd hpa ((consumed_of_ok A n).2.2.1 pa ra hwa hra) henda
    have hlz : Lexes A ⟨z ++ c :: t, 0⟩
        [.ok ⟨.NUMBER, vz⟩, .error (.UnknownCharacter c)] :=
      Lexes.number hz hv (stops_unknown hc t) (Lexes.unknown A hc t)
    have hl : Lexes A ⟨a ++ '/' :: (z ++ c :: t), 0⟩
        (tsa ++ .ok (Token.simple A .DIV) ::
          [.ok ⟨.NUMBER, vz⟩, .error (.UnknownCharacter c)]) :=
      Lexes.append (stops_of_opType (show opType '/' = some .DIV by decide) _)
        (Lexes.single (by decide) hlz) hla hca
    rw [evalLine_eq_sEval A hl]
    unfold sEval
    rw [enter_append A hla.noEnd hpa]
    simp only [Res.bind_ok]
    rw [sExpr_eq, ext_term_end A _ _ n pa ra hwa hra henda, sTermLoop_eq]
    simp only [Token.simple, or_true, reduceCtorEq, if_false, if_true, sAdvance_mk, enter_cons,
      Res.bind_ok]
    rw [sFactor_eq]
    simp only [if_true, sAdvance_mk, enter_eq, Res.bind_err]
  · intro e v h
    obtain ⟨ts, hl, hcl, hn, hs⟩ := accepted_stream A h
    have hl2 : Lexes A ⟨e ++ ' ' :: c :: t, 0⟩ (ts ++ [.error (.UnknownCharacter c)]) :=
      Lexes.append (stops_space _) (Lexes.ws (by decide) (Lexes.unknown A hc t)) hl hcl
    rw [evalLine_eq_sEval A hl2]
    exact sEval_err A hn hs _ _

set_option exponentiation.threshold 3000 in
set_option maxRecDepth 100000 in
/-- C19 on `1/0#` and `2 #` (binary64 interpretation): `1/0` fails with `DivisionByZero`
and `2` is accepted, but `1/0#` and `2 #` both fail with `UnknownCharacter '#'`. -/
theorem C19_lexical_error_first_witness :
    recognised '#' = false ∧
    evalLine F64.arith ['1', '/', '0'] = .err .DivisionByZero ∧
    evalLine F64.arith ['1', '/', '0', '#'] = .err (.UnknownCharacter '#') ∧
    evalLine F64.arith ['2'] = .ok (F64.ofNat 2) ∧
    evalLine F64.arith ['2', ' ', '#'] = .err (.UnknownCharacter '#') :=
  ⟨by decide, by decide!,
    (C19_lexical_error_first F64.arith '#' [] (by decide)).1 ['1'] ['0'] 5 (F64.ofNat 1)
      F64.zero (by decide!) ⟨by simp, by simp [isdigit], by decide⟩ (by decide!),
    by decide!,
    (C19_lexical_error_first F64.arith '#' [] (by decide)).2 ['2'] (F64.ofNat 2) (by decide!)⟩

/-! ## C16: the parser recognises exactly the grammar -/

section Complete
variable {α : Type} (A : Arith α)

theorem enter_map (l : List (Token α)) : enter A (l.map .ok) = .ok (stateAt A l) := by
  rw [enter_eq]
  cases l <;> rfl

theorem sAdvance_map (l : List (Token α)) (c : Token α) :
    sAdvance A ⟨l.map .ok, c⟩ = .ok (stateAt A l) := by
  rw [sAdvance_mk, enter_map]

theorem stateAt_cons (t : Token α) (l : List (Token α)) :
    stateAt A (t :: l) = ⟨l.map .ok, t⟩ := rfl

theorem stateAt_nil : stateAt A ([] : List (Token α)) = ⟨[], Token.simple A .END⟩ := rfl

theorem stateAt_noMul {rest : List (Token α)} (h : NoMulFirst rest) :
    (stateAt A rest).cur.type ≠ .MUL ∧ (stateAt A rest).cur.type ≠ .DIV := by
  cases rest with
  | nil => simp [stateAt, Token.simple]
  | cons t l => exact h t rfl

theorem noMulFirst_cons {t : Token α} (h : t.type ≠ .MUL ∧ t.type ≠ .DIV)
    (rest : List (Token α)) : NoMulFirst (t :: rest) := by
  intro t1 h1
  simp only [List.head?_cons, Option.some.injEq] at h1
  subst h1; exact h

mutual
/-- The parser on the yield of an Expression followed by `rest`: `parseExpression` goes
on with its loop from the first token of `rest`. -/
theorem yield_expr : ∀ (e : DExpr α) (rest : List (Token α)), e.divOk A = true →
    NoMulFirst rest →
    sExpr A (stateAt A (e.yield A ++ rest)) = sExprLoop A (e.value A) (stateAt A rest)
  | .term t, rest, h, hr => by
    simp only [DExpr.divOk] at h
    simp only [DExpr.yield, DExpr.value]
    rw [sExpr_eq, yield_term t rest h, sTermLoop_exit A (stateAt_noMul A hr)]
    rfl
  | .add e t, rest, h, hr => by
    simp only [DExpr.divOk, Bool.and_eq_true] at h
    simp only [DExpr.yield, DExpr.value, List.append_assoc, List.cons_append]
    rw [yield_expr e _ h.1 (noMulFirst_cons (by simp [Token.simple]) _), sExprLoop_eq]
    simp only [stateAt_cons, Token.simple, true_or, if_true, sAdvance_map, Res.bind_ok]
    rw [yield_term t rest h.2, sTermLoop_exit A (stateAt_noMul A hr)]
    rfl
  | .sub e t, rest, h, hr => by
    simp only [DExpr.divOk, Bool.and_eq_true] at h
    simp only [DExpr.yield, DExpr.value, List.append_assoc, List.cons_append]
    rw [yield_expr e _ h.1 (noMulFirst_cons (by simp [Token.simple]) _), sExprLoop_eq]
    simp only [stateAt_cons, Token.simple, or_true, reduceCtorEq, if_false, if_true, sAdvance_map,
      Res.bind_ok]
    rw [yield_term t rest h.2, sTermLoop_exit A (stateAt_noMul A hr)]
    rfl
/-- The parser on the yield of a Term followed by `rest`: `parseTerm` goes on with its
loop from the first token of `rest`. -/
theorem yield_term : ∀ (t : DTerm α) (rest : List (Token α)), t.divOk A = true →
    sTerm A (stateAt A (t.yield A ++ rest)) = sTermLoop A (t.value A) (stateAt A rest)
  | .factor f, rest, h => by
    simp only [DTerm.divOk] at h
    simp only [DTerm.yield, DTerm.value]
    rw [sTerm_eq, yield_factor f rest h]
    rfl
  | .mul t f, rest, h => by
    simp only [DTerm.divOk, Bool.and_eq_true] at h
    simp only [DTerm.yield, DTerm.value, List.append_assoc, List.cons_append]
    rw [yield_term t _ h.1, sTermLoop_eq]
    simp only [stateAt_cons, Token.simple, true_or, if_true, sAdvance_map, Res.bind_ok]
    rw [yield_factor f rest h.2]
    rfl
  | .div t f, rest, h => by
    simp only [DTerm.divOk, Bool.and_eq_true, Bool.not_eq_true'] at h
    simp only [DTerm.yield, DTerm.value, List.append_assoc, List.cons_append]
    rw [yield_term t _ h.1.1, sTermLoop_eq]
    simp only [stateAt_cons, Token.simple, or_true, reduceCtorEq, if_false, if_true, sAdvance_map,
      Res.bind_ok]
    rw [yield_factor f rest h.1.2]
    simp only [Res.bind_ok, h.2, Bool.false_eq_true, if_false]
/-- The parser on the yield of a Factor followed by `rest`: `parseFactor` returns the
value, with the first token of `rest` as the current token. -/
theorem yield_factor : ∀ (f : DFactor α) (rest : List (Token α)), f.divOk A = true →
    sFactor A (stateAt A (f.yield A ++ rest)) = .ok (f.value A, stateAt A rest)
  | .num v, rest, _ => by
    simp only [DFactor.yield, DFactor.value, List.cons_append, List.nil_append, stateAt_cons]
    rw [sFactor_eq]
    simp only [if_true, sAdvance_map, Res.bind_ok]
  | .paren e, rest, h => by
    simp only [DFactor.divOk] at h
    simp only [DFactor.yield, DFactor.value, List.cons_append, List.append_assoc,
      List.nil_append, stateAt_cons]
    rw [sFactor_eq]
    simp only [Token.simple, reduceCtorEq, if_false, if_true, sAdvance_map, Res.bind_ok]
    have := yield_expr e (Token.simple A .RPAREN :: rest) h
      (noMulFirst_cons (by simp [Token.simple]) _)
    simp only [Token.simple] at this
    rw [this, sExprLoop_exit A (by simp [stateAt_cons])]
    simp only [stateAt_cons, Res.bind_ok, ne_eq, not_true_eq_false, if_false, sAdvance_map]
  | .pos f, rest, h => by
    simp only [DFactor.divOk] at h
    simp only [DFactor.yield, DFactor.value, List.cons_append, stateAt_cons]
    rw [sFactor_eq]
    simp only [Token.simple, reduceCtorEq, if_false, if_true, sAdvance_map, Res.bind_ok]
    exact yield_factor f rest h
  | .neg f, rest, h => by
    simp only [DFactor.divOk] at h
    simp only [DFactor.yield, DFactor.value, List.cons_append, stateAt_cons]
    rw [sFactor_eq]
    simp only [Token.simple, reduceCtorEq, if_false, if_true, sAdvance_map, Res.bind_ok]
    rw [yield_factor f rest h]
    rfl
end

/-- The yield of a derivation tree without a zero divisor evaluates to the tree's value. -/
theorem sEval_yield (d : DExpr α) (h : d.divOk A = true) :
    sEval A ((d.yield A).map .ok) = .ok (d.value A) := by
  unfold sEval
  rw [enter_map]
  simp only [Res.bind_ok]
  have := yield_expr A d [] h (fun _ h1 => by cases h1)
  rw [List.append_nil] at this
  rw [this, sExprLoop_exit A (by simp [stateAt_nil, Token.simple])]
  simp [stateAt_nil, Token.simple]

end Complete

section Sound
variable {α : Type} (A : Arith α)

theorem pending_advance {p p1 : Parser (Stream α) α} (hw : WF p) (hc : p.cur.type ≠ .END)
    (h : advance (Stream.next A) p = .ok p1) : pending p = .ok p.cur :: pending p1 := by
  rw [advance_stream] at h
  rcases p with ⟨ts, cur⟩
  cases ts with
  | nil =>
    simp only [Res.ok.injEq] at h; subst h
    simp [pending, Token.simple] at hc ⊢
    exact hc
  | cons x rs =>
    cases x with
    | error e => simp at h
    | ok t =>
      simp only [Res.ok.injEq] at h; subst h
      have hne : t.type ≠ .END := hw.1 t (List.mem_cons_self _ _)
      simp only [pending] at hc ⊢
      simp only [hc, hne, if_false]

theorem plain_of_pending {p q : Parser (Stream α) α} (hp : Plain A p) {l : Stream α}
    (h : pending p = l ++ pending q) : Plain A q := by
  intro t ht
  exact hp t (by rw [h]; exact List.mem_append_right _ ht)

theorem plain_cur {p : Parser (Stream α) α} (hp : Plain A p) (hc : p.cur.type ≠ .END)
    (hn : p.cur.type ≠ .NUMBER) : p.cur = Token.simple A p.cur.type := by
  refine hp p.cur ?_ hn
  simp only [pending, hc, if_false]
  exact List.mem_cons_self _ _

/-- What a successful call consumes is the yield of a derivation tree without a zero
divisor, whose value the call returns; a loop entered with the value of a tree extends
that tree. -/
theorem parse_sound (n : Nat) :
    (∀ (p : Parser (Stream α) α) a, WF p → Plain A p →
      parseExpression A (Stream.next A) n p = .ok a →
      ∃ d : DExpr α, pending p = (d.yield A).map .ok ++ pending a.2 ∧
        d.divOk A = true ∧ d.value A = a.1) ∧
    (∀ v (p : Parser (Stream α) α) a, WF p → Plain A p →
      exprLoop A (Stream.next A) n v p = .ok a →
      ∀ d0 : DExpr α, d0.divOk A = true → d0.value A = v →
      ∃ (d : DExpr α) (ys : List (Token α)), d.yield A = d0.yield A ++ ys ∧
        pending p = ys.map .ok ++ pending a.2 ∧ d.divOk A = true ∧ d.value A = a.1) ∧
    (∀ (p : Parser (Stream α) α) a, WF p → Plain A p →
      parseTerm A (Stream.next A) n p = .ok a →
      ∃ d : DTerm α, pending p = (d.yield A).map .ok ++ pending a.2 ∧
        d.divOk A = true ∧ d.value A = a.1) ∧
    (∀ v (p : Parser (Stream α) α) a, WF p → Plain A p →
      termLoop A (Stream.next A) n v p = .ok a →
      ∀ d0 : DTerm α, d0.divOk A = true → d0.value A = v →
      ∃ (d : DTerm α) (ys : List (Token α)), d.yield A = d0.yield A ++ ys ∧
        pending p = ys.map .ok ++ pending a.2 ∧ d.divOk A = true ∧ d.value A = a.1) ∧
    (∀ (p : Parser (Stream α) α) a, WF p → Plain A p →
      parseFactor A (Stream.next A) n p = .ok a →
      ∃ d : DFactor α, pending p = (d.yield A).map .ok ++ pending a.2 ∧
        d.divOk A = true ∧ d.value A = a.1) := by
  induction n with
  | zero =>
    refine ⟨fun _ _ _ _ h => ?_, fun _ _ _ _ _ h => ?_, fun _ _ _ _ h => ?_,
      fun _ _ _ _ _ h => ?_, fun _ _ _ _ h => ?_⟩ <;> cases h
  | succ n ih =>
    obtain ⟨hE, hEL, hT, hTL, hF⟩ := ih
    have inv := consumed_of_ok A n
    refine ⟨?_, ?_, ?_, ?_, ?_⟩
    · intro p a hw hp h
      rw [parseExpression] at h
      obtain ⟨b, hb, h⟩ := Res.bind_eq_ok.mp h
      have hbw := (inv.2.2.1 p b hw hb).1
      obtain ⟨t, e1, d1, v1⟩ := hT p b hw hp hb
      obtain ⟨d, ys, e2, e3, d2, v2⟩ :=
        hEL _ _ a hbw (plain_of_pending A hp e1) h (.term t) d1 v1
      refine ⟨d, ?_, d2, v2⟩
      rw [e1, e3, e2]
      simp only [DExpr.yield, List.map_append, List.append_assoc]
    · intro v p a hw hp h d0 hd0 hv0
      rw [exprLoop] at h
      split at h
      · rename_i hc
        have hc1 : p.cur.type ≠ .END := by rcases hc with hc | hc <;> rw [hc] <;> decide
        have hc2 : p.cur.type ≠ .NUMBER := by rcases hc with hc | hc <;> rw [hc] <;> decide
        obtain ⟨p1, h1, h⟩ := Res.bind_eq_ok.mp h
        obtain ⟨b, hb, h⟩ := Res.bind_eq_ok.mp h
        have c0 := consumed_advance A hw h1
        have e0 := pending_advance A hw hc1 h1
        have hp1 : Plain A p1 := plain_of_pending A hp (l := [.ok p.cur]) e0
        have hbw := (inv.2.2.1 p1 b c0.1 hb).1
        obtain ⟨t, e1, d1, v1⟩ := hT p1 b c0.1 hp1 hb
        have hcur := plain_cur A hp hc1 hc2
        by_cases hP : p.cur.type = .PLUS
        · rw [if_pos hP] at h
          obtain ⟨d, ys, e2, e3, d2, v2⟩ :=
            hEL _ _ a hbw (plain_of_pending A hp1 e1) h (.add d0 t)
              (by simp [DExpr.divOk, hd0, d1]) (by simp [DExpr.value, hv0, v1])
          refine ⟨d, p.cur :: (t.yield A ++ ys), ?_, ?_, d2, v2⟩
          · rw [e2, hcur, hP]
            simp only [DExpr.yield, List.append_assoc, List.cons_append]
          · rw [e0, e1, e3]
            simp only [List.map_cons, List.map_append, List.append_assoc, List.cons_append]
        · rw [if_neg hP] at h
          have hM : p.cur.type = .MINUS := by
            rcases hc with hc | hc
            · exact absurd hc hP
            · exact hc
          obtain ⟨d, ys, e2, e3, d2, v2⟩ :=
            hEL _ _ a hbw (plain_of_pending A hp1 e1) h (.sub d0 t)
              (by simp [DExpr.divOk, hd0, d1]) (by simp [DExpr.value, hv0, v1])
          refine ⟨d, p.cur :: (t.yield A ++ ys), ?_, ?_, d2, v2⟩
          · rw [e2, hcur, hM]
            simp only [DExpr.yield, List.append_assoc, List.cons_append]
          · rw [e0, e1, e3]
            simp only [List.map_cons, List.map_append, List.append_assoc, List.cons_append]
      · injection h with h; subst h
        exact ⟨d0, [], by simp, by simp, hd0, hv0⟩
    · intro p a hw hp h
      rw [parseTerm] at h
      obtain ⟨b, hb, h⟩ := Res.bind_eq_ok.mp h
      have hbw := (inv.2.2.2.2 p b hw hb).1
      obtain ⟨f, e1, d1, v1⟩ := hF p b hw hp hb
      obtain ⟨d, ys, e2, e3, d2, v2⟩ :=
        hTL _ _ a hbw (plain_of_pending A hp e1) h (.factor f) d1 v1
      refine ⟨d, ?_, d2, v2⟩
      rw [e1, e3, e2]
      simp only [DTerm.yield, List.map_append, List.append_assoc]
    · intro v p a hw hp h d0 hd0 hv0
      rw [termLoop] at h
      split at h
      · rename_i hc
        have hc1 : p.cur.type ≠ .END := by rcases hc with hc | hc <;> rw [hc] <;> decide
        have hc2 : p.cur.type ≠ .NUMBER := by rcases hc with hc | hc <;> rw [hc] <;> decide
        obtain ⟨p1, h1, h⟩ := Res.bind_eq_ok.mp h
        obtain ⟨b, hb, h⟩ := Res.bind_eq_ok.mp h
        have c0 := consumed_advance A hw h1
        have e0 := pending_advance A hw hc1 h1
        have hp1 : Plain A p1 := plain_of_pending A hp (l := [.ok p.cur]) e0
        have hbw := (inv.2.2.2.2 p1 b c0.1 hb).1
        obtain ⟨f, e1, d1, v1⟩ := hF p1 b c0.1 hp1 hb
        have hcur := plain_cur A hp hc1 hc2
        by_cases hP : p.cur.type = .MUL
        · rw [if_pos hP] at h
          obtain ⟨d, ys, e2, e3, d2, v2⟩ :=
            hTL _ _ a hbw (plain_of_pending A hp1 e1) h (.mul d0 f)
              (by simp [DTerm.divOk, hd0, d1]) (by simp [DTerm.value, hv0, v1])
          refine ⟨d, p.cur :: (f.yield A ++ ys), ?_, ?_, d2, v2⟩
          · rw [e2, hcur, hP]
            simp only [DTerm.yield, List.append_assoc, List.cons_append]
          · rw [e0, e1, e3]
            simp only [List.map_cons, List.map_append, List.append_assoc, List.cons_append]
        · rw [if_neg hP] at h
          have hM : p.cur.type = .DIV := by
            rcases hc with hc | hc
            · exact absurd hc hP
            · exact hc
          split at h
          · cases h
          · rename_i hz
            obtain ⟨d, ys, e2, e3, d2, v2⟩ :=
              hTL _ _ a hbw (plain_of_pending A hp1 e1) h (.div d0 f)
                (by simp only [Bool.not_eq_true] at hz; simp [DTerm.divOk, hd0, d1, v1, hz])
                (by simp [DTerm.value, hv0, v1])
            refine ⟨d, p.cur :: (f.yield A ++ ys), ?_, ?_, d2, v2⟩
            · rw [e2, hcur, hM]
              simp only [DTerm.yield, List.append_assoc, List.cons_append]
            · rw [e0, e1, e3]
              simp only [List.map_cons, List.map_append, List.append_assoc, List.cons_append]
      · injection h with h; subst h
        exact ⟨d0, [], by simp, by simp, hd0, hv0⟩
    · intro p a hw hp h
      rw [parseFactor] at h
      split at h
      · rename_i hc
        have hc1 : p.cur.type ≠ .END := by rw [hc]; decide
        obtain ⟨p1, h1, h⟩ := Res.bind_eq_ok.mp h
        injection h with h; subst h
        have e0 := pending_advance A hw hc1 h1
        refine ⟨.num p.cur.value, ?_, rfl, rfl⟩
        rw [e0]
        simp only [DFactor.yield, List.map_cons, List.map_nil, List.cons_append,
          List.nil_append]
        congr 2
        rcases hpc : p.cur with ⟨ty, val⟩
        rw [hpc] at hc
        simp only at hc
        rw [hc]
      · split at h
        · rename_i hc
          have hc1 : p.cur.type ≠ .END := by rw [hc]; decide
          have hc2 : p.cur.type ≠ .NUMBER := by rw [hc]; decide
          obtain ⟨p1, h1, h⟩ := Res.bind_eq_ok.mp h
          obtain ⟨b, hb, h⟩ := Res.bind_eq_ok.mp h
          have c0 := consumed_advance A hw h1
          have e0 := pending_advance A hw hc1 h1
          have hp1 : Plain A p1 := plain_of_pending A hp (l := [.ok p.cur]) e0
          have hbw := (inv.1 p1 b c0.1 hb).1
          obtain ⟨d, e1, d1, v1⟩ := hE p1 b c0.1 hp1 hb
          have hpb : Plain A b.2 := plain_of_pending A hp1 e1
          split at h
          · cases h
          · rename_i hr
            simp only [ne_eq, Decidable.not_not] at hr
            have hbe : b.2.cur.type ≠ .END := by rw [hr]; decide
            have hbn : b.2.cur.type ≠ .NUMBER := by rw [hr]; decide
            obtain ⟨p2, h2, h⟩ := Res.bind_eq_ok.mp h
            injection h with h; subst h
            have e2 := pending_advance A hbw hbe h2
            have hcur := plain_cur A hp hc1 hc2
            have hcur2 := plain_cur A hpb hbe hbn
            refine ⟨.paren d, ?_, d1, v1⟩
            rw [e0, e1, e2, hcur, hcur2, hc, hr]
            simp only [DFactor.yield, List.map_cons, List.map_append, List.map_nil,
              List.append_assoc, List.cons_append, List.nil_append]
        · split at h
          · rename_i hc
            have hc1 : p.cur.type ≠ .END := by rw [hc]; decide
            have hc2 : p.cur.type ≠ .NUMBER := by rw [hc]; decide
            obtain ⟨p1, h1, h⟩ := Res.bind_eq_ok.mp h
            have c0 := consumed_advance A hw h1
            have e0 := pending_advance A hw hc1 h1
            have hp1 : Plain A p1 := plain_of_pending A hp (l := [.ok p.cur]) e0
            obtain ⟨f, e1, d1, v1⟩ := hF p1 a c0.1 hp1 h
            have hcur := plain_cur A hp hc1 hc2
            refine ⟨.pos f, ?_, d1, v1⟩
            rw [e0, e1, hcur, hc]
            simp only [DFactor.yield, List.map_cons, List.cons_append]
          · split at h
            · rename_i hc
              have hc1 : p.cur.type ≠ .END := by rw [hc]; decide
              have hc2 : p.cur.type ≠ .NUMBER := by rw [hc]; decide
              obtain ⟨p1, h1, h⟩ := Res.bind_eq_ok.mp h
              obtain ⟨b, hb, h⟩ := Res.bind_eq_ok.mp h
              injection h with h; subst h
              have c0 := consumed_advance A hw h1
              have e0 := pending_advance A hw hc1 h1
              have hp1 : Plain A p1 := plain_of_pending A hp (l := [.ok p.cur]) e0
              obtain ⟨f, e1, d1, v1⟩ := hF p1 b c0.1 hp1 hb
              have hcur := plain_cur A hp hc1 hc2
              refine ⟨.neg f, ?_, d1, by simp [DFactor.value, v1]⟩
              rw [e0, e1, hcur, hc]
              simp only [DFactor.yield, List.map_cons, List.cons_append]
            · cases h

end Sound

section Grammar
variable {α : Type} (A : Arith α)

/-- A token of the lexer that is not a `NUMBER` carries the default value. -/
theorem lexText_plain (r : List Char) (t : Token α) (h : (lexText A r).2 = .ok t)
    (hn : t.type ≠ .NUMBER) : t = Token.simple A t.type := by
  induction r with
  | nil =>
    simp only [lexText, Except.ok.injEq] at h
    rw [← h]; rfl
  | cons c rest ih =>
    by_cases hsp : isspace c = true
    · rw [lexText_ws A hsp] at h
      exact ih h
    · revert h
      rw [lexText]
      simp only [hsp, Bool.false_eq_true, if_false]
      repeat' split
      all_goals intro h
      all_goals first
        | (cases h; done)
        | (simp only [Except.ok.injEq] at h; subst h; first | rfl | exact absurd rfl hn)

theorem lexes_plain {lx : Lexer} {ts : Stream α} (h : Lexes A lx ts) :
    ∀ t : Token α, .ok t ∈ ts → t.type ≠ .NUMBER → t = Token.simple A t.type := by
  induction h with
  | done h => intro t ht; cases ht
  | fail h => intro t ht; simp at ht
  | @tok lx t0 ts h ht _ ih =>
    intro t hm hn
    rcases List.mem_cons.mp hm with h1 | h1
    · simp only [Except.ok.injEq] at h1
      subst h1
      rw [nextToken_eq] at h
      exact lexText_plain A _ t h hn
    · exact ih t h1 hn

theorem pending_enter {ts : Stream α} (hn : NoEnd ts) {p : Parser (Stream α) α}
    (h : enter A ts = .ok p) : pending p = ts := by
  rw [enter_eq] at h
  cases ts with
  | nil => simp only [Res.ok.injEq] at h; subst h; simp [pending, Token.simple]
  | cons x rs =>
    cases x with
    | error e => simp at h
    | ok t =>
      simp only [Res.ok.injEq] at h; subst h
      have := hn t (List.mem_cons_self _ _)
      simp [pending, this]

/-- An accepted token stream of the lexer is the yield of a derivation tree without a
zero divisor, and the value is the tree's. -/
theorem sEval_sound {lx : Lexer} {ts : Stream α} (hl : Lexes A lx ts) {v : α}
    (h : sEval A ts = .ok v) :
    ∃ d : DExpr α, ts = (d.yield A).map .ok ∧ d.divOk A = true ∧ d.value A = v := by
  obtain ⟨p, a, hp, ha, hend, hv⟩ := sEval_eq_ok A h
  have hw := enter_wf A hl.noEnd hp
  have hpe := pending_enter A hl.noEnd hp
  have hpl : Plain A p := by
    intro t ht
    rw [hpe] at ht
    exact lexes_plain A hl t ht
  obtain ⟨d, e1, d1, v1⟩ := (parse_sound A _).1 p a hw hpl ha
  refine ⟨d, ?_, d1, by rw [v1, hv]⟩
  rw [← hpe, e1]
  simp [pending, hend]

end Grammar

/-- C16. Evaluating an input succeeds with value `v` if and only if the input lexes
without error to the yield of a derivation tree of the grammar
`Expression := Term {('+'|'-') Term}`, `Term := Factor {('*'|'/') Factor}`,
`Factor := NUMBER | '(' Expression ')' | ('+'|'-') Factor`, in which no `/` has a
right-hand factor whose value compares equal to `0.0`, and `v` is the value of that tree
(Expressions and Terms folded from the left, unary `-` negating). -/
theorem C16_grammar {α : Type} (A : Arith α) (input : List Char) (v : α) :
    evalLine A input = .ok v ↔
      ∃ d : DExpr α, Lexes A ⟨input, 0⟩ ((d.yield A).map .ok) ∧
        d.divOk A = true ∧ d.value A = v := by
  constructor
  · intro h
    obtain ⟨ts, hl, _, _, hs⟩ := accepted_stream A h
    obtain ⟨d, e1, d1, v1⟩ := sEval_sound A hl hs
    exact ⟨d, by rw [← e1]; exact hl, d1, v1⟩
  · rintro ⟨d, hl, d1, v1⟩
    rw [evalLine_eq_sEval A hl, sEval_yield A d d1, v1]

set_option exponentiation.threshold 3000 in
set_option maxRecDepth 100000 in
/-- C16 on `2-3*-4` (binary64 interpretation): the input evaluates to 14, so it lexes to
the yield of a derivation tree without zero divisor and with value 14; and the tree
`2 - (3 * (-4))` of the grammar has that value. -/
theorem C16_grammar_witness :
    evalLine F64.arith ['2', '-', '3', '*', '-', '4'] = .ok (F64.ofNat 14) ∧
    (∃ d : DExpr F64, Lexes F64.arith ⟨['2', '-', '3', '*', '-', '4'], 0⟩
        ((d.yield F64.arith).map .ok) ∧
      d.divOk F64.arith = true ∧ d.value F64.arith = F64.ofNat 14) ∧
    DExpr.value F64.arith
      (.sub (.term (.factor (.num (F64.ofNat 2))))
        (.mul (.factor (.num (F64.ofNat 3))) (.neg (.num (F64.ofNat 4))))) = F64.ofNat 14 :=
  ⟨by decide!,
    (C16_grammar F64.arith ['2', '-', '3', '*', '-', '4'] (F64.ofNat 14)).mp (by decide!),
    by decide!⟩

/-! ## Binary64: what `round` and `stod` compute -/

namespace F64

theorem round_eq (neg : Bool) (p q : Nat) (hp : p ≠ 0) :
    round neg p q = roundAt neg p q (max (ilog p q - 52) (-1074)) := by
  unfold round
  rw [if_neg hp]
  rfl

theorem bitLen_zero (fuel : Nat) : bitLen fuel 0 = 0 := by
  cases fuel <;> simp [bitLen]

theorem bitLen_spec : ∀ (fuel n : Nat), n < 2 ^ fuel → 0 < n →
    2 ^ (bitLen fuel n - 1) ≤ n ∧ n < 2 ^ (bitLen fuel n) ∧ 0 < bitLen fuel n := by
  intro fuel
  induction fuel with
  | zero => intro n h1 h2; simp at h1; omega
  | succ f ih =>
    intro n h1 h2
    have hn : n ≠ 0 := by omega
    simp only [bitLen, hn, if_false, Nat.add_sub_cancel]
    by_cases h0 : n / 2 = 0
    · have h1n : n = 1 := by omega
      subst h1n
      simp [bitLen_zero]
    · have hlt : n / 2 < 2 ^ f := by
        rw [Nat.pow_succ] at h1; omega
      obtain ⟨a, b, c⟩ := ih (n / 2) hlt (by omega)
      have e1 : 2 ^ bitLen f (n / 2) = 2 * 2 ^ (bitLen f (n / 2) - 1) := by
        rw [← Nat.pow_succ']
        congr 1; omega
      refine ⟨by omega, ?_, by omega⟩
      rw [Nat.pow_succ]
      omega

theorem bitLen_self {n : Nat} (h : 0 < n) :
    2 ^ (bitLen n n - 1) ≤ n ∧ n < 2 ^ (bitLen n n) ∧ 0 < bitLen n n :=
  bitLen_spec n n (Nat.lt_two_pow n) h

end F64
namespace F64

theorem pow_toNat (z : ℤ) (hz : 0 ≤ z) : ((2 ^ z.toNat : ℕ) : ℚ) = (2 : ℚ) ^ z := by
  lift z to ℕ using hz
  simp

theorem pow_toNat_neg (z : ℤ) (hz : z ≤ 0) : ((2 ^ (-z).toNat : ℕ) : ℚ) = ((2 : ℚ) ^ z)⁻¹ := by
  rw [pow_toNat (-z) (by omega), zpow_neg]

theorem two_zpow_pos (z : ℤ) : (0 : ℚ) < (2 : ℚ) ^ z := zpow_pos (by norm_num) z

theorem ilog_spec (p q : Nat) (hp : 0 < p) (hq : 0 < q) :
    (2 : ℚ) ^ (ilog p q) * q ≤ p ∧ (p : ℚ) < (2 : ℚ) ^ (ilog p q + 1) * q := by
  unfold ilog
  simp only []
  obtain ⟨a1, a2, a3⟩ := bitLen_self hp
  obtain ⟨b1, b2, b3⟩ := bitLen_self hq
  have hp1 : (2 : ℚ) ^ ((bitLen p p : ℤ) - 1) ≤ p := by
    have : ((bitLen p p : ℤ) - 1) = ((bitLen p p - 1 : ℕ) : ℤ) := by omega
    rw [this, zpow_natCast]
    exact_mod_cast a1
  have hp2 : (p : ℚ) < (2 : ℚ) ^ (bitLen p p : ℤ) := by
    rw [zpow_natCast]; exact_mod_cast a2
  have hq1 : (2 : ℚ) ^ ((bitLen q q : ℤ) - 1) ≤ q := by
    have : ((bitLen q q : ℤ) - 1) = ((bitLen q q - 1 : ℕ) : ℤ) := by omega
    rw [this, zpow_natCast]
    exact_mod_cast b1
  have hq2 : (q : ℚ) < (2 : ℚ) ^ (bitLen q q : ℤ) := by
    rw [zpow_natCast]; exact_mod_cast b2
  have hq0 : (0 : ℚ) < q := by exact_mod_cast hq
  generalize (bitLen p p : ℤ) = bp at hp1 hp2 ⊢
  generalize (bitLen q q : ℤ) = bq at hq1 hq2 ⊢
  have two : (2 : ℚ) ≠ 0 := by norm_num
  have lower : (2 : ℚ) ^ (bp - bq - 1) * q ≤ p := by
    calc (2 : ℚ) ^ (bp - bq - 1) * q ≤ (2 : ℚ) ^ (bp - bq - 1) * (2 : ℚ) ^ bq :=
          mul_le_mul_of_nonneg_left hq2.le (two_zpow_pos _).le
      _ = (2 : ℚ) ^ (bp - 1) := by rw [← zpow_add₀ two]; congr 1; ring
      _ ≤ p := hp1
  have upper : (p : ℚ) < (2 : ℚ) ^ (bp - bq + 1) * q := by
    calc (p : ℚ) < (2 : ℚ) ^ bp := hp2
      _ = (2 : ℚ) ^ (bp - bq + 1) * (2 : ℚ) ^ (bq - 1) := by
          rw [← zpow_add₀ two]; congr 1; ring
      _ ≤ (2 : ℚ) ^ (bp - bq + 1) * q := mul_le_mul_of_nonneg_left hq1 (two_zpow_pos _).le
  have hge : ((if 0 ≤ bp - bq then decide (q * 2 ^ (bp - bq).toNat ≤ p)
      else decide (q ≤ p * 2 ^ (-(bp - bq)).toNat)) = true) ↔ (2 : ℚ) ^ (bp - bq) * q ≤ p := by
    by_cases hd : 0 ≤ bp - bq
    · rw [if_pos hd, decide_eq_true_iff]
      rw [← pow_toNat _ hd, mul_comm]
      exact_mod_cast Iff.rfl
    · rw [if_neg hd, decide_eq_true_iff]
      have h1 := pow_toNat_neg (bp - bq) (by omega)
      have h2 : (2 : ℚ) ^ (bp - bq) = (((2 ^ (-(bp - bq)).toNat : ℕ) : ℚ))⁻¹ := by
        rw [h1, inv_inv]
      rw [h2]
      have hpos : (0 : ℚ) < ((2 ^ (-(bp - bq)).toNat : ℕ) : ℚ) := by positivity
      rw [inv_mul_le_iff₀ hpos]
      constructor
      · intro h; rw [mul_comm]; exact_mod_cast h
      · intro h; rw [mul_comm] at h; exact_mod_cast h
  by_cases hg : (if 0 ≤ bp - bq then decide (q * 2 ^ (bp - bq).toNat ≤ p)
      else decide (q ≤ p * 2 ^ (-(bp - bq)).toNat)) = true
  · rw [if_pos hg]
    exact ⟨hge.mp hg, upper⟩
  · rw [if_neg hg]
    refine ⟨lower, ?_⟩
    have := lt_of_not_le (mt hge.mpr hg)
    rw [show bp - bq - 1 + 1 = bp - bq by ring]
    exact this

end F64
namespace F64

/-- What `roundAt` computes: the quotient `m0` and the remainder `r` of the division of
`p / q` by `2^e`. -/
theorem roundAt_data (p q : ℕ) (hq : 0 < q) (e : ℤ) :
    ∃ m0 r den : ℕ, 0 < den ∧ r < den ∧
      (p : ℚ) / q = ((m0 : ℚ) + (r : ℚ) / den) * (2 : ℚ) ^ e ∧
      ∀ neg, roundAt neg p q e =
        if 971 < (if (if den < 2 * r ∨ (2 * r = den ∧ m0 % 2 = 1) then m0 + 1 else m0) = 2 ^ 53
            then e + 1 else e)
        then (.inf neg, true)
        else (.fin neg
          (if (if den < 2 * r ∨ (2 * r = den ∧ m0 % 2 = 1) then m0 + 1 else m0) = 2 ^ 53
            then 2 ^ 52 else (if den < 2 * r ∨ (2 * r = den ∧ m0 % 2 = 1) then m0 + 1 else m0))
          (if (if den < 2 * r ∨ (2 * r = den ∧ m0 % 2 = 1) then m0 + 1 else m0) = 2 ^ 53
            then e + 1 else e), decide (r ≠ 0)) := by
  have hq0 : (0 : ℚ) < q := by exact_mod_cast hq
  have hden : 0 < (if 0 ≤ e then q * 2 ^ e.toNat else q) := by
    split
    · positivity
    · exact hq
  refine ⟨(if 0 ≤ e then p else p * 2 ^ (-e).toNat) / (if 0 ≤ e then q * 2 ^ e.toNat else q),
    (if 0 ≤ e then p else p * 2 ^ (-e).toNat) % (if 0 ≤ e then q * 2 ^ e.toNat else q),
    (if 0 ≤ e then q * 2 ^ e.toNat else q), hden, Nat.mod_lt _ hden, ?_, fun neg => rfl⟩
  have hdiv := Nat.div_add_mod (if 0 ≤ e then p else p * 2 ^ (-e).toNat)
    (if 0 ≤ e then q * 2 ^ e.toNat else q)
  generalize (if 0 ≤ e then p else p * 2 ^ (-e).toNat) / (if 0 ≤ e then q * 2 ^ e.toNat else q)
    = m0 at hdiv ⊢
  generalize (if 0 ≤ e then p else p * 2 ^ (-e).toNat) % (if 0 ≤ e then q * 2 ^ e.toNat else q)
    = r at hdiv ⊢
  have hdq : ((if 0 ≤ e then q * 2 ^ e.toNat else q : ℕ) : ℚ) * ((m0 : ℚ) + (r : ℚ) /
      ((if 0 ≤ e then q * 2 ^ e.toNat else q : ℕ) : ℚ)) =
      ((if 0 ≤ e then p else p * 2 ^ (-e).toNat : ℕ) : ℚ) := by
    have hd0 : ((if 0 ≤ e then q * 2 ^ e.toNat else q : ℕ) : ℚ) ≠ 0 := by
      exact_mod_cast hden.ne'
    rw [mul_add, mul_div_cancel₀ _ hd0]
    exact_mod_cast hdiv
  by_cases he : 0 ≤ e
  · simp only [he, if_true] at hdq ⊢
    have hD : ((q * 2 ^ e.toNat : ℕ) : ℚ) = q * (2 : ℚ) ^ e := by
      rw [Nat.cast_mul, pow_toNat e he]
    generalize (m0 : ℚ) + (r : ℚ) / ((q * 2 ^ e.toNat : ℕ) : ℚ) = D at hdq ⊢
    rw [← hdq, hD, mul_assoc, mul_div_cancel_left₀ _ hq0.ne', mul_comm]
  · simp only [he, if_false] at hdq ⊢
    have hN : ((p * 2 ^ (-e).toNat : ℕ) : ℚ) = p * ((2 : ℚ) ^ e)⁻¹ := by
      rw [Nat.cast_mul, pow_toNat_neg e (by omega)]
    generalize (m0 : ℚ) + (r : ℚ) / (q : ℚ) = D at hdq ⊢
    rw [hN] at hdq
    have h3 := (two_zpow_pos e).ne'
    have hp : (p : ℚ) = q * D * (2 : ℚ) ^ e := by
      rw [hdq, mul_assoc, inv_mul_cancel₀ h3, mul_one]
    rw [hp, mul_assoc, mul_div_cancel_left₀ _ hq0.ne']

end F64
namespace F64

/-- What `round` computes on `p / q > 0`: an exponent `e ≥ -1074`, the quotient `m0` and
the remainder `ρ < 1` of `p / q` by `2^e`, with `2^52 ≤ m0 < 2^53` above the subnormal
range, and the significand `m`, the one of `m0` and `m0 + 1` that is nearer (the even one
at a tie). -/
theorem round_spec (p q : ℕ) (hp : 0 < p) (hq : 0 < q) :
    ∃ (e : ℤ) (m0 : ℕ) (ρ : ℚ) (m : ℕ),
      0 ≤ ρ ∧ ρ < 1 ∧ (p : ℚ) / q = ((m0 : ℚ) + ρ) * (2 : ℚ) ^ e ∧
      -1074 ≤ e ∧ (-1074 < e → 2 ^ 52 ≤ m0) ∧ m0 < 2 ^ 53 ∧
      ((m = m0 ∧ (ρ < 1 / 2 ∨ (ρ = 1 / 2 ∧ m0 % 2 = 0))) ∨
        (m = m0 + 1 ∧ (1 / 2 < ρ ∨ (ρ = 1 / 2 ∧ m0 % 2 = 1)))) ∧
      ∀ neg, round neg p q =
        if 971 < (if m = 2 ^ 53 then e + 1 else e) then (.inf neg, true)
        else (.fin neg (if m = 2 ^ 53 then 2 ^ 52 else m) (if m = 2 ^ 53 then e + 1 else e),
          decide (ρ ≠ 0)) := by
  obtain ⟨l1, l2⟩ := ilog_spec p q hp hq
  obtain ⟨m0, r, den, hden, hr, hx, hround⟩ :=
    roundAt_data p q hq (max (ilog p q - 52) (-1074))
  generalize he : max (ilog p q - 52) (-1074) = e at hx hround
  have he1 : -1074 ≤ e := by rw [← he]; exact le_max_right _ _
  have he2 : ilog p q - 52 ≤ e := by rw [← he]; exact le_max_left _ _
  have he3 : -1074 < e → e = ilog p q - 52 := by
    intro h; rw [← he] at h ⊢
    rcases max_cases (ilog p q - 52) (-1074) with ⟨h1, _⟩ | ⟨h1, _⟩
    · exact h1
    · rw [h1] at h; exact absurd h (lt_irrefl _)
  have hq0 : (0 : ℚ) < q := by exact_mod_cast hq
  have hd0 : (0 : ℚ) < den := by exact_mod_cast hden
  have two : (2 : ℚ) ≠ 0 := by norm_num
  have hρ0 : (0 : ℚ) ≤ (r : ℚ) / den := by positivity
  have hρ1 : (r : ℚ) / den < 1 := by
    rw [div_lt_one hd0]; exact_mod_cast hr
  have hxl : (2 : ℚ) ^ (ilog p q) ≤ (p : ℚ) / q := by
    rw [le_div_iff₀ hq0]; exact l1
  have hxu : (p : ℚ) / q < (2 : ℚ) ^ (ilog p q + 1) := by
    rw [div_lt_iff₀ hq0]; exact l2
  have h2e := two_zpow_pos e
  -- m0 < 2^53
  have hm53 : m0 < 2 ^ 53 := by
    have h1 : (m0 : ℚ) * (2 : ℚ) ^ e ≤ (p : ℚ) / q := by
      rw [hx]; exact mul_le_mul_of_nonneg_right (by linarith) h2e.le
    have h2 : (2 : ℚ) ^ (ilog p q + 1) ≤ (2 : ℚ) ^ (53 : ℕ) * (2 : ℚ) ^ e := by
      rw [← zpow_natCast, ← zpow_add₀ two]
      exact zpow_le_zpow_right₀ (by norm_num) (by push_cast; omega)
    have h3 : (m0 : ℚ) * (2 : ℚ) ^ e < (2 : ℚ) ^ (53 : ℕ) * (2 : ℚ) ^ e := by linarith
    have h4 : (m0 : ℚ) < (2 : ℚ) ^ (53 : ℕ) := lt_of_mul_lt_mul_right h3 h2e.le
    exact_mod_cast h4
  have hm52 : -1074 < e → 2 ^ 52 ≤ m0 := by
    intro h
    have hel := he3 h
    have h1 : (p : ℚ) / q < ((m0 : ℚ) + 1) * (2 : ℚ) ^ e := by
      rw [hx]; exact mul_lt_mul_of_pos_right (by linarith) h2e
    have h2 : (2 : ℚ) ^ (52 : ℕ) * (2 : ℚ) ^ e = (2 : ℚ) ^ (ilog p q) := by
      rw [← zpow_natCast, ← zpow_add₀ two]; congr 1; push_cast; omega
    have h3 : (2 : ℚ) ^ (52 : ℕ) * (2 : ℚ) ^ e < ((m0 : ℚ) + 1) * (2 : ℚ) ^ e := by
      rw [h2]; linarith
    have h4 : (2 : ℚ) ^ (52 : ℕ) < (m0 : ℚ) + 1 := lt_of_mul_lt_mul_right h3 h2e.le
    have h5 : (2 : ℕ) ^ 52 < m0 + 1 := by exact_mod_cast h4
    omega
  have hlt : den < 2 * r ↔ (1 : ℚ) / 2 < (r : ℚ) / den := by
    rw [lt_div_iff₀ hd0]
    constructor
    · intro h
      have : (den : ℚ) < 2 * r := by exact_mod_cast h
      linarith
    · intro h
      have : (den : ℚ) < 2 * r := by linarith
      exact_mod_cast this
  have heq : 2 * r = den ↔ (r : ℚ) / den = 1 / 2 := by
    rw [div_eq_iff hd0.ne']
    constructor
    · intro h
      have : (2 : ℚ) * r = den := by exact_mod_cast h
      linarith
    · intro h
      have : (2 : ℚ) * r = den := by linarith
      exact_mod_cast this
  have hr0 : r ≠ 0 ↔ (r : ℚ) / den ≠ 0 := by
    rw [Ne, Ne, div_eq_zero_iff]
    constructor
    · intro h h1
      rcases h1 with h1 | h1
      · exact h (by exact_mod_cast h1)
      · exact hd0.ne' h1
    · intro h h1; exact h (Or.inl (by exact_mod_cast h1))
  refine ⟨e, m0, (r : ℚ) / den, (if den < 2 * r ∨ (2 * r = den ∧ m0 % 2 = 1) then m0 + 1 else m0),
    hρ0, hρ1, hx, he1, hm52, hm53, ?_, ?_⟩
  · by_cases hc : den < 2 * r ∨ (2 * r = den ∧ m0 % 2 = 1)
    · rw [if_pos hc]
      right
      refine ⟨rfl, ?_⟩
      rcases hc with hc | hc
      · exact Or.inl (hlt.mp hc)
      · exact Or.inr ⟨heq.mp hc.1, hc.2⟩
    · rw [if_neg hc]
      left
      refine ⟨rfl, ?_⟩
      simp only [not_or, not_and] at hc
      by_cases h2 : 2 * r = den
      · right
        exact ⟨heq.mp h2, by have := hc.2 h2; omega⟩
      · left
        have h3 : ¬ ((1 : ℚ) / 2 < (r : ℚ) / den) := mt hlt.mpr hc.1
        have h4 : (r : ℚ) / den ≠ 1 / 2 := mt heq.mpr h2
        exact lt_of_le_of_ne (not_lt.mp h3) h4
  · intro neg
    rw [round_eq neg p q hp.ne', he, hround]
    have : decide (r ≠ 0) = decide ((r : ℚ) / den ≠ 0) := by
      rw [decide_eq_decide]; exact hr0
    rw [this]

end F64
namespace F64

/-- No finite double lies strictly between two neighbours of the grid `2^e` that `round`
uses. -/
theorem grid (m0 : ℕ) (e : ℤ) (he : -1074 ≤ e) (hm : -1074 < e → 2 ^ 52 ≤ m0)
    (w : F64) (hw : w.Valid) (hf : w.isFinite = true) :
    w.toRat ≤ (m0 : ℚ) * (2 : ℚ) ^ e ∨ ((m0 : ℚ) + 1) * (2 : ℚ) ^ e ≤ w.toRat := by
  have two : (2 : ℚ) ≠ 0 := by norm_num
  have h2e := two_zpow_pos e
  cases w with
  | inf s => simp [isFinite] at hf
  | nan => simp [isFinite] at hf
  | fin s k f =>
    obtain ⟨hk, hf1, _, _⟩ := hw
    have h2f := two_zpow_pos f
    cases s with
    | true =>
      left
      simp only [toRat, if_true]
      have : (0 : ℚ) ≤ (k : ℚ) * (2 : ℚ) ^ f := by positivity
      have : (0 : ℚ) ≤ (m0 : ℚ) * (2 : ℚ) ^ e := by positivity
      linarith
    | false =>
      simp only [toRat, Bool.false_eq_true, if_false, one_mul]
      by_contra hcon
      simp only [not_or, not_le] at hcon
      obtain ⟨h1, h2⟩ := hcon
      have hef : e ≤ f := by
        by_cases h : -1074 < e
        · have hm0 := hm h
          have a1 : (2 : ℚ) ^ (52 : ℕ) * (2 : ℚ) ^ e ≤ (m0 : ℚ) * (2 : ℚ) ^ e :=
            mul_le_mul_of_nonneg_right (by exact_mod_cast hm0) h2e.le
          have a2 : (k : ℚ) * (2 : ℚ) ^ f < (2 : ℚ) ^ (53 : ℕ) * (2 : ℚ) ^ f :=
            mul_lt_mul_of_pos_right (by exact_mod_cast hk) h2f
          have a3 : (2 : ℚ) ^ ((52 : ℤ) + e) < (2 : ℚ) ^ ((53 : ℤ) + f) := by
            rw [zpow_add₀ two, zpow_add₀ two]
            have e1 : (2 : ℚ) ^ (52 : ℤ) = (2 : ℚ) ^ (52 : ℕ) := by norm_cast
            have e2 : (2 : ℚ) ^ (53 : ℤ) = (2 : ℚ) ^ (53 : ℕ) := by norm_cast
            rw [e1, e2]
            linarith
          have a4 := (zpow_lt_zpow_iff_right₀ (show (1 : ℚ) < 2 by norm_num)).mp a3
          omega
        · omega
      have hsplit : (2 : ℚ) ^ f = ((2 ^ (f - e).toNat : ℕ) : ℚ) * (2 : ℚ) ^ e := by
        rw [pow_toNat (f - e) (by omega), ← zpow_add₀ two]; congr 1; ring
      rw [hsplit, ← mul_assoc] at h1 h2
      have b1 : (m0 : ℚ) < (k : ℚ) * ((2 ^ (f - e).toNat : ℕ) : ℚ) := lt_of_mul_lt_mul_right h1 h2e.le
      have b2 : (k : ℚ) * ((2 ^ (f - e).toNat : ℕ) : ℚ) < (m0 : ℚ) + 1 := lt_of_mul_lt_mul_right h2 h2e.le
      have c1 : m0 < k * 2 ^ (f - e).toNat := by exact_mod_cast b1
      have c2 : k * 2 ^ (f - e).toNat < m0 + 1 := by exact_mod_cast b2
      omega

/-- The significand `m` that `round` chooses on the grid `2^e` gives the double nearest
to `x`. -/
theorem nearest_of_spec (x : ℚ) (e : ℤ) (m0 : ℕ) (ρ : ℚ) (m : ℕ)
    (hρ0 : 0 ≤ ρ) (hρ1 : ρ < 1) (hx : x = ((m0 : ℚ) + ρ) * (2 : ℚ) ^ e)
    (he : -1074 ≤ e) (hm : -1074 < e → 2 ^ 52 ≤ m0)
    (hch : (m = m0 ∧ (ρ < 1 / 2 ∨ (ρ = 1 / 2 ∧ m0 % 2 = 0))) ∨
      (m = m0 + 1 ∧ (1 / 2 < ρ ∨ (ρ = 1 / 2 ∧ m0 % 2 = 1))))
    (m1 : ℕ) (e1 : ℤ) (hval : (m1 : ℚ) * (2 : ℚ) ^ e1 = (m : ℚ) * (2 : ℚ) ^ e)
    (hvalid : (fin false m1 e1).Valid) (heven : m % 2 = 0 → m1 % 2 = 0) :
    IsNearest x (fin false m1 e1) := by
  have h2e := two_zpow_pos e
  refine ⟨hvalid, rfl, fun w hw hf => ?_⟩
  have hv : (fin false m1 e1).toRat = (m : ℚ) * (2 : ℚ) ^ e := by
    simp only [toRat, Bool.false_eq_true, if_false, one_mul]; exact hval
  rw [hv]
  have hg := grid m0 e he hm w hw hf
  generalize w.toRat = y at hg ⊢
  have hlo : (m0 : ℚ) * (2 : ℚ) ^ e = x - ρ * (2 : ℚ) ^ e := by rw [hx]; ring
  have hhi : ((m0 : ℚ) + 1) * (2 : ℚ) ^ e = x + (1 - ρ) * (2 : ℚ) ^ e := by rw [hx]; ring
  rw [hlo, hhi] at hg
  rcases hch with ⟨hm0, hc⟩ | ⟨hm0, hc⟩
  · -- rounded down
    have hvx : (m : ℚ) * (2 : ℚ) ^ e - x = -(ρ * (2 : ℚ) ^ e) := by
      rw [hm0, hlo]; ring
    have hρh : ρ ≤ 1 / 2 := by rcases hc with h | h; exact h.le; exact h.1.le
    have habs : |(m : ℚ) * (2 : ℚ) ^ e - x| = ρ * (2 : ℚ) ^ e := by
      rw [hvx, abs_neg, abs_of_nonneg (by positivity)]
    rw [habs]
    have hd : ρ * (2 : ℚ) ^ e ≤ (1 - ρ) * (2 : ℚ) ^ e :=
      mul_le_mul_of_nonneg_right (by linarith) h2e.le
    rcases hg with hg | hg
    · have hy : |y - x| = x - y := by
        rw [abs_of_nonpos (by nlinarith)]; ring
      rw [hy]
      refine ⟨by linarith, fun heq hne => ?_⟩
      exfalso; apply hne
      rw [hm0, hlo]; linarith
    · have hy : |y - x| = y - x := abs_of_nonneg (by nlinarith)
      rw [hy]
      refine ⟨by linarith, fun heq hne => ?_⟩
      have hρ : ρ = 1 / 2 := by
        have h3 : (1 - ρ) * (2 : ℚ) ^ e ≤ ρ * (2 : ℚ) ^ e := by linarith
        have h4 : 1 - ρ ≤ ρ := le_of_mul_le_mul_right h3 h2e
        linarith
      have hme : m0 % 2 = 0 := by
        rcases hc with h | h
        · rw [hρ] at h; exact absurd h (lt_irrefl _)
        · exact h.2
      exact ⟨false, m1, e1, rfl, heven (by rw [hm0]; exact hme)⟩
  · -- rounded up
    have hvx : (m : ℚ) * (2 : ℚ) ^ e - x = (1 - ρ) * (2 : ℚ) ^ e := by
      rw [hm0]; push_cast; rw [hhi]; ring
    have hρh : 1 / 2 ≤ ρ := by rcases hc with h | h; exact h.le; exact h.1.ge
    have habs : |(m : ℚ) * (2 : ℚ) ^ e - x| = (1 - ρ) * (2 : ℚ) ^ e := by
      rw [hvx, abs_of_nonneg (mul_nonneg (by linarith) h2e.le)]
    rw [habs]
    have hd : (1 - ρ) * (2 : ℚ) ^ e ≤ ρ * (2 : ℚ) ^ e :=
      mul_le_mul_of_nonneg_right (by linarith) h2e.le
    rcases hg with hg | hg
    · have hy : |y - x| = x - y := by
        rw [abs_of_nonpos (by nlinarith)]; ring
      rw [hy]
      refine ⟨by linarith, fun heq hne => ?_⟩
      have hρ : ρ = 1 / 2 := by
        have h3 : ρ * (2 : ℚ) ^ e ≤ (1 - ρ) * (2 : ℚ) ^ e := by linarith
        have h4 : ρ ≤ 1 - ρ := le_of_mul_le_mul_right h3 h2e
        linarith
      have hme : m0 % 2 = 1 := by
        rcases hc with h | h
        · rw [hρ] at h; exact absurd h (lt_irrefl _)
        · exact h.2
      exact ⟨false, m1, e1, rfl, heven (by rw [hm0]; omega)⟩
    · have hy : |y - x| = y - x := by
        apply abs_of_nonneg
        have : 0 ≤ (1 - ρ) * (2 : ℚ) ^ e := mul_nonneg (by linarith) h2e.le
        linarith
      rw [hy]
      refine ⟨by linarith, fun heq hne => ?_⟩
      exfalso; apply hne
      rw [hm0]; push_cast; rw [hhi]; linarith

end F64
namespace F64

/-- A finite result of `round` on `p / q > 0`, with the data of `round_spec`. -/
theorem round_fin (neg : Bool) (p q : ℕ) (hp : 0 < p) (hq : 0 < q) {v : F64} {b : Bool}
    (h : round neg p q = (v, b)) (hf : v.isFinite = true) :
    ∃ (e : ℤ) (m0 : ℕ) (ρ : ℚ) (m m1 : ℕ) (e1 : ℤ),
      0 ≤ ρ ∧ ρ < 1 ∧ (p : ℚ) / q = ((m0 : ℚ) + ρ) * (2 : ℚ) ^ e ∧
      -1074 ≤ e ∧ (-1074 < e → 2 ^ 52 ≤ m0) ∧ m0 < 2 ^ 53 ∧
      ((m = m0 ∧ (ρ < 1 / 2 ∨ (ρ = 1 / 2 ∧ m0 % 2 = 0))) ∨
        (m = m0 + 1 ∧ (1 / 2 < ρ ∨ (ρ = 1 / 2 ∧ m0 % 2 = 1)))) ∧
      v = .fin neg m1 e1 ∧ v.Valid ∧ (m1 : ℚ) * (2 : ℚ) ^ e1 = (m : ℚ) * (2 : ℚ) ^ e ∧
      (m % 2 = 0 → m1 % 2 = 0) ∧ b = decide (ρ ≠ 0) := by
  obtain ⟨e, m0, ρ, m, hρ0, hρ1, hx, he, hm52, hm53, hch, hr⟩ := round_spec p q hp hq
  rw [hr neg] at h
  have hmle : m ≤ 2 ^ 53 := by rcases hch with ⟨h1, _⟩ | ⟨h1, _⟩ <;> omega
  have hmge : m0 ≤ m := by rcases hch with ⟨h1, _⟩ | ⟨h1, _⟩ <;> omega
  by_cases hov : 971 < (if m = 2 ^ 53 then e + 1 else e)
  · rw [if_pos hov] at h
    injection h with h1 h2
    subst h1
    simp [isFinite] at hf
  · rw [if_neg hov] at h
    injection h with h1 h2
    refine ⟨e, m0, ρ, m, _, _, hρ0, hρ1, hx, he, hm52, hm53, hch, h1.symm, ?_, ?_, ?_, h2.symm⟩
    · rw [← h1]
      by_cases h53 : m = 2 ^ 53
      · simp only [h53, if_true] at hov ⊢
        exact ⟨by norm_num, by omega, by omega, Or.inl (le_refl _)⟩
      · simp only [h53, if_false] at hov ⊢
        refine ⟨by omega, he, by omega, ?_⟩
        by_cases h74 : -1074 < e
        · left; have := hm52 h74; omega
        · right; omega
    · by_cases h53 : m = 2 ^ 53
      · simp only [h53, if_true]
        rw [zpow_add₀ (by norm_num : (2 : ℚ) ≠ 0)]
        push_cast
        ring
      · simp only [h53, if_false]
    · intro hev
      by_cases h53 : m = 2 ^ 53
      · simp only [h53, if_true]; norm_num
      · simp only [h53, if_false]; exact hev

/-- A finite result of `round false` is the double nearest to `p / q`. -/
theorem round_nearest (p q : ℕ) (hp : 0 < p) (hq : 0 < q) {v : F64} {b : Bool}
    (h : round false p q = (v, b)) (hf : v.isFinite = true) : IsNearest ((p : ℚ) / q) v := by
  obtain ⟨e, m0, ρ, m, m1, e1, hρ0, hρ1, hx, he, hm52, _, hch, hv, hvalid, hval, hev, _⟩ :=
    round_fin false p q hp hq h hf
  subst hv
  exact nearest_of_spec _ e m0 ρ m hρ0 hρ1 hx he hm52 hch m1 e1 hval hvalid hev

end F64
namespace F64

theorem digitsVal_foldl (ds : List Char) (acc : ℕ) :
    ds.foldl (fun acc c => 10 * acc + (c.toNat - 48)) acc
      = acc * 10 ^ ds.length + digitsVal ds := by
  unfold digitsVal
  induction ds generalizing acc with
  | nil => simp
  | cons c cs ih =>
    simp only [List.foldl_cons, List.length_cons]
    rw [ih (10 * acc + (c.toNat - 48)), ih (10 * 0 + (c.toNat - 48))]
    ring

theorem digitsVal_cons (c : Char) (cs : List Char) :
    digitsVal (c :: cs) = (c.toNat - 48) * 10 ^ cs.length + digitsVal cs := by
  have := digitsVal_foldl cs (10 * 0 + (c.toNat - 48))
  simp only [Nat.mul_zero, Nat.zero_add] at this
  unfold digitsVal at this ⊢
  simp only [List.foldl_cons, Nat.mul_zero, Nat.zero_add]
  exact this

theorem digitsVal_append (a b : List Char) :
    digitsVal (a ++ b) = digitsVal a * 10 ^ b.length + digitsVal b := by
  have := digitsVal_foldl b (digitsVal a)
  unfold digitsVal at this ⊢
  rw [List.foldl_append]
  exact this

theorem intValue_eq (ds : List Char) : intValue ds = (digitsVal ds : ℚ) := by
  unfold intValue digitsVal
  have : ∀ (acc : ℕ), ds.foldl (fun acc c => 10 * acc + (digit c : ℚ)) (acc : ℚ)
      = ((ds.foldl (fun acc c => 10 * acc + (c.toNat - 48)) acc : ℕ) : ℚ) := by
    induction ds with
    | nil => intro acc; rfl
    | cons c cs ih =>
      intro acc
      simp only [List.foldl_cons]
      rw [← ih]
      congr 1
      simp only [digit]
      push_cast
      rfl
  exact_mod_cast this 0

theorem fracValue_eq (ds : List Char) :
    fracValue ds = (digitsVal ds : ℚ) / (10 : ℚ) ^ ds.length := by
  induction ds with
  | nil => simp [fracValue, digitsVal]
  | cons c cs ih =>
    rw [fracValue, ih, digitsVal_cons]
    have hd : digit c = c.toNat - 48 := rfl
    rw [hd]
    simp only [List.length_cons]
    have h10 : ((10 : ℚ) ^ cs.length) ≠ 0 := by positivity
    rw [Nat.cast_add, Nat.cast_mul]
    generalize ((c.toNat - 48 : ℕ) : ℚ) = d
    generalize ((digitsVal cs : ℕ) : ℚ) = D
    push_cast
    rw [pow_succ, add_div' _ _ _ h10, div_div]

/-- The quotient that `stod` rounds is the decimal value of the literal. -/
theorem decimalValue_eq (ds : List Char) :
    decimalValue ds =
      (digitsVal (ds.takeWhile (fun c => c ≠ '.') ++ (ds.dropWhile (fun c => c ≠ '.')).drop 1) : ℚ)
        / ((10 ^ ((ds.dropWhile (fun c => c ≠ '.')).drop 1).length : ℕ) : ℚ) := by
  unfold decimalValue
  rw [intValue_eq, fracValue_eq, digitsVal_append]
  have h10 : ((10 : ℚ) ^ ((ds.dropWhile (fun c => c ≠ '.')).drop 1).length) ≠ 0 := by positivity
  push_cast
  field_simp

end F64
namespace F64

theorem zpow_mono {a b : ℤ} (h : a ≤ b) : (2 : ℚ) ^ a ≤ (2 : ℚ) ^ b :=
  zpow_le_zpow_right₀ (by norm_num) h

theorem threshold_aux (a : ℤ) :
    (2 : ℚ) ^ (a + 53) - (2 : ℚ) ^ (a - 1) = ((2 : ℚ) ^ (53 : ℕ) - 1 / 2) * (2 : ℚ) ^ a := by
  have two : (2 : ℚ) ≠ 0 := by norm_num
  have a53 : (2 : ℚ) ^ (53 : ℤ) = (2 : ℚ) ^ (53 : ℕ) := by norm_cast
  rw [zpow_add₀ two, zpow_sub₀ two, zpow_one, a53]
  ring

theorem threshold_eq :
    (2 : ℚ) ^ (1024 : ℤ) - (2 : ℚ) ^ (970 : ℤ)
      = ((2 : ℚ) ^ (53 : ℕ) - 1 / 2) * (2 : ℚ) ^ (971 : ℤ) :=
  threshold_aux 971

/-- `round` overflows exactly from the threshold `2^1024 - 2^970` on. -/
theorem overflow_iff (x : ℚ) (e : ℤ) (m0 : ℕ) (ρ : ℚ) (m : ℕ)
    (hρ0 : 0 ≤ ρ) (hρ1 : ρ < 1) (hx : x = ((m0 : ℚ) + ρ) * (2 : ℚ) ^ e)
    (hm52 : -1074 < e → 2 ^ 52 ≤ m0) (hm53 : m0 < 2 ^ 53)
    (hch : (m = m0 ∧ (ρ < 1 / 2 ∨ (ρ = 1 / 2 ∧ m0 % 2 = 0))) ∨
      (m = m0 + 1 ∧ (1 / 2 < ρ ∨ (ρ = 1 / 2 ∧ m0 % 2 = 1)))) :
    971 < (if m = 2 ^ 53 then e + 1 else e) ↔
      (2 : ℚ) ^ (1024 : ℤ) - (2 : ℚ) ^ (970 : ℤ) ≤ x := by
  rw [threshold_eq]
  have h2e := two_zpow_pos e
  have h971 := two_zpow_pos 971
  have hm53q : (m0 : ℚ) ≤ (2 : ℚ) ^ (53 : ℕ) - 1 := by
    have : m0 + 1 ≤ 2 ^ 53 := hm53
    have : ((m0 + 1 : ℕ) : ℚ) ≤ ((2 ^ 53 : ℕ) : ℚ) := by exact_mod_cast this
    push_cast at this; linarith
  have hbig : (1 : ℚ) ≤ (2 : ℚ) ^ (53 : ℕ) - 1 := by norm_num
  constructor
  · intro h
    by_cases h53 : m = 2 ^ 53
    · rw [if_pos h53] at h
      have hm0 : m0 + 1 = 2 ^ 53 := by
        rcases hch with ⟨h1, _⟩ | ⟨h1, _⟩ <;> omega
      have hρ : 1 / 2 ≤ ρ := by
        rcases hch with ⟨h1, _⟩ | ⟨_, h2⟩
        · omega
        · rcases h2 with h2 | h2
          · exact h2.le
          · exact h2.1.ge
      have hm0q : (m0 : ℚ) = (2 : ℚ) ^ (53 : ℕ) - 1 := by
        have : ((m0 + 1 : ℕ) : ℚ) = ((2 ^ 53 : ℕ) : ℚ) := by exact_mod_cast hm0
        push_cast at this; linarith
      rw [hx, hm0q]
      calc ((2 : ℚ) ^ (53 : ℕ) - 1 / 2) * (2 : ℚ) ^ (971 : ℤ)
          ≤ ((2 : ℚ) ^ (53 : ℕ) - 1 / 2) * (2 : ℚ) ^ e :=
            mul_le_mul_of_nonneg_left (zpow_mono (by omega)) (by linarith)
        _ ≤ ((2 : ℚ) ^ (53 : ℕ) - 1 + ρ) * (2 : ℚ) ^ e :=
            mul_le_mul_of_nonneg_right (by linarith) h2e.le
    · rw [if_neg h53] at h
      have hm0 := hm52 (by omega)
      have hm0q : (2 : ℚ) ^ (52 : ℕ) ≤ (m0 : ℚ) := by exact_mod_cast hm0
      rw [hx]
      calc ((2 : ℚ) ^ (53 : ℕ) - 1 / 2) * (2 : ℚ) ^ (971 : ℤ)
          ≤ (2 : ℚ) ^ (53 : ℕ) * (2 : ℚ) ^ (971 : ℤ) :=
            mul_le_mul_of_nonneg_right (by linarith) h971.le
        _ = (2 : ℚ) ^ (52 : ℕ) * (2 : ℚ) ^ (972 : ℤ) := by
            rw [show (972 : ℤ) = 971 + 1 by norm_num, zpow_add₀ (by norm_num : (2 : ℚ) ≠ 0)]
            rw [show (53 : ℕ) = 52 + 1 by norm_num, pow_succ]; ring
        _ ≤ (2 : ℚ) ^ (52 : ℕ) * (2 : ℚ) ^ e :=
            mul_le_mul_of_nonneg_left (zpow_mono (by omega)) (by positivity)
        _ ≤ ((m0 : ℚ) + ρ) * (2 : ℚ) ^ e :=
            mul_le_mul_of_nonneg_right (by linarith) h2e.le
  · intro h
    by_contra hle
    rw [not_lt] at hle
    have hlt : x < ((2 : ℚ) ^ (53 : ℕ) - 1 / 2) * (2 : ℚ) ^ (971 : ℤ) := by
      rw [hx]
      by_cases h53 : m = 2 ^ 53
      · rw [if_pos h53] at hle
        calc ((m0 : ℚ) + ρ) * (2 : ℚ) ^ e
            < (2 : ℚ) ^ (53 : ℕ) * (2 : ℚ) ^ e :=
              mul_lt_mul_of_pos_right (by linarith) h2e
          _ ≤ (2 : ℚ) ^ (53 : ℕ) * (2 : ℚ) ^ (970 : ℤ) :=
              mul_le_mul_of_nonneg_left (zpow_mono (by omega)) (by positivity)
          _ = (2 : ℚ) ^ (53 : ℕ) * (1 / 2) * (2 : ℚ) ^ (971 : ℤ) := by
              rw [show (971 : ℤ) = 970 + 1 by norm_num, zpow_add₀ (by norm_num : (2 : ℚ) ≠ 0)]
              ring
          _ < ((2 : ℚ) ^ (53 : ℕ) - 1 / 2) * (2 : ℚ) ^ (971 : ℤ) :=
              mul_lt_mul_of_pos_right (by norm_num) h971
      · rw [if_neg h53] at hle
        have hstep : (m0 : ℚ) + ρ < (2 : ℚ) ^ (53 : ℕ) - 1 / 2 := by
          rcases hch with ⟨h1, h2⟩ | ⟨h1, _⟩
          · by_cases hodd : m0 % 2 = 1
            · have : ρ < 1 / 2 := by
                rcases h2 with h2 | h2
                · exact h2
                · omega
              linarith
            · have : m0 ≠ 2 ^ 53 - 1 := by omega
              have : m0 + 2 ≤ 2 ^ 53 := by omega
              have : ((m0 + 2 : ℕ) : ℚ) ≤ ((2 ^ 53 : ℕ) : ℚ) := by exact_mod_cast this
              push_cast at this; linarith
          · have : m0 + 2 ≤ 2 ^ 53 := by omega
            have : ((m0 + 2 : ℕ) : ℚ) ≤ ((2 ^ 53 : ℕ) : ℚ) := by exact_mod_cast this
            push_cast at this; linarith
        calc ((m0 : ℚ) + ρ) * (2 : ℚ) ^ e
            < ((2 : ℚ) ^ (53 : ℕ) - 1 / 2) * (2 : ℚ) ^ e :=
              mul_lt_mul_of_pos_right hstep h2e
          _ ≤ ((2 : ℚ) ^ (53 : ℕ) - 1 / 2) * (2 : ℚ) ^ (971 : ℤ) :=
              mul_le_mul_of_nonneg_left (zpow_mono hle) (by linarith)
    linarith

/-- Below `2^-1022` the grid of `round` is `2^-1074`. -/
theorem subnormal_grid (x : ℚ) (e : ℤ) (m0 : ℕ) (ρ : ℚ) (hρ0 : 0 ≤ ρ)
    (hx : x = ((m0 : ℚ) + ρ) * (2 : ℚ) ^ e) (he : -1074 ≤ e)
    (hm52 : -1074 < e → 2 ^ 52 ≤ m0) (hlt : x < (2 : ℚ) ^ (-1022 : ℤ)) : e = -1074 := by
  by_contra hne
  have h1 : -1074 < e := by omega
  have hm0q : (2 : ℚ) ^ (52 : ℕ) ≤ (m0 : ℚ) := by exact_mod_cast hm52 h1
  have h2e := two_zpow_pos e
  have : (2 : ℚ) ^ (-1022 : ℤ) ≤ x := by
    rw [hx]
    calc (2 : ℚ) ^ (-1022 : ℤ) ≤ (2 : ℚ) ^ ((52 : ℤ) + e) := zpow_mono (by omega)
      _ = (2 : ℚ) ^ (52 : ℕ) * (2 : ℚ) ^ e := by
          rw [zpow_add₀ (by norm_num : (2 : ℚ) ≠ 0)]; norm_cast
      _ ≤ ((m0 : ℚ) + ρ) * (2 : ℚ) ^ e :=
          mul_le_mul_of_nonneg_right (by linarith) h2e.le
  linarith

set_option exponentiation.threshold 2000 in
/-- The underflow test of `stod`, as a comparison of numbers. -/
theorem tiny_iff (p q : ℕ) (hq : 0 < q) :
    p * 2 ^ 1076 < q * (2 ^ 54 - 1) ↔
      (p : ℚ) / q < (2 : ℚ) ^ (-1022 : ℤ) - (2 : ℚ) ^ (-1076 : ℤ) := by
  have hq0 : (0 : ℚ) < q := by exact_mod_cast hq
  have h76 := two_zpow_pos 1076
  have e1 : (2 : ℚ) ^ (-1022 : ℤ) - (2 : ℚ) ^ (-1076 : ℤ)
      = ((2 : ℚ) ^ (54 : ℕ) - 1) / (2 : ℚ) ^ (1076 : ℕ) := by
    rw [sub_div, eq_comm]
    congr 1
    · rw [← zpow_natCast, ← zpow_natCast, ← zpow_sub₀ (by norm_num : (2 : ℚ) ≠ 0)]; norm_num
    · rw [zpow_neg, one_div]; norm_cast
  rw [e1, div_lt_div_iff₀ hq0 (by positivity)]
  constructor
  · intro h
    have : ((p * 2 ^ 1076 : ℕ) : ℚ) < ((q * (2 ^ 54 - 1) : ℕ) : ℚ) := by exact_mod_cast h
    push_cast at this
    linarith
  · intro h
    have : ((p * 2 ^ 1076 : ℕ) : ℚ) < ((q * (2 ^ 54 - 1) : ℕ) : ℚ) := by
      push_cast; linarith
    exact_mod_cast this

end F64
namespace F64

/-- The digits of a literal, without its `.`: they are digits, they are of the literal,
and every digit of the literal is among them. -/
theorem literal_digits (ds : List Char) (h1 : ∀ c ∈ ds, isdigit c = true ∨ c = '.')
    (h2 : ds.count '.' ≤ 1) :
    (∀ c ∈ ds.takeWhile (fun c => c ≠ '.') ++ (ds.dropWhile (fun c => c ≠ '.')).drop 1,
      isdigit c = true ∧ c ∈ ds) ∧
    (∀ c ∈ ds, isdigit c = true →
      c ∈ ds.takeWhile (fun c => c ≠ '.') ++ (ds.dropWhile (fun c => c ≠ '.')).drop 1) := by
  induction ds with
  | nil => simp
  | cons d ds ih =>
    have hd := h1 d (List.mem_cons_self _ _)
    have hds : ∀ c ∈ ds, isdigit c = true ∨ c = '.' := fun c hc => h1 c (List.mem_cons_of_mem _ hc)
    by_cases hdot : d = '.'
    · subst hdot
      rw [List.count_cons_self] at h2
      have hnd : ∀ c ∈ ds, isdigit c = true := by
        intro c hc
        rcases hds c hc with h | h
        · exact h
        · subst h
          have := List.count_pos_iff.mpr hc
          omega
      simp only [ne_eq, not_true_eq_false, decide_False, Bool.false_eq_true, not_false_eq_true,
        List.takeWhile_cons_of_neg, List.dropWhile_cons_of_neg, List.drop_succ_cons,
        List.drop_zero, List.nil_append]
      refine ⟨fun c hc => ⟨hnd c hc, List.mem_cons_of_mem _ hc⟩, fun c hc hdg => ?_⟩
      rcases List.mem_cons.mp hc with h | h
      · subst h; exact absurd hdg (by decide)
      · exact h
    · rw [List.count_cons_of_ne (Ne.symm hdot)] at h2
      obtain ⟨ih1, ih2⟩ := ih hds h2
      have hdd : isdigit d = true := by
        rcases hd with h | h
        · exact h
        · exact absurd h hdot
      simp only [ne_eq, hdot, not_false_eq_true, decide_True, List.takeWhile_cons_of_pos,
        List.dropWhile_cons_of_pos, List.cons_append]
      simp only [ne_eq] at ih1 ih2
      refine ⟨fun c hc => ?_, fun c hc hdg => ?_⟩
      · rcases List.mem_cons.mp hc with h | h
        · subst h; exact ⟨hdd, List.mem_cons_self _ _⟩
        · exact ⟨(ih1 c h).1, List.mem_cons_of_mem _ (ih1 c h).2⟩
      · rcases List.mem_cons.mp hc with h | h
        · subst h; exact List.mem_cons_self _ _
        · exact List.mem_cons_of_mem _ (ih2 c h hdg)

theorem isNearest_zero : IsNearest 0 (fin false 0 (-1074)) := by
  refine ⟨⟨by norm_num, le_refl _, by norm_num, Or.inr rfl⟩, rfl, fun w _ _ => ?_⟩
  simp only [toRat, Nat.cast_zero, zero_mul, mul_zero, sub_zero, abs_zero]
  refine ⟨abs_nonneg _, fun h hne => ?_⟩
  exact absurd (abs_eq_zero.mp h) hne

theorem converts_zero : Converts 0 :=
  ⟨by rw [threshold_eq]; exact mul_pos (by norm_num) (two_zpow_pos _),
    Or.inr ⟨0, by simp⟩⟩

theorem round_zero (neg : Bool) (q : ℕ) : round neg 0 q = (fin neg 0 (-1074), false) := by
  unfold round; rfl

end F64
namespace F64

set_option exponentiation.threshold 2000 in
/-- `stod` on a literal: what it returns is the double nearest to the decimal value of
the literal, with the sign bit clear, and it fails exactly when the literal has no digit or its decimal value is
one the conversion does not accept (overflow, underflow). -/
theorem stod_spec (ds : List Char) (h1 : ∀ c ∈ ds, isdigit c = true ∨ c = '.')
    (h2 : ds.count '.' ≤ 1) :
    (∀ v, stod ds = some v → IsNearest (decimalValue ds) v ∧ ∃ m e, v = .fin false m e) ∧
    (stod ds = none ↔ (∀ c ∈ ds, isdigit c = false) ∨ ¬ Converts (decimalValue ds)) := by
  obtain ⟨hL1, hL2⟩ := literal_digits ds h1 h2
  have hx := decimalValue_eq ds
  unfold stod
  simp only []
  generalize hL : ds.takeWhile (fun c => c ≠ '.') ++ (ds.dropWhile (fun c => c ≠ '.')).drop 1
    = L at hL1 hL2 hx
  generalize ((ds.dropWhile (fun c => c ≠ '.')).drop 1).length = n at hx
  generalize decimalValue ds = x at hx
  have hall : L.all isdigit = true := by
    rw [List.all_eq_true]; exact fun c hc => (hL1 c hc).1
  by_cases hem : L = []
  · subst hem
    simp only [List.all_nil, List.isEmpty_nil, Bool.not_true, Bool.and_false, Bool.false_eq_true,
      if_false, reduceCtorEq, false_implies, implies_true, true_and, true_iff]
    left
    intro c hc
    cases hd : isdigit c with
    | false => rfl
    | true => exact absurd (hL2 c hc hd) (List.not_mem_nil _)
  · have hne : L.isEmpty = false := by
      cases L with
      | nil => exact absurd rfl hem
      | cons _ _ => rfl
    have hdig : ¬ ∀ c ∈ ds, isdigit c = false := by
      intro hno
      cases L with
      | nil => exact absurd rfl hem
      | cons c cs =>
        have := hL1 c (List.mem_cons_self _ _)
        rw [hno c this.2] at this
        exact absurd this.1 (by decide)
    simp only [hall, hne, Bool.not_false, Bool.and_self, if_true, hdig, false_or]
    have hq : 0 < 10 ^ n := by positivity
    by_cases hp : digitsVal L = 0
    · rw [hp] at hx
      rw [hp, round_zero]
      simp only [Bool.false_eq_true, and_false, if_false, Option.some.injEq, reduceCtorEq,
        false_iff, not_not]
      have hx0 : x = 0 := by rw [hx]; simp
      rw [hx0]
      exact ⟨fun v hv => hv ▸ ⟨isNearest_zero, 0, -1074, rfl⟩, converts_zero⟩
    · have hp0 : 0 < digitsVal L := Nat.pos_of_ne_zero hp
      obtain ⟨e, m0, ρ, m, hρ0, hρ1, hxe, he, hm52, hm53, hch, hr⟩ :=
        round_spec (digitsVal L) (10 ^ n) hp0 hq
      rw [← hx] at hxe
      have hov := overflow_iff x e m0 ρ m hρ0 hρ1 hxe hm52 hm53 hch
      have htiny := tiny_iff (digitsVal L) (10 ^ n) hq
      rw [← hx] at htiny
      cases hround : round false (digitsVal L) (10 ^ n) with
      | mk v b =>
        cases v with
        | inf s =>
          simp only [reduceCtorEq, false_implies, implies_true, true_and, true_iff]
          intro hc
          have h3 := hr false
          rw [hround] at h3
          by_cases h971 : 971 < (if m = 2 ^ 53 then e + 1 else e)
          · exact absurd (hov.mp h971) (not_le.mpr hc.1)
          · rw [if_neg h971] at h3; cases h3
        | nan =>
          exfalso
          have h3 := hr false
          rw [hround] at h3
          by_cases h971 : 971 < (if m = 2 ^ 53 then e + 1 else e)
          · rw [if_pos h971] at h3; cases h3
          · rw [if_neg h971] at h3; cases h3
        | fin s m1 e1 =>
          obtain ⟨_, _, _, _, m2, e2, _, _, _, _, _, _, _, hsgn, _⟩ :=
            round_fin false _ _ hp0 hq hround rfl
          have hnear := round_nearest _ _ hp0 hq hround rfl
          rw [← hx] at hnear
          have h3 := hr false
          rw [hround] at h3
          have h971 : ¬ 971 < (if m = 2 ^ 53 then e + 1 else e) := by
            intro h; rw [if_pos h] at h3; cases h3
          rw [if_neg h971] at h3
          have hb : b = decide (ρ ≠ 0) := by injection h3
          have hnov : x < (2 : ℚ) ^ (1024 : ℤ) - (2 : ℚ) ^ (970 : ℤ) :=
            not_le.mp (mt hov.mpr h971)
          simp only []
          by_cases hun : digitsVal L * 2 ^ 1076 < 10 ^ n * (2 ^ 54 - 1) ∧ b = true
          · rw [if_pos hun]
            simp only [reduceCtorEq, false_implies, implies_true, true_and, true_iff]
            intro hc
            have hlt := htiny.mp hun.1
            rcases hc.2 with hc2 | ⟨k, hk⟩
            · exact absurd hc2 (not_le.mpr hlt)
            · have he74 : e = -1074 :=
                subnormal_grid x e m0 ρ hρ0 hxe he hm52
                  (lt_trans hlt (sub_lt_self _ (two_zpow_pos _)))
              have hρne : ρ ≠ 0 := by
                have := hun.2; rw [hb] at this; exact of_decide_eq_true this
              rw [he74] at hxe
              rw [hxe] at hk
              have hkk : (m0 : ℚ) + ρ = k := mul_right_cancel₀ (two_zpow_pos _).ne' hk
              have a1 : (m0 : ℚ) ≤ (k : ℚ) := by rw [← hkk]; linarith
              have a2 : (k : ℚ) < (m0 : ℚ) + 1 := by rw [← hkk]; linarith
              have a3 : m0 ≤ k := by exact_mod_cast a1
              have a4 : k < m0 + 1 := by exact_mod_cast a2
              have a5 : k = m0 := by omega
              rw [a5] at hkk
              exact hρne (by linarith)
          · rw [if_neg hun]
            simp only [Option.some.injEq, reduceCtorEq, false_iff, not_not]
            refine ⟨fun v hv => hv ▸ ⟨hnear, m2, e2, hsgn⟩, hnov, ?_⟩
            by_cases ht : digitsVal L * 2 ^ 1076 < 10 ^ n * (2 ^ 54 - 1)
            · right
              have hb0 : b = false := by
                cases b with
                | false => rfl
                | true => exact absurd ⟨ht, rfl⟩ hun
              have hρ : ρ = 0 := by
                rw [hb] at hb0
                have := of_decide_eq_false hb0
                exact not_not.mp this
              have he74 : e = -1074 :=
                subnormal_grid x e m0 ρ hρ0 hxe he hm52
                  (lt_trans (htiny.mp ht) (sub_lt_self _ (two_zpow_pos _)))
              exact ⟨m0, by rw [hxe, hρ, he74, add_zero]⟩
            · left
              exact not_lt.mp (mt htiny.mpr ht)

end F64

namespace F64

/-- A number between two powers of two of the normal range is one the conversion
accepts. -/
theorem converts_of_bounds {x : ℚ} (a b : ℤ) (ha : -1022 ≤ a) (hb : b ≤ 1023)
    (h1 : (2 : ℚ) ^ a ≤ x) (h2 : x ≤ (2 : ℚ) ^ b) : Converts x := by
  have two : (2 : ℚ) ≠ 0 := by norm_num
  constructor
  · rw [threshold_eq]
    have h3 : (2 : ℚ) ^ (1023 : ℤ) = (2 : ℚ) ^ (52 : ℕ) * (2 : ℚ) ^ (971 : ℤ) := by
      have := zpow_add₀ two 52 971
      rw [show (2 : ℚ) ^ (52 : ℤ) = (2 : ℚ) ^ (52 : ℕ) by norm_cast] at this
      exact this
    calc x ≤ (2 : ℚ) ^ b := h2
      _ ≤ (2 : ℚ) ^ (1023 : ℤ) := zpow_mono hb
      _ = (2 : ℚ) ^ (52 : ℕ) * (2 : ℚ) ^ (971 : ℤ) := h3
      _ < ((2 : ℚ) ^ (53 : ℕ) - 1 / 2) * (2 : ℚ) ^ (971 : ℤ) :=
          mul_lt_mul_of_pos_right (by norm_num) (two_zpow_pos _)
  · left
    calc (2 : ℚ) ^ (-1022 : ℤ) - (2 : ℚ) ^ (-1076 : ℤ) ≤ (2 : ℚ) ^ (-1022 : ℤ) :=
          (sub_lt_self _ (two_zpow_pos _)).le
      _ ≤ (2 : ℚ) ^ a := zpow_mono ha
      _ ≤ x := h1

end F64

/-! ## Binary64: the operations of the formatting in `main` -/

namespace F64

end F64
namespace F64

end F64
namespace F64

end F64

/-! ## C10: the value of a number token -/

/-- A call of `nextToken` before white space and a number literal that the text behind
it does not continue: the cursor ends behind the literal, and the call returns what
`stod` gives for exactly the literal, or the error of `stod`. -/
theorem nextToken_literal {α : Type} (A : Arith α) (pre ws ds rest : List Char)
    (hws : ∀ c ∈ ws, isspace c = true) (hds : NumberLiteral ds)
    (hstop : ∀ d, rest.head? = some d → isdigit d = false ∧ (d = '.' → '.' ∈ ds)) :
    Lexer.nextToken A ⟨pre ++ (ws ++ (ds ++ rest)), pre.length⟩ =
      (⟨pre ++ (ws ++ (ds ++ rest)), pre.length + ws.length + ds.length⟩,
        match A.stod ds with
        | some v => .ok ⟨.NUMBER, v⟩
        | none => .error (.InvalidNumber ds)) := by
  obtain ⟨hne, hall, hcount⟩ := hds
  rw [nextToken_eq_lexText, List.drop_left, lexText_wss A hws]
  cases ds with
  | nil => exact absurd rfl hne
  | cons c cs =>
    have hc := hall c (List.mem_cons_self _ _)
    have hlen : scanNumber (cs ++ rest) 0 (decide (c = '.')) = cs.length := by
      refine scanNumber_run cs rest _ (fun d hd => hall d (List.mem_cons_of_mem _ hd)) ?_ ?_
      · by_cases hd : c = '.'
        · subst hd; rw [List.count_cons_self] at hcount; simp; omega
        · rw [List.count_cons_of_ne (Ne.symm hd)] at hcount; simp [hd]; omega
      · intro d hd
        obtain ⟨g1, g2⟩ := hstop d hd
        refine ⟨g1, fun hdot => ?_⟩
        have := g2 hdot
        simp only [List.mem_cons] at this
        rcases this with g | g
        · exact Or.inl (by simp [g.symm])
        · exact Or.inr g
    rw [List.cons_append, lexText_number A c (cs ++ rest) hc, hlen]
    have htake : List.take (cs.length + 1) (c :: (cs ++ rest)) = c :: cs := by
      rw [← List.cons_append, ← List.length_cons c cs, List.take_left]
    rw [htake]
    simp only [List.length_cons, Nat.add_assoc]

/-- C10 (amended). For every number literal `ds` (decimal digits with at most one `.`)
that the text behind it does not continue, read under the binary64 interpretation after
any white space: if `ds` has a digit and its decimal value is one the conversion accepts
(below the overflow threshold `2^1024 - 2^970` and not an underflow), then `nextToken`
returns a `NUMBER` token that carries the double nearest to the decimal value of `ds`
(the one with the even significand when two are as near), with the sign bit clear, and
leaves the cursor behind the literal; otherwise it fails with `InvalidNumber`. -/
theorem C10_number_token (pre ws ds rest : List Char)
    (hws : ∀ c ∈ ws, isspace c = true) (hds : NumberLiteral ds)
    (hstop : ∀ d, rest.head? = some d → isdigit d = false ∧ (d = '.' → '.' ∈ ds)) :
    ((∃ c ∈ ds, isdigit c = true) ∧ Converts (decimalValue ds) →
      ∃ v : F64,
        Lexer.nextToken F64.arith ⟨pre ++ (ws ++ (ds ++ rest)), pre.length⟩ =
          (⟨pre ++ (ws ++ (ds ++ rest)), pre.length + ws.length + ds.length⟩,
            .ok ⟨.NUMBER, v⟩) ∧
        F64.IsNearest (decimalValue ds) v ∧ ∃ m e, v = .fin false m e) ∧
    (¬((∃ c ∈ ds, isdigit c = true) ∧ Converts (decimalValue ds)) →
      Lexer.nextToken F64.arith ⟨pre ++ (ws ++ (ds ++ rest)), pre.length⟩ =
        (⟨pre ++ (ws ++ (ds ++ rest)), pre.length + ws.length + ds.length⟩,
          .error (.InvalidNumber ds))) := by
  have hlex := nextToken_literal F64.arith pre ws ds rest hws hds hstop
  have hst : F64.arith.stod ds = F64.stod ds := rfl
  rw [hst] at hlex
  obtain ⟨hnear, hnone⟩ := F64.stod_spec ds hds.2.1 hds.2.2
  constructor
  · rintro ⟨⟨c, hc, hdig⟩, hconv⟩
    cases hs : F64.stod ds with
    | none =>
      exfalso
      rcases hnone.mp hs with h | h
      · rw [h c hc] at hdig; cases hdig
      · exact h hconv
    | some v =>
      rw [hs] at hlex
      exact ⟨v, hlex, hnear v hs⟩
  · intro hnot
    have hs : F64.stod ds = none := by
      rw [hnone]
      by_cases hconv : Converts (decimalValue ds)
      · left
        intro c hc
        cases hd : isdigit c with
        | false => rfl
        | true => exact absurd ⟨⟨c, hc, hd⟩, hconv⟩ hnot
      · exact Or.inr hconv
    rw [hs] at hlex
    exact hlex

set_option exponentiation.threshold 3000 in
set_option maxRecDepth 100000 in
/-- C10 at `.5`: its decimal value is 1/2, which the conversion accepts, so the token
carries the double nearest to 1/2; evaluated, that is 0.5 (`2^52 * 2^-53`), and the token
of `1.` carries 1. And the two evaluations of the claim: `.5 + .5` gives 1 and `1.5 * 2`
gives 3. -/
theorem C10_number_token_witness :
    decimalValue ['.', '5'] = 1 / 2 ∧
    (∃ v : F64,
      Lexer.nextToken F64.arith ⟨['.', '5'], 0⟩ = (⟨['.', '5'], 2⟩, .ok ⟨.NUMBER, v⟩) ∧
      F64.IsNearest (decimalValue ['.', '5']) v ∧ ∃ m e, v = .fin false m e) ∧
    Lexer.nextToken F64.arith ⟨['.', '5'], 0⟩
      = (⟨['.', '5'], 2⟩, .ok ⟨.NUMBER, .fin false (2 ^ 52) (-53)⟩) ∧
    Lexer.nextToken F64.arith ⟨['1', '.'], 0⟩ = (⟨['1', '.'], 2⟩, .ok ⟨.NUMBER, F64.ofNat 1⟩) ∧
    evalLine F64.arith ['.', '5', ' ', '+', ' ', '.', '5'] = .ok (F64.ofNat 1) ∧
    evalLine F64.arith ['1', '.', '5', ' ', '*', ' ', '2'] = .ok (F64.ofNat 3) := by
  have h5 : digit '5' = 5 := rfl
  have hval : decimalValue ['.', '5'] = 1 / 2 := by
    norm_num [decimalValue, intValue, fracValue, h5]
  refine ⟨hval, ?_, rfl, rfl, by decide!, by decide!⟩
  exact (C10_number_token [] [] ['.', '5'] [] (by simp)
    ⟨by simp, by simp [isdigit], by decide⟩ (by simp)).1
    ⟨⟨'5', by simp, by decide⟩,
      F64.converts_of_bounds (-1) 0 (by norm_num) (by norm_num)
        (by rw [hval]; norm_num) (by rw [hval]; norm_num)⟩

set_option exponentiation.threshold 3000 in
set_option maxRecDepth 100000 in
/-- C10 as stated fails on a literal out of the range of `double`, on either side. `2`
followed by 400 zeros (an overflow) and `.` followed by 400 zeros and `1` (an underflow)
are number literals with at least one digit, and `nextToken` produces no `NUMBER` token
for them but fails with `InvalidNumber` (`std::stod` throws `out_of_range`). -/
theorem C10_counterexample_out_of_range :
    (NumberLiteral ('2' :: List.replicate 400 '0') ∧
      (Lexer.nextToken F64.arith ⟨'2' :: List.replicate 400 '0', 0⟩).2
        = .error (.InvalidNumber ('2' :: List.replicate 400 '0'))) ∧
    (NumberLiteral ('.' :: (List.replicate 400 '0' ++ ['1'])) ∧
      (Lexer.nextToken F64.arith ⟨'.' :: (List.replicate 400 '0' ++ ['1']), 0⟩).2
        = .error (.InvalidNumber ('.' :: (List.replicate 400 '0' ++ ['1'])))) := by
  have hlit : NumberLiteral ('2' :: List.replicate 400 '0') := by
    refine ⟨by simp, ?_, ?_⟩
    · intro c hc
      simp only [List.mem_cons, List.mem_replicate] at hc
      rcases hc with h | ⟨_, h⟩ <;> subst h <;> left <;> decide
    · rw [List.count_eq_zero_of_not_mem]
      · omega
      · intro hc
        simp only [List.mem_cons, List.mem_replicate] at hc
        rcases hc with h | ⟨_, h⟩ <;> revert h <;> decide
  have hlit2 : NumberLiteral ('.' :: (List.replicate 400 '0' ++ ['1'])) := by
    refine ⟨by simp, ?_, ?_⟩
    · intro c hc
      simp only [List.mem_cons, List.mem_append, List.mem_replicate, List.mem_singleton,
        List.not_mem_nil, or_false] at hc
      rcases hc with h | ⟨_, h⟩ | h
      · right; exact h
      · subst h; left; decide
      · subst h; left; decide
    · rw [List.count_cons_self, List.count_eq_zero_of_not_mem]
      intro hc
      simp only [List.mem_append, List.mem_replicate, List.mem_singleton, List.mem_cons,
        List.not_mem_nil, or_false] at hc
      rcases hc with ⟨_, h⟩ | h <;> revert h <;> decide
  refine ⟨⟨hlit, ?_⟩, hlit2, ?_⟩
  · have hst : F64.arith.stod ('2' :: List.replicate 400 '0') = none := by decide!
    rw [nextToken_eq_lexText, List.drop_zero, lexText_literal F64.arith hlit, hst]
  · have hst : F64.arith.stod ('.' :: (List.replicate 400 '0' ++ ['1'])) = none := by decide!
    rw [nextToken_eq_lexText, List.drop_zero, lexText_literal F64.arith hlit2, hst]

/-! ## Binary64: every result of an evaluation is a well-formed double -/

namespace F64

end F64

/-! ## Values that the parser can return -/

section Values
variable {σ α : Type} (A : Arith α) (next : σ → σ × Except Err (Token α))

end Values

end ExprEval
